import Mathlib

/-!
Tonie header decoder (`BoxTonies.cpp`) and battery monitor (`BoxBattery.cpp`).

A shallow embedding of `BoxTonies::readVariant`, of the decoding part of
`BoxTonies::loadTonieByPath` and of `BoxBattery::begin` and `BoxBattery::loop`,
followed by theorems about them.

Conventions of the embedding:

* a byte is a `Nat` below 256 and a buffer is a `List Nat`; `buffer.getD i 0`
  stands for the C++ read `buffer[i]`;
* machine integers are `Nat` with an explicit reduction where the C++ type
  can wrap (`uint8_t readBytes`, `uint16_t cursor`, `uint64_t ret`, the
  `(uint32_t)` and `(uint8_t)` casts);
* `while` loops that the C++ types do not bound are run with a fuel counter
  and return `none` when the fuel runs out, so "the call returns" is
  `∃ r, f fuel .. = some r` and "the call never returns" is
  `∀ fuel, f fuel .. = none`;
* the logger is a list of messages, oldest first.
-/

namespace BoxTonies

/-! ## Data model -/

/-- Modelled from the spec: the `header` member declared in `BoxTonies.h`
(absent from the sources), with the fields `loadTonieByPath` assigns:
a 20-byte `hash`, the 32-bit `audioLength` and `audioId`, the 8-bit
`audioChapterCount` and the array `audioChapters` of 32-bit markers. -/
structure TonieHeader where
  hash : List Nat
  audioLength : Nat
  audioId : Nat
  audioChapterCount : Nat
  audioChapters : List Nat
deriving DecidableEq, Repr

/-- The messages `loadTonieByPath` hands to `Log`, each with the values the
format string prints. `tonieHeader` is one call of `logTonieHeader`, which
prints the header as it stands at that moment with `Log.info`. -/
inductive LogMsg where
  | loading
  | hashLength (size : Nat)
  | headerLength (len : Nat)
  | unexpectedField (fieldId fieldType : Nat)
  | unexpectedBeginning (b0 b1 b2 b3 : Nat)
  | couldNotRead
  | couldNotOpen
  | tonieHeader (header : TonieHeader)
deriving DecidableEq, Repr

/-- The messages written with `Log.error`; the others are `Log.info`. -/
def LogMsg.isError : LogMsg → Bool
  | .loading => false
  | .tonieHeader _ => false
  | _ => true

/-- The variables the field loop of `loadTonieByPath` works on. -/
structure DecodeState where
  cursor : Nat
  header : TonieHeader
  log : List LogMsg
deriving DecidableEq, Repr

/-! ## `readVariant` -/

/-- The `while (readBytes<length)` loop of `readVariant`, entered with the
current `ret` and `readBytes`. The result is `(ret, readBytes)` on return.
`readBytes` is a `uint8_t`, so `readBytes++` wraps at 256; `ret` is a
`uint64_t`, so the shifted value keeps its low 64 bits. From `readBytes = 10`
on the shift count is 70 or more, which C++ leaves undefined for a 64-bit
operand; the model gives it the mathematical value, with all bits shifted out. -/
def readVariantLoop (buffer : List Nat) (length : Nat) : Nat → Nat → Nat → Option (Nat × Nat)
  | 0, _, _ => none
  | fuel + 1, ret, readBytes =>
    if readBytes < length then
      let data := buffer.getD readBytes 0
      let ret := ret ||| (((data &&& 0x7F) <<< (7 * readBytes)) % 2 ^ 64)
      let readBytes := (readBytes + 1) % 256
      if data &&& 0x80 = 0 then
        some (ret, readBytes)
      else
        readVariantLoop buffer length fuel ret readBytes
    else
      some (ret, readBytes)

/-- The function `uint64_t readVariant(uint8_t* buffer, uint16_t length, uint8_t& readBytes)`:
`buffer` is the memory from the pointer on, the result the returned value and
`readBytes`. -/
def readVariant (fuel : Nat) (buffer : List Nat) (length : Nat) : Option (Nat × Nat) :=
  readVariantLoop buffer length fuel 0 0

/-! ## `loadTonieByPath` -/

/-- The array `magicBytes` of `loadTonieByPath`. -/
def magicBytes : List Nat := [0x00, 0x00, 0x0F, 0xFC]

/-- The window length `bufferLen-cursor` as `readVariant` receives it: the
difference is computed in `int` and converted to `uint16_t`. -/
def windowLength (bufferLen cursor : Nat) : Nat :=
  (((bufferLen : Int) - (cursor : Int)) % 65536).toNat

/-- The copy `memcpy(&header.hash[0], &buffer[cursor], size)` with `size == 20`.
The 20 source bytes need not lie inside the bytes read; a position past the end
of the list `buffer` reads as 0. -/
def copyHash (buffer : List Nat) (cursor : Nat) : List Nat :=
  (List.range 20).map (fun i => buffer.getD (cursor + i) 0)

/-- The `for (uint8_t i=0; i<header.audioChapterCount; i++)` loop with
`remaining` iterations left: each reads one varint at the cursor, keeps its
low 32 bits and advances the cursor. The result is the entries written, in
index order, and the cursor after the loop. -/
def chapterLoop (fuel : Nat) (buffer : List Nat) (bufferLen : Nat) :
    Nat → Nat → Option (List Nat × Nat)
  | 0, cursor => some ([], cursor)
  | remaining + 1, cursor =>
    match readVariant fuel (buffer.drop cursor) (windowLength bufferLen cursor) with
    | none => none
    | some (value, readBytes) =>
      match chapterLoop fuel buffer bufferLen remaining ((cursor + readBytes) % 65536) with
      | none => none
      | some (chapters, cursor) => some ((value % 2 ^ 32) :: chapters, cursor)

/-- The `while (cursor < bufferLen-1)` loop of `loadTonieByPath`. -/
def fieldLoop (buffer : List Nat) (bufferLen : Nat) : Nat → DecodeState → Option DecodeState
  | 0, _ => none
  | fuel + 1, s =>
    if (s.cursor : Int) < (bufferLen : Int) - 1 then
      let fieldId := buffer.getD s.cursor 0 >>> 3
      let fieldType := buffer.getD s.cursor 0 &&& 0b00000111
      let cursor := (s.cursor + 1) % 65536
      if fieldId = 1 ∧ fieldType = 2 then
        match readVariant fuel (buffer.drop cursor) (windowLength bufferLen cursor) with
        | none => none
        | some (size, readBytes) =>
          let cursor := (cursor + readBytes) % 65536
          if size = 20 then
            let header := { s.header with hash := copyHash buffer cursor }
            let cursor := (cursor + size) % 65536
            fieldLoop buffer bufferLen fuel
              { cursor := cursor, header := header, log := s.log ++ [.tonieHeader header] }
          else
            some { cursor := cursor, header := s.header, log := s.log ++ [.hashLength size] }
      else if fieldId = 2 ∧ fieldType = 0 then
        match readVariant fuel (buffer.drop cursor) (windowLength bufferLen cursor) with
        | none => none
        | some (value, readBytes) =>
          let header := { s.header with audioLength := value % 2 ^ 32 }
          fieldLoop buffer bufferLen fuel
            { cursor := (cursor + readBytes) % 65536, header := header,
              log := s.log ++ [.tonieHeader header] }
      else if fieldId = 3 ∧ fieldType = 0 then
        match readVariant fuel (buffer.drop cursor) (windowLength bufferLen cursor) with
        | none => none
        | some (value, readBytes) =>
          let header := { s.header with audioId := value % 2 ^ 32 }
          fieldLoop buffer bufferLen fuel
            { cursor := (cursor + readBytes) % 65536, header := header,
              log := s.log ++ [.tonieHeader header] }
      else if fieldId = 4 ∧ fieldType = 2 then
        match readVariant fuel (buffer.drop cursor) (windowLength bufferLen cursor) with
        | none => none
        | some (value, readBytes) =>
          let count := value % 256
          match chapterLoop fuel buffer bufferLen count ((cursor + readBytes) % 65536) with
          | none => none
          | some (chapters, cursor) =>
            let header :=
              { s.header with audioChapterCount := count, audioChapters := chapters }
            fieldLoop buffer bufferLen fuel
              { cursor := cursor, header := header, log := s.log ++ [.tonieHeader header] }
      else if fieldId = 5 ∧ fieldType = 2 then
        match readVariant fuel (buffer.drop cursor) (windowLength bufferLen cursor) with
        | none => none
        | some (fillByteCount, readBytes) =>
          let cursor := (cursor + readBytes) % 65536
          if (fillByteCount + cursor) % 2 ^ 64 ≠ 4096 then
            some { cursor := cursor, header := s.header,
                   log := s.log ++ [.headerLength ((fillByteCount + cursor) % 2 ^ 64)] }
          else
            some { cursor := cursor, header := s.header, log := s.log }
      else
        some { cursor := cursor, header := s.header,
               log := s.log ++ [.unexpectedField fieldId fieldType] }
    else
      some s

/-- The function `void BoxTonies::loadTonieByPath(uint8_t* path)`. The file system is a
parameter: `opened` is the result of `tonieFile.open`, `buffer` the local
array after `tonieFile.read` and `read` the count that call returned.
`header` is the member `header` before the call. The result is the member
after the call and the messages logged. -/
def loadTonieByPath (fuel : Nat) (opened : Bool) (buffer : List Nat) (read : Nat)
    (header : TonieHeader) : Option (TonieHeader × List LogMsg) :=
  let log := [LogMsg.loading]
  if opened then
    let bufferLen := read % 65536
    if read > 0 then
      if buffer.take 4 = magicBytes then
        match fieldLoop buffer bufferLen fuel { cursor := 4, header := header, log := log } with
        | none => none
        | some s => some (s.header, s.log)
      else
        some (header, log ++ [.unexpectedBeginning (buffer.getD 0 0) (buffer.getD 1 0)
          (buffer.getD 2 0) (buffer.getD 3 0)])
    else
      some (header, log ++ [.couldNotRead])
  else
    some (header, log ++ [.couldNotOpen])

/-- The member `header` with every field zero: the prior state used in the
worked examples. -/
def blankHeader : TonieHeader :=
  { hash := List.replicate 20 0, audioLength := 0, audioId := 0, audioChapterCount := 0,
    audioChapters := [] }

/-! ## Reference encoder

The repository only decodes. The encoder below follows the wording of the
format description (canonical base-128 varints, one tag byte per field) and
is what the decoder is compared against. -/

/-- Canonical little-endian base-128 encoding with `fuel` bytes to spare:
7 bits per byte, the high bit set on every byte but the last. -/
def encodeVarintAux : Nat → Nat → List Nat
  | 0, n => [n]
  | fuel + 1, n =>
    if n < 128 then [n] else (n % 128 + 128) :: encodeVarintAux fuel (n / 128)

/-- Canonical varint encoding of `n`. -/
def encodeVarint (n : Nat) : List Nat := encodeVarintAux n n

/-- One canonical varint per entry, in list order. -/
def encodeVarints : List Nat → List Nat
  | [] => []
  | c :: cs => encodeVarint c ++ encodeVarints cs

/-- The header bytes up to and including the fill varint: magic, hash field
(tag `0x0A`, length 20), audio length (tag `0x10`), audio id (tag `0x18`),
chapters (tag `0x22`, count, one varint per chapter) and padding field
(tag `0x2A`, fill count). -/
def encodeHeader (hash : List Nat) (audioLength audioId : Nat) (chapters : List Nat)
    (fill : Nat) : List Nat :=
  magicBytes ++ (0x0A :: encodeVarint 20 ++ hash) ++ (0x10 :: encodeVarint audioLength)
    ++ (0x18 :: encodeVarint audioId)
    ++ (0x22 :: encodeVarint chapters.length ++ encodeVarints chapters)
    ++ (0x2A :: encodeVarint fill)

/-- The file contents: the encoded header followed by `fill` zero bytes. -/
def encodeFile (hash : List Nat) (audioLength audioId : Nat) (chapters : List Nat)
    (fill : Nat) : List Nat :=
  encodeHeader hash audioLength audioId chapters fill ++ List.replicate fill 0

/-! ## Predicates used in the statements -/

/-- A byte that ends a varint: its high bit `0x80` is clear. -/
def isTerminator (b : Nat) : Bool := b &&& 0x80 = 0

/-- The number of complete varints in a byte sequence, which is the number
of its terminating bytes. -/
def completeVarints (bytes : List Nat) : Nat := bytes.countP isTerminator

/-- No 255 consecutive bytes among the first `bufferLen` all have the high
bit set: every varint started inside the read bytes ends, or meets the end
of the read bytes, before `readBytes` can wrap. The start `p` of a run of 255
read bytes satisfies `p + 255 ≤ bufferLen`, which is `p < bufferLen - 254`. -/
def shortVarints (buffer : List Nat) (bufferLen : Nat) : Prop :=
  ∀ p, p < bufferLen - 254 → ∃ t, t < 255 ∧ isTerminator (buffer.getD (p + t) 0) = true

instance (buffer : List Nat) (bufferLen : Nat) : Decidable (shortVarints buffer bufferLen) := by
  unfold shortVarints
  infer_instance

/-- The relation between two decodings of the same bytes started from the prior
headers `h1` and `h2` and ending with the headers `r1` and `r2`: each header
field is either the same in both results (it was overwritten) or still holds
the value of the respective prior header (it was not touched). -/
def overwrittenOrKept (h1 h2 r1 r2 : TonieHeader) : Prop :=
  (r1.hash = r2.hash ∨ (r1.hash = h1.hash ∧ r2.hash = h2.hash)) ∧
  (r1.audioLength = r2.audioLength ∨
    (r1.audioLength = h1.audioLength ∧ r2.audioLength = h2.audioLength)) ∧
  (r1.audioId = r2.audioId ∨ (r1.audioId = h1.audioId ∧ r2.audioId = h2.audioId)) ∧
  (r1.audioChapterCount = r2.audioChapterCount ∨
    (r1.audioChapterCount = h1.audioChapterCount ∧
      r2.audioChapterCount = h2.audioChapterCount)) ∧
  (r1.audioChapters = r2.audioChapters ∨
    (r1.audioChapters = h1.audioChapters ∧ r2.audioChapters = h2.audioChapters))

/-! ## The same code with the buffer reads recorded

The definitions below repeat `readVariant` and the loops of `loadTonieByPath`
statement by statement and add, to each result, the buffer indices read, in
the order they are read; the field loop also reports which statement left it.
`readVariantTrace_erase` to `loadTonieByPathTrace_erase` state that dropping
the additions gives back the definitions above. -/

/-- The way the `while (cursor < bufferLen-1)` loop is left: its condition
failed, or one of the three `break` statements was executed (hash length,
padding field, unexpected field). -/
inductive LoopExit where
  | condition
  | hashLength
  | padding
  | unexpectedField
deriving DecidableEq, Repr

/-- The loop of `readVariant` with the indices `readBytes` at which
`buffer[readBytes]` is read, which are relative to the pointer passed in. -/
def readVariantLoopTrace (buffer : List Nat) (length : Nat) :
    Nat → Nat → Nat → Option (Nat × Nat × List Nat)
  | 0, _, _ => none
  | fuel + 1, ret, readBytes =>
    if readBytes < length then
      let data := buffer.getD readBytes 0
      let ret := ret ||| (((data &&& 0x7F) <<< (7 * readBytes)) % 2 ^ 64)
      let next := (readBytes + 1) % 256
      if data &&& 0x80 = 0 then
        some (ret, next, [readBytes])
      else
        match readVariantLoopTrace buffer length fuel ret next with
        | none => none
        | some (value, readBytes', reads) => some (value, readBytes', readBytes :: reads)
    else
      some (ret, readBytes, [])

/-- The function `readVariant` with the indices read, relative to the pointer. -/
def readVariantTrace (fuel : Nat) (buffer : List Nat) (length : Nat) :
    Option (Nat × Nat × List Nat) :=
  readVariantLoopTrace buffer length fuel 0 0

/-- The chapter loop with the indices of `buffer` read by its calls of
`readVariant(&buffer[cursor], ...)`. -/
def chapterLoopTrace (fuel : Nat) (buffer : List Nat) (bufferLen : Nat) :
    Nat → Nat → Option (List Nat × Nat × List Nat)
  | 0, cursor => some ([], cursor, [])
  | remaining + 1, cursor =>
    match readVariantTrace fuel (buffer.drop cursor) (windowLength bufferLen cursor) with
    | none => none
    | some (value, readBytes, reads) =>
      match chapterLoopTrace fuel buffer bufferLen remaining ((cursor + readBytes) % 65536) with
      | none => none
      | some (chapters, cursor', reads') =>
        some ((value % 2 ^ 32) :: chapters, cursor', reads.map (cursor + ·) ++ reads')

/-- The indices read by `memcpy(&header.hash[0], &buffer[cursor], 20)`. -/
def copyHashReads (cursor : Nat) : List Nat :=
  (List.range 20).map (cursor + ·)

/-- The field loop of `loadTonieByPath` with the way it is left and the indices
of `buffer` read: the tag byte, the bytes read by `readVariant` and the bytes
copied into `header.hash`. -/
def fieldLoopTrace (buffer : List Nat) (bufferLen : Nat) :
    Nat → DecodeState → Option (DecodeState × LoopExit × List Nat)
  | 0, _ => none
  | fuel + 1, s =>
    if (s.cursor : Int) < (bufferLen : Int) - 1 then
      let fieldId := buffer.getD s.cursor 0 >>> 3
      let fieldType := buffer.getD s.cursor 0 &&& 0b00000111
      let cursor := (s.cursor + 1) % 65536
      if fieldId = 1 ∧ fieldType = 2 then
        match readVariantTrace fuel (buffer.drop cursor) (windowLength bufferLen cursor) with
        | none => none
        | some (size, readBytes, reads) =>
          let reads := s.cursor :: reads.map (cursor + ·)
          let cursor := (cursor + readBytes) % 65536
          if size = 20 then
            let header := { s.header with hash := copyHash buffer cursor }
            let reads := reads ++ copyHashReads cursor
            let cursor := (cursor + size) % 65536
            match fieldLoopTrace buffer bufferLen fuel
              { cursor := cursor, header := header, log := s.log ++ [.tonieHeader header] } with
            | none => none
            | some (s', exit, reads') => some (s', exit, reads ++ reads')
          else
            some ({ cursor := cursor, header := s.header, log := s.log ++ [.hashLength size] },
              .hashLength, reads)
      else if fieldId = 2 ∧ fieldType = 0 then
        match readVariantTrace fuel (buffer.drop cursor) (windowLength bufferLen cursor) with
        | none => none
        | some (value, readBytes, reads) =>
          let header := { s.header with audioLength := value % 2 ^ 32 }
          match fieldLoopTrace buffer bufferLen fuel
            { cursor := (cursor + readBytes) % 65536, header := header,
              log := s.log ++ [.tonieHeader header] } with
          | none => none
          | some (s', exit, reads') =>
            some (s', exit, s.cursor :: reads.map (cursor + ·) ++ reads')
      else if fieldId = 3 ∧ fieldType = 0 then
        match readVariantTrace fuel (buffer.drop cursor) (windowLength bufferLen cursor) with
        | none => none
        | some (value, readBytes, reads) =>
          let header := { s.header with audioId := value % 2 ^ 32 }
          match fieldLoopTrace buffer bufferLen fuel
            { cursor := (cursor + readBytes) % 65536, header := header,
              log := s.log ++ [.tonieHeader header] } with
          | none => none
          | some (s', exit, reads') =>
            some (s', exit, s.cursor :: reads.map (cursor + ·) ++ reads')
      else if fieldId = 4 ∧ fieldType = 2 then
        match readVariantTrace fuel (buffer.drop cursor) (windowLength bufferLen cursor) with
        | none => none
        | some (value, readBytes, reads) =>
          let count := value % 256
          match chapterLoopTrace fuel buffer bufferLen count ((cursor + readBytes) % 65536) with
          | none => none
          | some (chapters, cursor', chapterReads) =>
            let header :=
              { s.header with audioChapterCount := count, audioChapters := chapters }
            match fieldLoopTrace buffer bufferLen fuel
              { cursor := cursor', header := header, log := s.log ++ [.tonieHeader header] } with
            | none => none
            | some (s', exit, reads') =>
              some (s', exit, s.cursor :: reads.map (cursor + ·) ++ chapterReads ++ reads')
      else if fieldId = 5 ∧ fieldType = 2 then
        match readVariantTrace fuel (buffer.drop cursor) (windowLength bufferLen cursor) with
        | none => none
        | some (fillByteCount, readBytes, reads) =>
          let reads := s.cursor :: reads.map (cursor + ·)
          let cursor := (cursor + readBytes) % 65536
          if (fillByteCount + cursor) % 2 ^ 64 ≠ 4096 then
            some ({ cursor := cursor, header := s.header,
                    log := s.log ++ [.headerLength ((fillByteCount + cursor) % 2 ^ 64)] },
              .padding, reads)
          else
            some ({ cursor := cursor, header := s.header, log := s.log }, .padding, reads)
      else
        some ({ cursor := cursor, header := s.header,
                log := s.log ++ [.unexpectedField fieldId fieldType] },
          .unexpectedField, [s.cursor])
    else
      some (s, .condition, [])

/-- The function `loadTonieByPath` with the indices of `buffer` read: the 4
bytes compared with `magicBytes`, then the reads of the field loop or, when the
comparison fails, the 4 bytes printed in the error message. -/
def loadTonieByPathTrace (fuel : Nat) (opened : Bool) (buffer : List Nat) (read : Nat)
    (header : TonieHeader) : Option (TonieHeader × List LogMsg × List Nat) :=
  let log := [LogMsg.loading]
  if opened then
    let bufferLen := read % 65536
    if read > 0 then
      if buffer.take 4 = magicBytes then
        match fieldLoopTrace buffer bufferLen fuel
          { cursor := 4, header := header, log := log } with
        | none => none
        | some (s, _, reads) => some (s.header, s.log, [0, 1, 2, 3] ++ reads)
      else
        some (header, log ++ [.unexpectedBeginning (buffer.getD 0 0) (buffer.getD 1 0)
          (buffer.getD 2 0) (buffer.getD 3 0)], [0, 1, 2, 3] ++ [0, 1, 2, 3])
    else
      some (header, log ++ [.couldNotRead], [])
  else
    some (header, log ++ [.couldNotOpen], [])

end BoxTonies

namespace BoxBattery

/-! ## Battery monitor (`BoxBattery.cpp`) -/

/-- The events that `BoxBattery::loop` hands to `Events.handleBatteryEvent`. -/
inductive BatteryEvent where
  | BAT_LOW
  | BAT_CRITICAL
  | CHR_CONNECT
  | CHR_DISCONNECT
  deriving DecidableEq

/-- The members of `BoxBattery` that `begin` and `loop` read or write. The two
thresholds are copied from the configuration by `reloadConfig`. -/
structure BatteryState where
  _wasLow : Bool
  _wasCritical : Bool
  _batteryAdcRaw : Nat
  _batteryAdcLowRaw : Nat
  _batteryLowAdc : Nat
  _batteryCriticalAdc : Nat
  deriving DecidableEq

/-- What one call of `loop` obtains from the hardware: the value returned by
`analogReadAvg`, and the answers of the charger pin object `_charger` after
`_charger.read()`. The class of `_charger` is not part of `BoxBattery.cpp`, so
its three answers are inputs of the step; `isPressed` is asked several times in
one call of `loop` with no `read()` in between and is one value per call. -/
structure Reading where
  adcValue : Nat
  isPressed : Bool
  wasPressed : Bool
  wasReleased : Bool
  deriving DecidableEq

/-- `BoxBattery::_readBatteryAdc`: the averaged reading is stored through a
`uint16_t`. -/
def _readBatteryAdc (s : BatteryState) (adcValue : Nat) : BatteryState :=
  { s with _batteryAdcRaw := adcValue % 65536 }

/-- `BoxBattery::isChargerConnected`. -/
def isChargerConnected (r : Reading) : Bool :=
  if r.isPressed then true else false

/-- `BoxBattery::getBatteryAdcRaw`. -/
def getBatteryAdcRaw (s : BatteryState) : Nat :=
  s._batteryAdcRaw

/-- `BoxBattery::isBatteryLow`. -/
def isBatteryLow (s : BatteryState) : Bool :=
  if getBatteryAdcRaw s < s._batteryLowAdc then true else false

/-- `BoxBattery::isBatteryCritical`. -/
def isBatteryCritical (s : BatteryState) : Bool :=
  if getBatteryAdcRaw s < s._batteryCriticalAdc then true else false

/-- `BoxBattery::loop`: one step on the state, returning the events handed to
`Events.handleBatteryEvent` in call order. -/
def loop (s : BatteryState) (r : Reading) : BatteryState × List BatteryEvent :=
  let s := _readBatteryAdc s r.adcValue
  let s :=
    if s._batteryAdcRaw < s._batteryAdcLowRaw ∨ isChargerConnected r = true then
      { s with _batteryAdcLowRaw := s._batteryAdcRaw }
    else s
  let chargerEvents : List BatteryEvent :=
    if r.wasPressed then [.CHR_CONNECT]
    else if r.wasReleased then [.CHR_DISCONNECT]
    else []
  if !isChargerConnected r then
    if !s._wasCritical && isBatteryCritical s then
      ({ s with _wasCritical := true }, chargerEvents ++ [.BAT_CRITICAL])
    else if !s._wasLow && isBatteryLow s then
      ({ s with _wasLow := true }, chargerEvents ++ [.BAT_LOW])
    else (s, chargerEvents)
  else
    ({ s with _wasLow := false, _wasCritical := false }, chargerEvents)

/-- The state in which `BoxBattery::begin` calls `loop`: `reloadConfig` has
stored the two thresholds `lowAdc` and `criticalAdc` of the configuration, both
flags are cleared and the ADC has been read once. -/
def beginState (s : BatteryState) (lowAdc criticalAdc adcValue : Nat) : BatteryState :=
  let s := { s with _batteryLowAdc := lowAdc, _batteryCriticalAdc := criticalAdc }
  let s := { s with _wasLow := false, _wasCritical := false }
  _readBatteryAdc s adcValue

/-- `BoxBattery::begin`, which ends with a first call of `loop`. The pin and
thread set-up and the log output of `logBatteryStatus` are left out. -/
def begin (s : BatteryState) (lowAdc criticalAdc adcValue : Nat) (r : Reading) :
    BatteryState × List BatteryEvent :=
  loop (beginState s lowAdc criticalAdc adcValue) r

/-- The events of successive calls of `loop`, one list for each call. -/
def loops (s : BatteryState) : List Reading → List (List BatteryEvent)
  | [] => []
  | r :: rs => (loop s r).2 :: loops (loop s r).1 rs

/-- The events of `begin` followed by one call of `loop` for each further
reading, one list for each call of `loop`; the first list is that of the call
inside `begin`. -/
def session (s : BatteryState) (lowAdc criticalAdc adcValue : Nat) (r : Reading)
    (rs : List Reading) : List (List BatteryEvent) :=
  (begin s lowAdc criticalAdc adcValue r).2 ::
    loops (begin s lowAdc criticalAdc adcValue r).1 rs

end BoxBattery

namespace BoxTonies

/-! ## Bytes and bit operations -/

theorem and_7F_of_lt {m : Nat} (h : m < 128) : m &&& 0x7F = m := by
  have := Nat.and_pow_two_sub_one_eq_mod m 7
  simp at this
  rw [this]; exact Nat.mod_eq_of_lt h

theorem and_7F_add_128 (m : Nat) : (m % 128 + 128) &&& 0x7F = m % 128 := by
  have := Nat.and_pow_two_sub_one_eq_mod (m % 128 + 128) 7
  simp at this
  rw [this]

theorem and_80_of_lt {m : Nat} (h : m < 128) : m &&& 0x80 = 0 := by
  apply Nat.eq_of_testBit_eq
  intro j
  simp only [Nat.testBit_and, Nat.zero_testBit]
  by_cases hj : j < 7
  · have : Nat.testBit 0x80 j = false := by
      interval_cases j <;> decide
    simp [this]
  · have : m.testBit j = false := by
      apply Nat.testBit_lt_two_pow
      calc m < 128 := h
        _ = 2 ^ 7 := by norm_num
        _ ≤ 2 ^ j := Nat.pow_le_pow_right (by norm_num) (by omega)
    simp [this]

theorem and_80_add_128 (m : Nat) : (m % 128 + 128) &&& 0x80 ≠ 0 := by
  intro h
  have h7 : ((m % 128 + 128) &&& 0x80).testBit 7 = false := by rw [h]; simp
  rw [Nat.testBit_and] at h7
  have : (m % 128 + 128).testBit 7 = true := by
    have := @Nat.testBit_two_pow_add_eq (m % 128) 7
    have e : m % 128 + 128 = 2 ^ 7 + m % 128 := by norm_num; omega
    rw [e, this]
    have : (m % 128).testBit 7 = false := Nat.testBit_lt_two_pow (by norm_num; omega)
    simp [this]
  rw [this] at h7
  revert h7; decide

theorem lor_shift_eq_add {ret P : Nat} {i : Nat} (hP : P = 2 ^ i) (h : ret < P) (a : Nat) :
    ret ||| (a * P) = ret + a * P := by
  subst hP
  rw [Nat.or_comm, Nat.mul_comm a, ← Nat.mul_add_lt_is_or h, Nat.add_comm]

theorem getD_append_cons (pre : List Nat) (d : Nat) (tl : List Nat) :
    (pre ++ d :: tl).getD pre.length 0 = d := by
  induction pre with
  | nil => rfl
  | cons a pre ih => simpa using ih

theorem encodeVarintAux_length_pos (k m : Nat) : 0 < (encodeVarintAux k m).length := by
  cases k with
  | zero => simp [encodeVarintAux]
  | succ k => unfold encodeVarintAux; split <;> simp

theorem readVariantLoop_encode (k : Nat) : ∀ (m i ret fuel : Nat) (pre rest : List Nat) (L : Nat),
    m ≤ k → pre.length = i → ret < 2 ^ (7 * i) → ret + m * 2 ^ (7 * i) < 2 ^ 64 →
    (i = 0 ∨ 0 < m) → i + (encodeVarintAux k m).length ≤ L →
    (encodeVarintAux k m).length ≤ fuel →
    readVariantLoop (pre ++ encodeVarintAux k m ++ rest) L fuel ret i
      = some (ret + m * 2 ^ (7 * i), i + (encodeVarintAux k m).length) := by
  induction k with
  | zero =>
    intro m i ret fuel pre rest L hm hpre hret hsum hi hL hfuel
    have hm0 : m = 0 := by omega
    subst hm0
    have hi0 : i = 0 := by omega
    subst hi0
    simp only [encodeVarintAux, List.length_singleton] at hL hfuel ⊢
    obtain ⟨f, rfl⟩ : ∃ f, fuel = f + 1 := ⟨fuel - 1, by omega⟩
    have hp : pre = [] := List.length_eq_zero.mp hpre
    subst hp
    simp [readVariantLoop]
    first | done | omega
  | succ k ih =>
    intro m i ret fuel pre rest L hm hpre hret hsum hi hL hfuel
    have hpos := encodeVarintAux_length_pos (k + 1) m
    obtain ⟨f, rfl⟩ : ∃ f, fuel = f + 1 := ⟨fuel - 1, by omega⟩
    have hi9 : i ≤ 9 := by
      rcases hi with h | h
      · omega
      · have h1 : 2 ^ (7 * i) ≤ m * 2 ^ (7 * i) := Nat.le_mul_of_pos_left _ h
        have h2 : 2 ^ (7 * i) < 2 ^ 64 := by omega
        have := (Nat.pow_lt_pow_iff_right (by norm_num : 1 < 2)).mp h2
        omega
    have hmod : (i + 1) % 256 = i + 1 := Nat.mod_eq_of_lt (by omega)
    have hget : ∀ d tl, (pre ++ d :: tl).getD i 0 = d := by
      intro d tl
      subst hpre
      exact getD_append_cons pre d tl
    unfold encodeVarintAux at hL hfuel ⊢
    by_cases hlt : m < 128
    · simp only [hlt, if_true, List.length_singleton] at hL hfuel ⊢
      have hiL : i < L := by omega
      have hsh : m * 2 ^ (7 * i) % 2 ^ 64 = m * 2 ^ (7 * i) := Nat.mod_eq_of_lt (by omega)
      rw [readVariantLoop]
      simp only [hiL, if_true, List.append_assoc, List.singleton_append, hget, and_7F_of_lt hlt,
        and_80_of_lt hlt, Nat.shiftLeft_eq, hsh, hmod, lor_shift_eq_add rfl hret]
    · simp only [hlt, if_false, List.length_cons] at hL hfuel ⊢
      have hiL : i < L := by omega
      have hP : 2 ^ (7 * (i + 1)) = 128 * 2 ^ (7 * i) := by
        rw [show 7 * (i + 1) = 7 + 7 * i by ring, Nat.pow_add]
      generalize hPdef : 2 ^ (7 * i) = P at hret hsum hP
      have hdm : m = 128 * (m / 128) + m % 128 := (Nat.div_add_mod m 128).symm
      have hmP : m * P = (m / 128) * (128 * P) + (m % 128) * P := by
        conv_lhs => rw [hdm]
        ring
      have hlow : (m % 128) * P ≤ 127 * P := Nat.mul_le_mul_right P (by omega)
      have hsh : (m % 128) * P % 2 ^ 64 = (m % 128) * P :=
        Nat.mod_eq_of_lt (by omega)
      rw [readVariantLoop]
      simp only [hiL, if_true, List.append_assoc, List.cons_append, hget, and_7F_add_128,
        and_80_add_128, if_false, Nat.shiftLeft_eq, hPdef, hsh, hmod,
        lor_shift_eq_add hPdef.symm hret]
      have hrec := ih (m / 128) (i + 1) (ret + (m % 128) * P) f (pre ++ [m % 128 + 128]) rest L
        (by omega) (by simp [hpre]) (by rw [hP]; omega) (by rw [hP]; omega)
        (Or.inr (by omega)) (by omega) (by omega)
      simp only [List.append_assoc, List.singleton_append, List.cons_append, List.nil_append,
        hP] at hrec
      rw [hrec]
      congr 1
      simp only [Prod.mk.injEq]
      constructor <;> omega

/-! ## Facts about `readVariant` -/

theorem encodeVarintAux_length_le (k : Nat) : ∀ (n j : Nat), n < 2 ^ (7 * (j + 1)) →
    (encodeVarintAux k n).length ≤ j + 1 := by
  induction k with
  | zero => intro n j _; simp [encodeVarintAux]
  | succ k ih =>
    intro n j hn
    unfold encodeVarintAux
    by_cases hlt : n < 128
    · simp [hlt]
    · simp only [hlt, if_false, List.length_cons]
      cases j with
      | zero => simp at hn; omega
      | succ j =>
        have hP : 2 ^ (7 * (j + 1 + 1)) = 128 * 2 ^ (7 * (j + 1)) := by
          rw [show 7 * (j + 1 + 1) = 7 + 7 * (j + 1) by ring, Nat.pow_add]
        have := ih (n / 128) j (by rw [hP] at hn; omega)
        omega

theorem encodeVarint_length_le_ten {n : Nat} (h : n < 2 ^ 64) : (encodeVarint n).length ≤ 10 :=
  encodeVarintAux_length_le n n 9 (lt_of_lt_of_le h (by norm_num))

theorem readVariant_encode {n : Nat} (hn : n < 2 ^ 64) (rest : List Nat) {L fuel : Nat}
    (hL : (encodeVarint n).length ≤ L) (hfuel : (encodeVarint n).length ≤ fuel) :
    readVariant fuel (encodeVarint n ++ rest) L = some (n, (encodeVarint n).length) := by
  have := readVariantLoop_encode n n 0 0 fuel [] rest L (le_refl n) rfl (by norm_num)
    (by simpa using hn) (Or.inl rfl) (by simpa using hL) hfuel
  simpa [readVariant, encodeVarint] using this

theorem windowLength_eq {bufferLen cursor : Nat} (h : cursor ≤ bufferLen)
    (hlen : bufferLen < 65536) : windowLength bufferLen cursor = bufferLen - cursor := by
  unfold windowLength; omega

theorem isTerminator_iff (b : Nat) : isTerminator b = true ↔ b &&& 0x80 = 0 := by
  simp [isTerminator]

/-- An exhausted window: nothing is read, the value is 0. -/
theorem readVariant_zero_length (fuel : Nat) (buffer : List Nat) :
    readVariant (fuel + 1) buffer 0 = some (0, 0) := by
  simp [readVariant, readVariantLoop]

/-- The result `ret` is a 64-bit value and `readBytes` an 8-bit value no larger
than `length`. -/
theorem readVariantLoop_bounds (buffer : List Nat) (length : Nat) :
    ∀ (fuel ret i v rb : Nat), ret < 2 ^ 64 → i < 256 → i ≤ length →
      readVariantLoop buffer length fuel ret i = some (v, rb) →
      v < 2 ^ 64 ∧ rb < 256 ∧ rb ≤ length := by
  intro fuel
  induction fuel with
  | zero => intro ret i v rb _ _ _ h; simp [readVariantLoop] at h
  | succ f ih =>
    intro ret i v rb hret hi hil h
    rw [readVariantLoop] at h
    by_cases hlt : i < length
    · simp only [hlt, if_true] at h
      have hret' : ret ||| ((buffer.getD i 0 &&& 0x7F) <<< (7 * i)) % 2 ^ 64 < 2 ^ 64 :=
        Nat.or_lt_two_pow hret (Nat.mod_lt _ (by norm_num))
      have hi' : (i + 1) % 256 < 256 := Nat.mod_lt _ (by norm_num)
      have hil' : (i + 1) % 256 ≤ length := by
        have := Nat.mod_le (i + 1) 256
        omega
      by_cases ht : buffer.getD i 0 &&& 0x80 = 0
      · simp only [ht, if_true, Option.some.injEq, Prod.mk.injEq] at h
        obtain ⟨h1, h2⟩ := h
        subst h1 h2
        exact ⟨hret', hi', hil'⟩
      · simp only [ht, if_false] at h
        exact ih _ _ v rb hret' hi' hil' h
    · simp only [hlt, if_false, Option.some.injEq, Prod.mk.injEq] at h
      obtain ⟨h1, h2⟩ := h
      subst h1 h2
      exact ⟨hret, hi, hil⟩

theorem readVariant_bounds {fuel : Nat} {buffer : List Nat} {length v rb : Nat}
    (h : readVariant fuel buffer length = some (v, rb)) :
    v < 2 ^ 64 ∧ rb < 256 ∧ rb ≤ length :=
  readVariantLoop_bounds buffer length fuel 0 0 v rb (by norm_num) (by norm_num)
    (Nat.zero_le _) h

/-- With at least 256 bytes in the window and the first 256 all continuation
bytes, the loop never exits: `readBytes` wraps to 0 before reaching `length`. -/
theorem readVariantLoop_diverges (buffer : List Nat) (length : Nat) (hlen : 256 ≤ length)
    (hall : ∀ i, i < 256 → buffer.getD i 0 &&& 0x80 ≠ 0) :
    ∀ (fuel ret i : Nat), i < 256 → readVariantLoop buffer length fuel ret i = none := by
  intro fuel
  induction fuel with
  | zero => intro ret i _; rfl
  | succ f ih =>
    intro ret i hi
    rw [readVariantLoop]
    have hlt : i < length := by omega
    simp only [hlt, if_true, hall i hi, if_false]
    exact ih _ _ (Nat.mod_lt _ (by norm_num))

/-- Scanning from `i`, with the first terminating byte at `e`: the loop
returns after consuming `e + 1` bytes. -/
theorem readVariantLoop_stops_at (w : List Nat) (len e : Nat) (he : e < len) (he254 : e ≤ 254)
    (hterm : w.getD e 0 &&& 0x80 = 0) :
    ∀ (fuel ret i : Nat), i ≤ e → (∀ j, i ≤ j → j < e → w.getD j 0 &&& 0x80 ≠ 0) →
      e - i < fuel → ∃ v, readVariantLoop w len fuel ret i = some (v, e + 1) := by
  intro fuel
  induction fuel with
  | zero => intro ret i _ _ h; omega
  | succ f ih =>
    intro ret i hie hcont hfuel
    rw [readVariantLoop]
    have hlt : i < len := by omega
    have hmod : (i + 1) % 256 = i + 1 := Nat.mod_eq_of_lt (by omega)
    simp only [hlt, if_true, hmod]
    by_cases hi : i = e
    · subst hi
      simp only [hterm, if_true]
      exact ⟨_, rfl⟩
    · have hne := hcont i (le_refl i) (by omega)
      simp only [hne, if_false]
      exact ih _ (i + 1) (by omega) (fun j h1 h2 => hcont j (by omega) h2) (by omega)

/-- Scanning from `i` with no terminating byte before the end of the window:
the loop returns when the window is exhausted, having consumed all of it. -/
theorem readVariantLoop_exhausts (w : List Nat) (len : Nat) (hlen : len ≤ 255) :
    ∀ (fuel ret i : Nat), i ≤ len → (∀ j, i ≤ j → j < len → w.getD j 0 &&& 0x80 ≠ 0) →
      len - i < fuel → ∃ v, readVariantLoop w len fuel ret i = some (v, len) := by
  intro fuel
  induction fuel with
  | zero => intro ret i _ _ h; omega
  | succ f ih =>
    intro ret i hil hcont hfuel
    rw [readVariantLoop]
    by_cases hlt : i < len
    · have hmod : (i + 1) % 256 = i + 1 := Nat.mod_eq_of_lt (by omega)
      have hne := hcont i (le_refl i) hlt
      simp only [hlt, if_true, hmod, hne, if_false]
      exact ih _ (i + 1) (by omega) (fun j h1 h2 => hcont j (by omega) h2) (by omega)
    · have : i = len := by omega
      subst this
      simp only [lt_irrefl, if_false]
      exact ⟨_, rfl⟩

theorem getD_append_left_lt (pre : List Nat) (tl : List Nat) {i : Nat} (h : i < pre.length) :
    (pre ++ tl).getD i 0 = pre.getD i 0 := by
  simp [List.getD_eq_getElem?_getD, List.getElem?_append_left h]

theorem and_7F_and_7F (b : Nat) : b &&& 0x7F &&& 0x7F = b &&& 0x7F := by
  rw [Nat.and_assoc, Nat.and_self]

theorem and_7F_and_80 (b : Nat) : b &&& 0x7F &&& 0x80 = 0 := by
  rw [Nat.and_assoc]
  have : (0x7F &&& 0x80 : Nat) = 0 := by decide
  rw [this, Nat.and_zero]

/-- A window of continuation bytes only and the same window with the high
bit of its last byte cleared are read to the same result. -/
theorem readVariantLoop_unterminated_eq (init : List Nat) (b : Nat) (hlen : init.length ≤ 254)
    (hinit : ∀ j, j < init.length → init.getD j 0 &&& 0x80 ≠ 0) (hb : b &&& 0x80 ≠ 0) :
    ∀ (fuel ret i : Nat), i ≤ init.length → init.length - i + 1 < fuel →
      readVariantLoop (init ++ [b]) (init.length + 1) fuel ret i
        = readVariantLoop (init ++ [b &&& 0x7F]) (init.length + 1) fuel ret i := by
  intro fuel
  induction fuel with
  | zero => intro ret i _ h; omega
  | succ f ih =>
    intro ret i hil hfuel
    rw [readVariantLoop, readVariantLoop]
    have hlt : i < init.length + 1 := by omega
    have hmod : (i + 1) % 256 = i + 1 := Nat.mod_eq_of_lt (by omega)
    simp only [hlt, if_true, hmod]
    by_cases hi : i = init.length
    · subst hi
      obtain ⟨g, rfl⟩ : ∃ g, f = g + 1 := ⟨f - 1, by omega⟩
      simp only [getD_append_cons, hb, if_false, and_7F_and_7F, and_7F_and_80, if_true]
      rw [readVariantLoop]
      simp only [lt_irrefl, if_false]
    · have hi' : i < init.length := by omega
      rw [getD_append_left_lt init _ hi', getD_append_left_lt init _ hi']
      simp only [hinit i hi', if_false]
      exact ih _ (i + 1) (by omega) (by omega)

/-- A buffer whose audio-length field is followed by at least 256
continuation bytes: the field loop never gets past that field. -/
theorem loadTonieByPath_diverges (tail : List Nat)
    (hall : ∀ i, i < 256 → tail.getD i 0 &&& 0x80 ≠ 0) (fuel : Nat) (header : TonieHeader) :
    loadTonieByPath fuel true (magicBytes ++ 0x10 :: tail) 512 header = none := by
  have hrv : ∀ f, readVariant f tail 507 = none := fun f =>
    readVariantLoop_diverges _ _ (by norm_num) hall f 0 0 (by norm_num)
  have hw : windowLength 512 5 = 507 := by decide
  have hd : (magicBytes ++ 0x10 :: tail).drop 5 = tail := rfl
  have hg : (magicBytes ++ 0x10 :: tail).getD 4 0 = 0x10 := rfl
  have hm : (magicBytes ++ 0x10 :: tail).take 4 = magicBytes := rfl
  have hfl : fieldLoop (magicBytes ++ 0x10 :: tail) 512 fuel
      { cursor := 4, header := header, log := [LogMsg.loading] } = none := by
    cases fuel with
    | zero => rfl
    | succ f =>
      rw [fieldLoop]
      simp only [hg]
      have h1 : (4 + 1) % 65536 = 5 := rfl
      simp only [h1, hd, hw, hrv]
      simp
      decide
  unfold loadTonieByPath
  simp only [hm, hfl]
  simp

/-! ## One iteration of the field loop -/

section step
variable {buffer : List Nat} {bufferLen fuel : Nat} {s : DecodeState}

theorem loop_guard (hcur : s.cursor + 1 < bufferLen) :
    (s.cursor : Int) < (bufferLen : Int) - 1 := by omega

theorem cursor_succ_mod (hcur : s.cursor + 1 < bufferLen) (hlen : bufferLen ≤ 512) :
    (s.cursor + 1) % 65536 = s.cursor + 1 := Nat.mod_eq_of_lt (by omega)

theorem windowLength_succ (hcur : s.cursor + 1 < bufferLen) (hlen : bufferLen ≤ 512) :
    windowLength bufferLen (s.cursor + 1) = bufferLen - (s.cursor + 1) :=
  windowLength_eq (by omega) (by omega)

theorem cursor_add_mod (hcur : s.cursor + 1 < bufferLen) (hlen : bufferLen ≤ 512) {v rb : Nat}
    (hrv : readVariant fuel (buffer.drop (s.cursor + 1)) (bufferLen - (s.cursor + 1))
      = some (v, rb)) :
    (s.cursor + 1 + rb) % 65536 = s.cursor + 1 + rb ∧ s.cursor + 1 + rb ≤ bufferLen := by
  have := readVariant_bounds hrv
  exact ⟨Nat.mod_eq_of_lt (by omega), by omega⟩

/-- The loop is left when the cursor is not before the last read byte. -/
theorem fieldLoop_exit (hcur : bufferLen ≤ s.cursor + 1) :
    fieldLoop buffer bufferLen (fuel + 1) s = some s := by
  rw [fieldLoop]
  have : ¬ ((s.cursor : Int) < (bufferLen : Int) - 1) := by omega
  simp only [this, if_false]

/-- Hash field with a declared length other than 20. -/
theorem fieldLoop_hash_bad (hcur : s.cursor + 1 < bufferLen) (hlen : bufferLen ≤ 512)
    (hid : buffer.getD s.cursor 0 >>> 3 = 1) (hty : buffer.getD s.cursor 0 &&& 7 = 2)
    {size rb : Nat}
    (hrv : readVariant fuel (buffer.drop (s.cursor + 1)) (bufferLen - (s.cursor + 1))
      = some (size, rb))
    (hsize : size ≠ 20) :
    fieldLoop buffer bufferLen (fuel + 1) s
      = some { cursor := s.cursor + 1 + rb, header := s.header,
               log := s.log ++ [.hashLength size] } := by
  rw [fieldLoop]
  simp only [loop_guard hcur, if_true, hid, hty, cursor_succ_mod hcur hlen,
    windowLength_succ hcur hlen, hrv, (cursor_add_mod hcur hlen hrv).1, hsize, if_false,
    and_self]

/-- Hash field with declared length 20. -/
theorem fieldLoop_hash (hcur : s.cursor + 1 < bufferLen) (hlen : bufferLen ≤ 512)
    (hid : buffer.getD s.cursor 0 >>> 3 = 1) (hty : buffer.getD s.cursor 0 &&& 7 = 2)
    {rb : Nat}
    (hrv : readVariant fuel (buffer.drop (s.cursor + 1)) (bufferLen - (s.cursor + 1))
      = some (20, rb)) :
    fieldLoop buffer bufferLen (fuel + 1) s
      = fieldLoop buffer bufferLen fuel
          { cursor := s.cursor + 1 + rb + 20,
            header := { s.header with hash := copyHash buffer (s.cursor + 1 + rb) },
            log := s.log ++ [.tonieHeader
              { s.header with hash := copyHash buffer (s.cursor + 1 + rb) }] } := by
  rw [fieldLoop]
  have h20 : (s.cursor + 1 + rb + 20) % 65536 = s.cursor + 1 + rb + 20 :=
    Nat.mod_eq_of_lt (by have := (cursor_add_mod hcur hlen hrv).2; omega)
  simp only [loop_guard hcur, if_true, hid, hty, cursor_succ_mod hcur hlen,
    windowLength_succ hcur hlen, hrv, (cursor_add_mod hcur hlen hrv).1, h20, and_self]

/-- Audio-length field. -/
theorem fieldLoop_audioLength (hcur : s.cursor + 1 < bufferLen) (hlen : bufferLen ≤ 512)
    (hid : buffer.getD s.cursor 0 >>> 3 = 2) (hty : buffer.getD s.cursor 0 &&& 7 = 0)
    {v rb : Nat}
    (hrv : readVariant fuel (buffer.drop (s.cursor + 1)) (bufferLen - (s.cursor + 1))
      = some (v, rb)) :
    fieldLoop buffer bufferLen (fuel + 1) s
      = fieldLoop buffer bufferLen fuel
          { cursor := s.cursor + 1 + rb,
            header := { s.header with audioLength := v % 2 ^ 32 },
            log := s.log ++ [.tonieHeader { s.header with audioLength := v % 2 ^ 32 }] } := by
  rw [fieldLoop]
  simp only [loop_guard hcur, if_true, hid, hty, cursor_succ_mod hcur hlen,
    windowLength_succ hcur hlen, hrv, (cursor_add_mod hcur hlen hrv).1, and_self]
  simp

/-- Audio-id field. -/
theorem fieldLoop_audioId (hcur : s.cursor + 1 < bufferLen) (hlen : bufferLen ≤ 512)
    (hid : buffer.getD s.cursor 0 >>> 3 = 3) (hty : buffer.getD s.cursor 0 &&& 7 = 0)
    {v rb : Nat}
    (hrv : readVariant fuel (buffer.drop (s.cursor + 1)) (bufferLen - (s.cursor + 1))
      = some (v, rb)) :
    fieldLoop buffer bufferLen (fuel + 1) s
      = fieldLoop buffer bufferLen fuel
          { cursor := s.cursor + 1 + rb,
            header := { s.header with audioId := v % 2 ^ 32 },
            log := s.log ++ [.tonieHeader { s.header with audioId := v % 2 ^ 32 }] } := by
  rw [fieldLoop]
  simp only [loop_guard hcur, if_true, hid, hty, cursor_succ_mod hcur hlen,
    windowLength_succ hcur hlen, hrv, (cursor_add_mod hcur hlen hrv).1, and_self]
  simp

/-- Chapter field. -/
theorem fieldLoop_chapters (hcur : s.cursor + 1 < bufferLen) (hlen : bufferLen ≤ 512)
    (hid : buffer.getD s.cursor 0 >>> 3 = 4) (hty : buffer.getD s.cursor 0 &&& 7 = 2)
    {v rb : Nat}
    (hrv : readVariant fuel (buffer.drop (s.cursor + 1)) (bufferLen - (s.cursor + 1))
      = some (v, rb))
    {chapters : List Nat} {cursor : Nat}
    (hch : chapterLoop fuel buffer bufferLen (v % 256) (s.cursor + 1 + rb)
      = some (chapters, cursor)) :
    fieldLoop buffer bufferLen (fuel + 1) s
      = fieldLoop buffer bufferLen fuel
          { cursor := cursor,
            header := { s.header with audioChapterCount := v % 256, audioChapters := chapters },
            log := s.log ++ [.tonieHeader
              { s.header with audioChapterCount := v % 256, audioChapters := chapters }] } := by
  rw [fieldLoop]
  simp only [loop_guard hcur, if_true, hid, hty, cursor_succ_mod hcur hlen,
    windowLength_succ hcur hlen, hrv, (cursor_add_mod hcur hlen hrv).1, hch, and_self]
  simp

/-- Padding field. -/
theorem fieldLoop_padding (hcur : s.cursor + 1 < bufferLen) (hlen : bufferLen ≤ 512)
    (hid : buffer.getD s.cursor 0 >>> 3 = 5) (hty : buffer.getD s.cursor 0 &&& 7 = 2)
    {f rb : Nat}
    (hrv : readVariant fuel (buffer.drop (s.cursor + 1)) (bufferLen - (s.cursor + 1))
      = some (f, rb)) :
    fieldLoop buffer bufferLen (fuel + 1) s
      = some { cursor := s.cursor + 1 + rb, header := s.header,
               log := s.log ++ if s.cursor + 1 + rb + f ≠ 4096
                 then [.headerLength ((f + (s.cursor + 1 + rb)) % 2 ^ 64)] else [] } := by
  rw [fieldLoop]
  have hb := readVariant_bounds hrv
  have hc := cursor_add_mod hcur hlen hrv
  have hiff : (f + (s.cursor + 1 + rb)) % 2 ^ 64 ≠ 4096 ↔ s.cursor + 1 + rb + f ≠ 4096 := by
    have h64 : (2 : Nat) ^ 64 = 18446744073709551616 := by norm_num
    rw [h64] at hb ⊢
    omega
  simp only [loop_guard hcur, if_true, hid, hty, cursor_succ_mod hcur hlen,
    windowLength_succ hcur hlen, hrv, hc.1]
  by_cases h : s.cursor + 1 + rb + f ≠ 4096
  · rw [if_pos (hiff.mpr h), if_pos h]
    simp
  · rw [if_neg (fun hh => h (hiff.mp hh)), if_neg h, List.append_nil]
    simp

/-- Any other tag: the loop is left with the unexpected-field error. -/
theorem fieldLoop_unexpected (hcur : s.cursor + 1 < bufferLen) (hlen : bufferLen ≤ 512)
    (h1 : ¬ (buffer.getD s.cursor 0 >>> 3 = 1 ∧ buffer.getD s.cursor 0 &&& 7 = 2))
    (h2 : ¬ (buffer.getD s.cursor 0 >>> 3 = 2 ∧ buffer.getD s.cursor 0 &&& 7 = 0))
    (h3 : ¬ (buffer.getD s.cursor 0 >>> 3 = 3 ∧ buffer.getD s.cursor 0 &&& 7 = 0))
    (h4 : ¬ (buffer.getD s.cursor 0 >>> 3 = 4 ∧ buffer.getD s.cursor 0 &&& 7 = 2))
    (h5 : ¬ (buffer.getD s.cursor 0 >>> 3 = 5 ∧ buffer.getD s.cursor 0 &&& 7 = 2)) :
    fieldLoop buffer bufferLen (fuel + 1) s
      = some { cursor := s.cursor + 1, header := s.header,
               log := s.log ++ [.unexpectedField (buffer.getD s.cursor 0 >>> 3)
                 (buffer.getD s.cursor 0 &&& 7)] } := by
  rw [fieldLoop]
  simp only [loop_guard hcur, if_true, cursor_succ_mod hcur hlen, h1, h2, h3, h4, h5, if_false]

end step

/-- At the end of the read bytes every chapter is read from an empty window:
the entries are 0 and the cursor stays. -/
theorem chapterLoop_at_end (fuel : Nat) (buffer : List Nat) (bufferLen : Nat)
    (hlen : bufferLen ≤ 512) (n : Nat) :
    chapterLoop (fuel + 1) buffer bufferLen n bufferLen
      = some (List.replicate n 0, bufferLen) := by
  have hw : windowLength bufferLen bufferLen = 0 := by
    rw [windowLength_eq (le_refl _) (by omega)]; omega
  have hmod : (bufferLen + 0) % 65536 = bufferLen := Nat.mod_eq_of_lt (by omega)
  induction n with
  | zero => rfl
  | succ n ih =>
    rw [chapterLoop]
    simp only [hw, readVariant_zero_length, hmod, ih]
    rfl

/-- The bytes of the buffer from `c` up to the end of the read bytes. -/
theorem getD_drop_take (buffer : List Nat) (bufferLen c j : Nat) (hj : c + j < bufferLen) :
    ((buffer.take bufferLen).drop c).getD j 0 = (buffer.drop c).getD j 0 := by
  simp only [List.getD_eq_getElem?_getD, List.getElem?_drop]
  rw [List.getElem?_take_of_lt hj]

theorem getD_drop (buffer : List Nat) (c j : Nat) :
    (buffer.drop c).getD j 0 = buffer.getD (c + j) 0 := by
  simp only [List.getD_eq_getElem?_getD, List.getElem?_drop]

/-- With no terminating byte in a list, every entry is a continuation byte. -/
theorem countP_zero_getD (l : List Nat) (h : l.countP isTerminator = 0) (j : Nat)
    (hj : j < l.length) : l.getD j 0 &&& 0x80 ≠ 0 := by
  rw [List.countP_eq_zero] at h
  have hmem : l.getD j 0 ∈ l := by
    rw [List.getD_eq_getElem _ _ hj]; exact List.getElem_mem hj
  have := h _ hmem
  simpa [isTerminator] using this

/-- With a terminating byte in a list, there is a first one, and the part
after it has one terminating byte fewer. -/
theorem countP_pos_first (l : List Nat) (h : 0 < l.countP isTerminator) :
    ∃ e, e < l.length ∧ l.getD e 0 &&& 0x80 = 0 ∧
      (∀ j, j < e → l.getD j 0 &&& 0x80 ≠ 0) ∧
      (l.drop (e + 1)).countP isTerminator + 1 = l.countP isTerminator := by
  induction l with
  | nil => simp at h
  | cons a l ih =>
    by_cases ha : isTerminator a = true
    · refine ⟨0, by simp, ?_, ?_, ?_⟩
      · simpa [isTerminator] using ha
      · intro j hj; omega
      · simp [List.countP_cons, ha]
    · have hc : (a :: l).countP isTerminator = l.countP isTerminator := by
        simp [List.countP_cons, ha]
      rw [hc] at h
      obtain ⟨e, he, hte, hbefore, hcnt⟩ := ih h
      refine ⟨e + 1, by simpa using he, ?_, ?_, ?_⟩
      · simpa using hte
      · intro j hj
        cases j with
        | zero => simpa [isTerminator] using ha
        | succ j => simpa using hbefore j (by omega)
      · rw [hc]; simpa using hcnt


/-- The chapter loop writes exactly as many entries as it has iterations. -/
theorem chapterLoop_length (fuel : Nat) (buffer : List Nat) (bufferLen : Nat) :
    ∀ (n c : Nat) (chs : List Nat) (c' : Nat),
      chapterLoop fuel buffer bufferLen n c = some (chs, c') → chs.length = n := by
  intro n
  induction n with
  | zero =>
    intro c chs c' h
    simp only [chapterLoop, Option.some.injEq, Prod.mk.injEq] at h
    rw [← h.1]; rfl
  | succ n ih =>
    intro c chs c' h
    rw [chapterLoop] at h
    cases hrv : readVariant fuel (buffer.drop c) (windowLength bufferLen c) with
    | none => simp [hrv] at h
    | some r =>
      obtain ⟨v, rb⟩ := r
      simp only [hrv] at h
      cases hch : chapterLoop fuel buffer bufferLen n ((c + rb) % 65536) with
      | none => simp [hch] at h
      | some r' =>
        obtain ⟨chs', c''⟩ := r'
        simp only [hch, Option.some.injEq, Prod.mk.injEq] at h
        rw [← h.1, List.length_cons, ih _ _ _ hch]

/-- One varint read at `c` when no 255 consecutive read bytes are continuation
bytes: the call returns, and either it met the end of the read bytes with no
terminating byte left, or it consumed exactly one complete varint. -/
theorem readVariant_short (buffer : List Nat) (bufferLen fuel c : Nat)
    (hbuf : bufferLen ≤ buffer.length) (hshort : shortVarints buffer bufferLen)
    (hfuel : 256 ≤ fuel) (hc : c ≤ bufferLen) :
    ∃ v rb, readVariant fuel (buffer.drop c) (bufferLen - c) = some (v, rb) ∧
      c + rb ≤ bufferLen ∧
      ((completeVarints ((buffer.take bufferLen).drop c) = 0 ∧ c + rb = bufferLen) ∨
       (completeVarints ((buffer.take bufferLen).drop (c + rb)) + 1
          = completeVarints ((buffer.take bufferLen).drop c))) := by
  have hlenl : ((buffer.take bufferLen).drop c).length = bufferLen - c := by
    simp [List.length_drop, List.length_take, Nat.min_eq_left hbuf]
  have hget : ∀ j, j < bufferLen - c →
      (buffer.drop c).getD j 0 = ((buffer.take bufferLen).drop c).getD j 0 :=
    fun j hj => (getD_drop_take buffer bufferLen c j (by omega)).symm
  by_cases hk : completeVarints ((buffer.take bufferLen).drop c) = 0
  · have hcont : ∀ j, j < bufferLen - c → (buffer.drop c).getD j 0 &&& 0x80 ≠ 0 := by
      intro j hj
      rw [hget j hj]
      exact countP_zero_getD _ hk j (by rw [hlenl]; exact hj)
    have hsmall : bufferLen - c ≤ 255 := by
      by_contra hbig
      obtain ⟨t, ht, htt⟩ := hshort c (by omega)
      have := hcont t (by omega)
      rw [getD_drop] at this
      exact this ((isTerminator_iff _).mp htt)
    obtain ⟨v, hv⟩ := readVariantLoop_exhausts (buffer.drop c) (bufferLen - c) hsmall fuel 0 0
      (Nat.zero_le _) (fun j _ hj => hcont j hj) (by omega)
    exact ⟨v, bufferLen - c, hv, by omega, Or.inl ⟨hk, by omega⟩⟩
  · obtain ⟨e, he, hte, hbefore, hcnt⟩ :=
      countP_pos_first ((buffer.take bufferLen).drop c) (Nat.pos_of_ne_zero hk)
    rw [hlenl] at he
    have he254 : e ≤ 254 := by
      by_contra hbig
      obtain ⟨t, ht, htt⟩ := hshort c (by omega)
      have := hbefore t (by omega)
      rw [← hget t (by omega), getD_drop] at this
      exact this ((isTerminator_iff _).mp htt)
    obtain ⟨v, hv⟩ := readVariantLoop_stops_at (buffer.drop c) (bufferLen - c) e he he254
      (by rw [hget e he]; exact hte) fuel 0 0 (Nat.zero_le _)
      (fun j _ hj => by rw [hget j (by omega)]; exact hbefore j hj) (by omega)
    refine ⟨v, e + 1, hv, by omega, Or.inr ?_⟩
    rw [List.drop_drop] at hcnt
    exact hcnt


/-- The chapter loop returns when no 255 consecutive read bytes are
continuation bytes, and the cursor stays inside the read bytes. -/
theorem chapterLoop_returns (buffer : List Nat) (bufferLen fuel : Nat) (hlen : bufferLen ≤ 512)
    (hbuf : bufferLen ≤ buffer.length) (hshort : shortVarints buffer bufferLen)
    (hfuel : 256 ≤ fuel) :
    ∀ (n c : Nat), c ≤ bufferLen →
      ∃ chs c', chapterLoop fuel buffer bufferLen n c = some (chs, c') ∧ c' ≤ bufferLen := by
  intro n
  induction n with
  | zero => intro c hc; exact ⟨[], c, rfl, hc⟩
  | succ n ih =>
    intro c hc
    obtain ⟨v, rb, hrv, hle, _⟩ :=
      readVariant_short buffer bufferLen fuel c hbuf hshort hfuel hc
    obtain ⟨chs, c', hch, hc'⟩ := ih (c + rb) hle
    refine ⟨(v % 2 ^ 32) :: chs, c', ?_, hc'⟩
    rw [chapterLoop, windowLength_eq hc (by omega), hrv]
    simp only [Nat.mod_eq_of_lt (show c + rb < 65536 by omega), hch]

/-- A chapter loop that asks for more varints than remain complete in the read
bytes: it returns at the end of the read bytes with all `n` entries written,
those after the first missing one being 0. -/
theorem chapterLoop_truncated (buffer : List Nat) (bufferLen fuel : Nat) (hlen : bufferLen ≤ 512)
    (hbuf : bufferLen ≤ buffer.length) (hshort : shortVarints buffer bufferLen)
    (hfuel : 256 ≤ fuel) :
    ∀ (n c : Nat), c ≤ bufferLen →
      completeVarints ((buffer.take bufferLen).drop c) < n →
      ∃ chs, chapterLoop fuel buffer bufferLen n c = some (chs, bufferLen) ∧
        chs.length = n ∧
        ∀ j, completeVarints ((buffer.take bufferLen).drop c) < j → j < n →
          chs[j]? = some 0 := by
  intro n
  induction n with
  | zero => intro c _ h; omega
  | succ n ih =>
    intro c hc hk
    obtain ⟨g, rfl⟩ : ∃ g, fuel = g + 1 := ⟨fuel - 1, by omega⟩
    obtain ⟨v, rb, hrv, hle, hcase⟩ :=
      readVariant_short buffer bufferLen (g + 1) c hbuf hshort hfuel hc
    have hunf : ∀ chs c', chapterLoop (g + 1) buffer bufferLen n (c + rb) = some (chs, c') →
        chapterLoop (g + 1) buffer bufferLen (n + 1) c = some ((v % 2 ^ 32) :: chs, c') := by
      intro chs c' hch
      rw [chapterLoop, windowLength_eq hc (by omega), hrv]
      simp only [Nat.mod_eq_of_lt (show c + rb < 65536 by omega), hch]
    rcases hcase with ⟨hzero, hend⟩ | hone
    · have hch := chapterLoop_at_end g buffer bufferLen hlen n
      refine ⟨(v % 2 ^ 32) :: List.replicate n 0, ?_, by simp, ?_⟩
      · exact hunf _ _ (by rw [hend]; exact hch)
      · intro j hj hjn
        obtain ⟨i, rfl⟩ : ∃ i, j = i + 1 := ⟨j - 1, by omega⟩
        simp only [List.getElem?_cons_succ]
        rw [List.getElem?_replicate]
        simp only [show i < n by omega, if_true]
    · obtain ⟨chs, hch, hlen', hzeros⟩ := ih (c + rb) hle (by omega)
      refine ⟨(v % 2 ^ 32) :: chs, hunf _ _ hch, by simp [hlen'], ?_⟩
      intro j hj hjn
      obtain ⟨i, rfl⟩ : ∃ i, j = i + 1 := ⟨j - 1, by omega⟩
      simp only [List.getElem?_cons_succ]
      exact hzeros i (by omega) (by omega)

/-! ## Decoding an encoded header -/

theorem encodeVarint_length_pos (n : Nat) : 0 < (encodeVarint n).length :=
  encodeVarintAux_length_pos n n

theorem getD_view (pre : List Nat) (t : Nat) (tl : List Nat) {B : List Nat}
    (hB : B = pre ++ t :: tl) : B.getD pre.length 0 = t ∧ B.drop (pre.length + 1) = tl := by
  subst hB
  refine ⟨getD_append_cons pre t tl, ?_⟩
  rw [show pre ++ t :: tl = (pre ++ [t]) ++ tl by simp]
  exact List.drop_left' (by simp)

/-- Copying the 20 bytes that follow the first `pre.length` bytes gives back
those bytes. -/
theorem copyHash_append (pre hash rest : List Nat) (hhash : hash.length = 20) :
    copyHash (pre ++ (hash ++ rest)) pre.length = hash := by
  apply List.ext_getElem
  · simp [copyHash, hhash]
  · intro i h1 h2
    simp only [copyHash, List.getElem_map, List.getElem_range]
    rw [List.getD_eq_getElem?_getD, List.getElem?_append_right (by omega)]
    simp only [Nat.add_sub_cancel_left]
    rw [List.getElem?_append_left h2, List.getElem?_eq_getElem h2]
    rfl

/-- The chapter loop on a run of canonical varints of 32-bit values. -/
theorem chapterLoop_encode (B : List Nat) (hlenB : B.length = 512) (fuel : Nat)
    (hfuel : 10 ≤ fuel) :
    ∀ (chapters pre rest : List Nat), B = pre ++ (encodeVarints chapters ++ rest) →
      (∀ c ∈ chapters, c < 2 ^ 32) →
      chapterLoop fuel B 512 chapters.length pre.length
        = some (chapters, (pre ++ encodeVarints chapters).length) := by
  intro chapters
  induction chapters with
  | nil => intro pre rest _ _; simp [chapterLoop, encodeVarints]
  | cons c cs ih =>
    intro pre rest hB hch
    have hc : c < 2 ^ 32 := hch c (List.mem_cons_self _ _)
    have hc64 : c < 2 ^ 64 := lt_trans hc (by norm_num)
    have hlen : pre.length + (encodeVarint c).length ≤ 512 := by
      have := congrArg List.length hB
      simp only [encodeVarints, List.length_append, hlenB] at this
      omega
    have hdrop : B.drop pre.length = encodeVarint c ++ (encodeVarints cs ++ rest) := by
      rw [hB, encodeVarints, List.append_assoc]
      exact List.drop_left' rfl
    have hrv := readVariant_encode hc64 (encodeVarints cs ++ rest)
      (show (encodeVarint c).length ≤ 512 - pre.length by omega)
      (le_trans (encodeVarint_length_le_ten hc64) hfuel)
    have hnext := ih (pre ++ encodeVarint c) rest
      (by rw [hB, encodeVarints]; simp [List.append_assoc])
      (fun x hx => hch x (List.mem_cons_of_mem _ hx))
    rw [List.length_cons, chapterLoop, windowLength_eq (by omega) (by omega), hdrop, hrv]
    simp only [Nat.mod_eq_of_lt (show pre.length + (encodeVarint c).length < 65536 by omega)]
    rw [← List.length_append, hnext]
    have hmod : c % 2 ^ 32 = c := Nat.mod_eq_of_lt hc
    simp only [hmod, encodeVarints, List.append_assoc]


section encoded
variable {B : List Nat}

theorem fieldLoop_encoded_hash (hlenB : B.length = 512) (pre hash rest : List Nat)
    (hB : B = pre ++ 0x0A :: (encodeVarint 20 ++ (hash ++ rest))) (hhash : hash.length = 20)
    (h : TonieHeader) (l : List LogMsg) (fuel : Nat) (hfuel : 10 ≤ fuel) :
    fieldLoop B 512 (fuel + 1) { cursor := pre.length, header := h, log := l }
      = fieldLoop B 512 fuel
          { cursor := (pre ++ 0x0A :: (encodeVarint 20 ++ hash)).length,
            header := { h with hash := hash },
            log := l ++ [.tonieHeader { h with hash := hash }] } := by
  obtain ⟨hg, hd⟩ := getD_view pre 0x0A _ hB
  have hlen := congrArg List.length hB
  simp only [List.length_append, List.length_cons, hlenB] at hlen
  have hrv : readVariant fuel (B.drop (pre.length + 1)) (512 - (pre.length + 1))
      = some (20, (encodeVarint 20).length) := by
    rw [hd]
    exact readVariant_encode (by norm_num) _ (by omega)
      (le_trans (encodeVarint_length_le_ten (by norm_num)) hfuel)
  have hcopy : copyHash B (pre.length + 1 + (encodeVarint 20).length) = hash := by
    have := copyHash_append (pre ++ 0x0A :: encodeVarint 20) hash rest hhash
    rw [hB]
    simpa [List.append_assoc, Nat.add_assoc] using this
  rw [fieldLoop_hash (s := { cursor := pre.length, header := h, log := l }) (by simp; omega)
    (le_of_eq rfl) (by simp only [hg]; decide) (by simp only [hg]; decide) hrv]
  simp only [hcopy, List.length_append, List.length_cons, hhash]
  rw [show pre.length + 1 + (encodeVarint 20).length + 20
    = pre.length + ((encodeVarint 20).length + 20 + 1) by omega]

theorem fieldLoop_encoded_audioLength (hlenB : B.length = 512) (pre rest : List Nat) (n : Nat)
    (hB : B = pre ++ 0x10 :: (encodeVarint n ++ rest)) (hn : n < 2 ^ 32)
    (h : TonieHeader) (l : List LogMsg) (fuel : Nat) (hfuel : 10 ≤ fuel) :
    fieldLoop B 512 (fuel + 1) { cursor := pre.length, header := h, log := l }
      = fieldLoop B 512 fuel
          { cursor := (pre ++ 0x10 :: encodeVarint n).length,
            header := { h with audioLength := n },
            log := l ++ [.tonieHeader { h with audioLength := n }] } := by
  obtain ⟨hg, hd⟩ := getD_view pre 0x10 _ hB
  have hlen := congrArg List.length hB
  simp only [List.length_append, List.length_cons, hlenB] at hlen
  have hn64 : n < 2 ^ 64 := lt_trans hn (by norm_num)
  have hrv : readVariant fuel (B.drop (pre.length + 1)) (512 - (pre.length + 1))
      = some (n, (encodeVarint n).length) := by
    rw [hd]
    exact readVariant_encode hn64 _ (by omega)
      (le_trans (encodeVarint_length_le_ten hn64) hfuel)
  have hpos := encodeVarint_length_pos n
  rw [fieldLoop_audioLength (s := { cursor := pre.length, header := h, log := l })
    (by simp; omega) (le_of_eq rfl) (by simp only [hg]; decide) (by simp only [hg]; decide) hrv]
  have hmod : n % 2 ^ 32 = n := Nat.mod_eq_of_lt hn
  simp only [hmod, List.length_append, List.length_cons]
  rw [show pre.length + 1 + (encodeVarint n).length
    = pre.length + ((encodeVarint n).length + 1) by omega]

theorem fieldLoop_encoded_audioId (hlenB : B.length = 512) (pre rest : List Nat) (n : Nat)
    (hB : B = pre ++ 0x18 :: (encodeVarint n ++ rest)) (hn : n < 2 ^ 32)
    (h : TonieHeader) (l : List LogMsg) (fuel : Nat) (hfuel : 10 ≤ fuel) :
    fieldLoop B 512 (fuel + 1) { cursor := pre.length, header := h, log := l }
      = fieldLoop B 512 fuel
          { cursor := (pre ++ 0x18 :: encodeVarint n).length,
            header := { h with audioId := n },
            log := l ++ [.tonieHeader { h with audioId := n }] } := by
  obtain ⟨hg, hd⟩ := getD_view pre 0x18 _ hB
  have hlen := congrArg List.length hB
  simp only [List.length_append, List.length_cons, hlenB] at hlen
  have hn64 : n < 2 ^ 64 := lt_trans hn (by norm_num)
  have hrv : readVariant fuel (B.drop (pre.length + 1)) (512 - (pre.length + 1))
      = some (n, (encodeVarint n).length) := by
    rw [hd]
    exact readVariant_encode hn64 _ (by omega)
      (le_trans (encodeVarint_length_le_ten hn64) hfuel)
  have hpos := encodeVarint_length_pos n
  rw [fieldLoop_audioId (s := { cursor := pre.length, header := h, log := l })
    (by simp; omega) (le_of_eq rfl) (by simp only [hg]; decide) (by simp only [hg]; decide) hrv]
  have hmod : n % 2 ^ 32 = n := Nat.mod_eq_of_lt hn
  simp only [hmod, List.length_append, List.length_cons]
  rw [show pre.length + 1 + (encodeVarint n).length
    = pre.length + ((encodeVarint n).length + 1) by omega]

theorem fieldLoop_encoded_chapters (hlenB : B.length = 512) (pre rest chapters : List Nat)
    (hB : B = pre ++ 0x22 :: (encodeVarint chapters.length ++ (encodeVarints chapters ++ rest)))
    (hch : ∀ c ∈ chapters, c < 2 ^ 32) (hcount : chapters.length ≤ 255)
    (hrest : 0 < rest.length)
    (h : TonieHeader) (l : List LogMsg) (fuel : Nat) (hfuel : 10 ≤ fuel) :
    fieldLoop B 512 (fuel + 1) { cursor := pre.length, header := h, log := l }
      = fieldLoop B 512 fuel
          { cursor := (pre ++ 0x22 :: (encodeVarint chapters.length
              ++ encodeVarints chapters)).length,
            header := { h with audioChapterCount := chapters.length,
                               audioChapters := chapters },
            log := l ++ [.tonieHeader { h with audioChapterCount := chapters.length,
                                               audioChapters := chapters }] } := by
  obtain ⟨hg, hd⟩ := getD_view pre 0x22 _ hB
  have hlen := congrArg List.length hB
  simp only [List.length_append, List.length_cons, hlenB] at hlen
  have hn64 : chapters.length < 2 ^ 64 := lt_of_le_of_lt hcount (by norm_num)
  have hrv : readVariant fuel (B.drop (pre.length + 1)) (512 - (pre.length + 1))
      = some (chapters.length, (encodeVarint chapters.length).length) := by
    rw [hd]
    exact readVariant_encode hn64 _ (by omega)
      (le_trans (encodeVarint_length_le_ten hn64) hfuel)
  have hmod : chapters.length % 256 = chapters.length := Nat.mod_eq_of_lt (by omega)
  have hloop := chapterLoop_encode B hlenB fuel hfuel chapters
    (pre ++ 0x22 :: encodeVarint chapters.length) rest
    (by rw [hB]; simp [List.append_assoc]) hch
  have hcl : (pre ++ 0x22 :: encodeVarint chapters.length).length
      = pre.length + 1 + (encodeVarint chapters.length).length := by
    simp only [List.length_append, List.length_cons]; omega
  rw [hcl] at hloop
  have hloop' : chapterLoop fuel B 512 (chapters.length % 256)
      (pre.length + 1 + (encodeVarint chapters.length).length)
        = some (chapters, (pre ++ 0x22 :: encodeVarint chapters.length
            ++ encodeVarints chapters).length) := by
    rw [hmod]; exact hloop
  rw [fieldLoop_chapters (s := { cursor := pre.length, header := h, log := l })
    (by simp; omega) (le_of_eq rfl) (by simp only [hg]; decide) (by simp only [hg]; decide) hrv
    hloop']
  simp only [hmod, List.append_assoc, List.cons_append]

theorem fieldLoop_encoded_padding (hlenB : B.length = 512) (pre rest : List Nat) (fill : Nat)
    (hB : B = pre ++ 0x2A :: (encodeVarint fill ++ rest))
    (hfill : (pre ++ 0x2A :: encodeVarint fill).length + fill = 4096)
    (h : TonieHeader) (l : List LogMsg) (fuel : Nat) (hfuel : 10 ≤ fuel) :
    fieldLoop B 512 (fuel + 1) { cursor := pre.length, header := h, log := l }
      = some { cursor := (pre ++ 0x2A :: encodeVarint fill).length, header := h, log := l } := by
  obtain ⟨hg, hd⟩ := getD_view pre 0x2A _ hB
  have hlen := congrArg List.length hB
  simp only [List.length_append, List.length_cons, hlenB] at hlen hfill
  have hn64 : fill < 2 ^ 64 := lt_of_le_of_lt (show fill ≤ 4096 by omega) (by norm_num)
  have hrv : readVariant fuel (B.drop (pre.length + 1)) (512 - (pre.length + 1))
      = some (fill, (encodeVarint fill).length) := by
    rw [hd]
    exact readVariant_encode hn64 _ (by omega)
      (le_trans (encodeVarint_length_le_ten hn64) hfuel)
  have hpos := encodeVarint_length_pos fill
  rw [fieldLoop_padding (s := { cursor := pre.length, header := h, log := l })
    (by simp; omega) (le_of_eq rfl) (by simp only [hg]; decide) (by simp only [hg]; decide) hrv]
  have hno : ¬ (pre.length + 1 + (encodeVarint fill).length + fill ≠ 4096) := by
    simp only [ne_eq, not_not]; omega
  simp only [if_neg hno, List.append_nil, List.length_append, List.length_cons]
  rw [show pre.length + 1 + (encodeVarint fill).length
    = pre.length + ((encodeVarint fill).length + 1) by omega]

end encoded


/-- The field loop on the first 512 bytes of an encoded file whose header fits
in them: five iterations, one per field, the last one leaving the loop. -/
theorem fieldLoop_encoded_file (hash : List Nat) (audioLength audioId : Nat)
    (chapters : List Nat) (fill fuel : Nat) (h0 : TonieHeader) (l : List LogMsg)
    (hhash : hash.length = 20) (hal : audioLength < 2 ^ 32) (hid : audioId < 2 ^ 32)
    (hch : ∀ c ∈ chapters, c < 2 ^ 32) (hcount : chapters.length ≤ 255)
    (hfit : (encodeHeader hash audioLength audioId chapters fill).length ≤ 512)
    (hfill : (encodeHeader hash audioLength audioId chapters fill).length + fill = 4096)
    (hfuel : 15 ≤ fuel) :
    ∃ c, fieldLoop ((encodeFile hash audioLength audioId chapters fill).take 512) 512 fuel
        { cursor := 4, header := h0, log := l }
      = some
          { cursor := c,
            header := { hash := hash, audioLength := audioLength, audioId := audioId,
                        audioChapterCount := chapters.length, audioChapters := chapters },
            log := l ++
              [.tonieHeader { h0 with hash := hash },
               .tonieHeader { h0 with hash := hash, audioLength := audioLength },
               .tonieHeader { h0 with hash := hash, audioLength := audioLength,
                                      audioId := audioId },
               .tonieHeader { hash := hash, audioLength := audioLength, audioId := audioId,
                              audioChapterCount := chapters.length,
                              audioChapters := chapters }] } := by
  obtain ⟨g, rfl⟩ : ∃ g, fuel = g + 5 := ⟨fuel - 5, by omega⟩
  have hg : 10 ≤ g := by omega
  generalize hBdef : (encodeFile hash audioLength audioId chapters fill).take 512 = B
  generalize hpad : (List.replicate fill 0).take
    (512 - (encodeHeader hash audioLength audioId chapters fill).length) = pad
  have hB : B = encodeHeader hash audioLength audioId chapters fill ++ pad := by
    rw [← hBdef, ← hpad, encodeFile, List.take_append_eq_append_take,
      List.take_of_length_le hfit]
  have hlenB : B.length = 512 := by
    rw [← hBdef, List.length_take, encodeFile, List.length_append, List.length_replicate]
    omega
  have hV1 : B = magicBytes ++ 0x0A :: (encodeVarint 20 ++ (hash ++
      ((0x10 :: encodeVarint audioLength) ++ (0x18 :: encodeVarint audioId)
        ++ (0x22 :: encodeVarint chapters.length ++ encodeVarints chapters)
        ++ (0x2A :: encodeVarint fill) ++ pad))) := by
    rw [hB, encodeHeader]; simp only [List.append_assoc, List.cons_append]
  have hV2 : B = (magicBytes ++ 0x0A :: (encodeVarint 20 ++ hash))
      ++ 0x10 :: (encodeVarint audioLength ++ ((0x18 :: encodeVarint audioId)
        ++ (0x22 :: encodeVarint chapters.length ++ encodeVarints chapters)
        ++ (0x2A :: encodeVarint fill) ++ pad)) := by
    rw [hB, encodeHeader]; simp only [List.append_assoc, List.cons_append]
  have hV3 : B = (magicBytes ++ 0x0A :: (encodeVarint 20 ++ hash)
      ++ 0x10 :: encodeVarint audioLength)
      ++ 0x18 :: (encodeVarint audioId
        ++ ((0x22 :: encodeVarint chapters.length ++ encodeVarints chapters)
        ++ (0x2A :: encodeVarint fill) ++ pad)) := by
    rw [hB, encodeHeader]; simp only [List.append_assoc, List.cons_append]
  have hV4 : B = (magicBytes ++ 0x0A :: (encodeVarint 20 ++ hash)
      ++ 0x10 :: encodeVarint audioLength ++ 0x18 :: encodeVarint audioId)
      ++ 0x22 :: (encodeVarint chapters.length ++ (encodeVarints chapters
        ++ ((0x2A :: encodeVarint fill) ++ pad))) := by
    rw [hB, encodeHeader]; simp only [List.append_assoc, List.cons_append]
  have hV5 : B = (magicBytes ++ 0x0A :: (encodeVarint 20 ++ hash)
      ++ 0x10 :: encodeVarint audioLength ++ 0x18 :: encodeVarint audioId
      ++ 0x22 :: (encodeVarint chapters.length ++ encodeVarints chapters))
      ++ 0x2A :: (encodeVarint fill ++ pad) := by
    rw [hB, encodeHeader]; simp only [List.append_assoc, List.cons_append]
  have hfill' : ((magicBytes ++ 0x0A :: (encodeVarint 20 ++ hash)
      ++ 0x10 :: encodeVarint audioLength ++ 0x18 :: encodeVarint audioId
      ++ 0x22 :: (encodeVarint chapters.length ++ encodeVarints chapters))
      ++ 0x2A :: encodeVarint fill).length + fill = 4096 := by
    rw [← hfill, encodeHeader]
    simp only [List.append_assoc, List.cons_append]
  refine ⟨((magicBytes ++ 0x0A :: (encodeVarint 20 ++ hash)
      ++ 0x10 :: encodeVarint audioLength ++ 0x18 :: encodeVarint audioId
      ++ 0x22 :: (encodeVarint chapters.length ++ encodeVarints chapters))
      ++ 0x2A :: encodeVarint fill).length, ?_⟩
  rw [show (4 : Nat) = magicBytes.length from rfl,
    fieldLoop_encoded_hash hlenB _ _ _ hV1 hhash h0 l (g + 4) (by omega),
    fieldLoop_encoded_audioLength hlenB _ _ _ hV2 hal _ _ (g + 3) (by omega),
    fieldLoop_encoded_audioId hlenB _ _ _ hV3 hid _ _ (g + 2) (by omega),
    fieldLoop_encoded_chapters hlenB _ _ _ hV4 hch hcount (by simp) _ _ (g + 1) (by omega),
    fieldLoop_encoded_padding hlenB _ _ _ hV5 hfill' _ _ g hg]
  simp only [List.append_assoc, List.singleton_append, List.cons_append, List.nil_append]

/-- With the file opened, a non-empty read and the magic bytes in place, the
call is the field loop started at cursor 4 with the loading message logged. -/
theorem loadTonieByPath_eq_fieldLoop (fuel : Nat) (buffer : List Nat) (read : Nat)
    (header : TonieHeader) (hread : 0 < read) (hmagic : buffer.take 4 = magicBytes) :
    loadTonieByPath fuel true buffer read header
      = (fieldLoop buffer (read % 65536) fuel
          { cursor := 4, header := header, log := [.loading] }).map
          (fun s => (s.header, s.log)) := by
  unfold loadTonieByPath
  simp only [if_true, gt_iff_lt, hread, hmagic]
  cases fieldLoop buffer (read % 65536) fuel
    { cursor := 4, header := header, log := [.loading] } <;> rfl

/-! ## Two decodings of the same bytes -/

theorem overwrittenOrKept_refl (h1 h2 : TonieHeader) : overwrittenOrKept h1 h2 h1 h2 :=
  ⟨Or.inr ⟨rfl, rfl⟩, Or.inr ⟨rfl, rfl⟩, Or.inr ⟨rfl, rfl⟩, Or.inr ⟨rfl, rfl⟩,
    Or.inr ⟨rfl, rfl⟩⟩

theorem overwrittenOrKept_trans {h1 h2 m1 m2 r1 r2 : TonieHeader}
    (hm : overwrittenOrKept h1 h2 m1 m2) (hr : overwrittenOrKept m1 m2 r1 r2) :
    overwrittenOrKept h1 h2 r1 r2 := by
  obtain ⟨a1, a2, a3, a4, a5⟩ := hm
  obtain ⟨b1, b2, b3, b4, b5⟩ := hr
  refine ⟨?_, ?_, ?_, ?_, ?_⟩
  · rcases b1 with b | ⟨b, b'⟩
    · exact Or.inl b
    · rcases a1 with a | ⟨a, a'⟩
      · exact Or.inl (by rw [b, b', a])
      · exact Or.inr ⟨by rw [b, a], by rw [b', a']⟩
  · rcases b2 with b | ⟨b, b'⟩
    · exact Or.inl b
    · rcases a2 with a | ⟨a, a'⟩
      · exact Or.inl (by rw [b, b', a])
      · exact Or.inr ⟨by rw [b, a], by rw [b', a']⟩
  · rcases b3 with b | ⟨b, b'⟩
    · exact Or.inl b
    · rcases a3 with a | ⟨a, a'⟩
      · exact Or.inl (by rw [b, b', a])
      · exact Or.inr ⟨by rw [b, a], by rw [b', a']⟩
  · rcases b4 with b | ⟨b, b'⟩
    · exact Or.inl b
    · rcases a4 with a | ⟨a, a'⟩
      · exact Or.inl (by rw [b, b', a])
      · exact Or.inr ⟨by rw [b, a], by rw [b', a']⟩
  · rcases b5 with b | ⟨b, b'⟩
    · exact Or.inl b
    · rcases a5 with a | ⟨a, a'⟩
      · exact Or.inl (by rw [b, b', a])
      · exact Or.inr ⟨by rw [b, a], by rw [b', a']⟩

theorem overwrittenOrKept_hash (h1 h2 : TonieHeader) (x : List Nat) :
    overwrittenOrKept h1 h2 { h1 with hash := x } { h2 with hash := x } :=
  ⟨Or.inl rfl, Or.inr ⟨rfl, rfl⟩, Or.inr ⟨rfl, rfl⟩, Or.inr ⟨rfl, rfl⟩, Or.inr ⟨rfl, rfl⟩⟩

theorem overwrittenOrKept_audioLength (h1 h2 : TonieHeader) (x : Nat) :
    overwrittenOrKept h1 h2 { h1 with audioLength := x } { h2 with audioLength := x } :=
  ⟨Or.inr ⟨rfl, rfl⟩, Or.inl rfl, Or.inr ⟨rfl, rfl⟩, Or.inr ⟨rfl, rfl⟩, Or.inr ⟨rfl, rfl⟩⟩

theorem overwrittenOrKept_audioId (h1 h2 : TonieHeader) (x : Nat) :
    overwrittenOrKept h1 h2 { h1 with audioId := x } { h2 with audioId := x } :=
  ⟨Or.inr ⟨rfl, rfl⟩, Or.inr ⟨rfl, rfl⟩, Or.inl rfl, Or.inr ⟨rfl, rfl⟩, Or.inr ⟨rfl, rfl⟩⟩

theorem overwrittenOrKept_chapters (h1 h2 : TonieHeader) (n : Nat) (x : List Nat) :
    overwrittenOrKept h1 h2 { h1 with audioChapterCount := n, audioChapters := x }
      { h2 with audioChapterCount := n, audioChapters := x } :=
  ⟨Or.inr ⟨rfl, rfl⟩, Or.inr ⟨rfl, rfl⟩, Or.inr ⟨rfl, rfl⟩, Or.inl rfl, Or.inl rfl⟩

/-- The field loop takes the same path whatever the header holds: started at
the same cursor with two headers, it returns for both or for neither, at the
same cursor, and each header field is overwritten in both runs or in neither. -/
theorem fieldLoop_two_headers (buffer : List Nat) (bufferLen : Nat) :
    ∀ (fuel c : Nat) (h1 h2 : TonieHeader) (l1 l2 : List LogMsg) (s1 : DecodeState),
      fieldLoop buffer bufferLen fuel { cursor := c, header := h1, log := l1 } = some s1 →
      ∃ s2, fieldLoop buffer bufferLen fuel { cursor := c, header := h2, log := l2 } = some s2 ∧
        s2.cursor = s1.cursor ∧ overwrittenOrKept h1 h2 s1.header s2.header := by
  intro fuel
  induction fuel with
  | zero => intro c h1 h2 l1 l2 s1 h; simp [fieldLoop] at h
  | succ f ih =>
    intro c h1 h2 l1 l2 s1 h
    rw [fieldLoop] at h ⊢
    dsimp only at h ⊢
    have step : ∀ (m1 m2 : TonieHeader) (c' : Nat) (k1 k2 : List LogMsg),
        overwrittenOrKept h1 h2 m1 m2 →
        fieldLoop buffer bufferLen f { cursor := c', header := m1, log := k1 } = some s1 →
        ∃ s2, fieldLoop buffer bufferLen f { cursor := c', header := m2, log := k2 } = some s2 ∧
          s2.cursor = s1.cursor ∧ overwrittenOrKept h1 h2 s1.header s2.header := by
      intro m1 m2 c' k1 k2 hm hrun
      obtain ⟨s2, hs2, hc, hrel⟩ := ih c' m1 m2 k1 k2 s1 hrun
      exact ⟨s2, hs2, hc, overwrittenOrKept_trans hm hrel⟩
    have stop : ∀ (c' : Nat) (k1 k2 : List LogMsg),
        some ({ cursor := c', header := h1, log := k1 } : DecodeState) = some s1 →
        ∃ s2, some ({ cursor := c', header := h2, log := k2 } : DecodeState) = some s2 ∧
          s2.cursor = s1.cursor ∧ overwrittenOrKept h1 h2 s1.header s2.header := by
      intro c' k1 k2 hs
      simp only [Option.some.injEq] at hs
      subst hs
      exact ⟨_, rfl, rfl, overwrittenOrKept_refl h1 h2⟩
    by_cases hg : (c : Int) < (bufferLen : Int) - 1
    · simp only [hg, if_true] at h ⊢
      by_cases t1 : buffer.getD c 0 >>> 3 = 1 ∧ buffer.getD c 0 &&& 7 = 2
      · simp only [t1, if_true, and_self] at h ⊢
        cases hrv : readVariant f (buffer.drop ((c + 1) % 65536))
            (windowLength bufferLen ((c + 1) % 65536)) with
        | none => rw [hrv] at h; exact Option.noConfusion h
        | some r =>
          obtain ⟨v, rb⟩ := r
          simp only [hrv] at h ⊢
          by_cases h20 : v = 20
          · simp only [h20, if_true] at h ⊢
            exact step _ _ _ _ _ (overwrittenOrKept_hash h1 h2 _) h
          · simp only [h20, if_false] at h ⊢
            exact stop _ _ _ h
      · simp only [t1, if_false] at h ⊢
        by_cases t2 : buffer.getD c 0 >>> 3 = 2 ∧ buffer.getD c 0 &&& 7 = 0
        · simp only [t2, if_true, and_self] at h ⊢
          cases hrv : readVariant f (buffer.drop ((c + 1) % 65536))
              (windowLength bufferLen ((c + 1) % 65536)) with
          | none => rw [hrv] at h; exact Option.noConfusion h
          | some r =>
            obtain ⟨v, rb⟩ := r
            simp only [hrv] at h ⊢
            exact step _ _ _ _ _ (overwrittenOrKept_audioLength h1 h2 _) h
        · simp only [t2, if_false] at h ⊢
          by_cases t3 : buffer.getD c 0 >>> 3 = 3 ∧ buffer.getD c 0 &&& 7 = 0
          · simp only [t3, if_true, and_self] at h ⊢
            cases hrv : readVariant f (buffer.drop ((c + 1) % 65536))
                (windowLength bufferLen ((c + 1) % 65536)) with
            | none => rw [hrv] at h; exact Option.noConfusion h
            | some r =>
              obtain ⟨v, rb⟩ := r
              simp only [hrv] at h ⊢
              exact step _ _ _ _ _ (overwrittenOrKept_audioId h1 h2 _) h
          · simp only [t3, if_false] at h ⊢
            by_cases t4 : buffer.getD c 0 >>> 3 = 4 ∧ buffer.getD c 0 &&& 7 = 2
            · simp only [t4, if_true, and_self] at h ⊢
              cases hrv : readVariant f (buffer.drop ((c + 1) % 65536))
                  (windowLength bufferLen ((c + 1) % 65536)) with
              | none => rw [hrv] at h; exact Option.noConfusion h
              | some r =>
                obtain ⟨v, rb⟩ := r
                simp only [hrv] at h ⊢
                cases hch : chapterLoop f buffer bufferLen (v % 256)
                    (((c + 1) % 65536 + rb) % 65536) with
                | none => rw [hch] at h; exact Option.noConfusion h
                | some r =>
                  obtain ⟨chs, c'⟩ := r
                  simp only [hch] at h ⊢
                  exact step _ _ _ _ _ (overwrittenOrKept_chapters h1 h2 _ _) h
            · simp only [t4, if_false] at h ⊢
              by_cases t5 : buffer.getD c 0 >>> 3 = 5 ∧ buffer.getD c 0 &&& 7 = 2
              · simp only [t5, if_true, and_self] at h ⊢
                cases hrv : readVariant f (buffer.drop ((c + 1) % 65536))
                    (windowLength bufferLen ((c + 1) % 65536)) with
                | none => rw [hrv] at h; exact Option.noConfusion h
                | some r =>
                  obtain ⟨v, rb⟩ := r
                  simp only [hrv] at h ⊢
                  by_cases hne : (v + ((c + 1) % 65536 + rb) % 65536) % 2 ^ 64 ≠ 4096
                  · rw [if_pos hne] at h ⊢
                    exact stop _ _ _ h
                  · rw [if_neg hne] at h ⊢
                    exact stop _ _ _ h
              · simp only [t5, if_false] at h ⊢
                exact stop _ _ _ h
    · simp only [hg, if_false] at h ⊢
      exact stop _ _ _ h

/-! ## Dropping the recorded reads -/

theorem readVariantLoopTrace_erase (buffer : List Nat) (length : Nat) :
    ∀ (fuel ret readBytes : Nat),
      (readVariantLoopTrace buffer length fuel ret readBytes).map (fun r => (r.1, r.2.1))
        = readVariantLoop buffer length fuel ret readBytes := by
  intro fuel
  induction fuel with
  | zero => intro ret i; rfl
  | succ f ih =>
    intro ret i
    rw [readVariantLoopTrace, readVariantLoop]
    by_cases hlt : i < length
    · simp only [hlt, if_true]
      by_cases ht : buffer.getD i 0 &&& 0x80 = 0
      · simp only [ht, if_true, Option.map_some']
      · simp only [ht, if_false]
        rw [← ih]
        cases readVariantLoopTrace buffer length f
          (ret ||| (buffer.getD i 0 &&& 0x7F) <<< (7 * i) % 2 ^ 64) ((i + 1) % 256) <;> rfl
    · simp only [hlt, if_false, Option.map_some']

theorem readVariantTrace_erase (fuel : Nat) (buffer : List Nat) (length : Nat) :
    (readVariantTrace fuel buffer length).map (fun r => (r.1, r.2.1))
      = readVariant fuel buffer length :=
  readVariantLoopTrace_erase buffer length fuel 0 0

theorem chapterLoopTrace_erase (fuel : Nat) (buffer : List Nat) (bufferLen : Nat) :
    ∀ (n cursor : Nat),
      (chapterLoopTrace fuel buffer bufferLen n cursor).map (fun r => (r.1, r.2.1))
        = chapterLoop fuel buffer bufferLen n cursor := by
  intro n
  induction n with
  | zero => intro c; rfl
  | succ n ih =>
    intro c
    rw [chapterLoopTrace, chapterLoop, ← readVariantTrace_erase]
    cases readVariantTrace fuel (buffer.drop c) (windowLength bufferLen c) with
    | none => rfl
    | some r =>
      obtain ⟨v, rb, tr⟩ := r
      simp only [Option.map_some']
      rw [← ih]
      cases chapterLoopTrace fuel buffer bufferLen n ((c + rb) % 65536) <;> rfl

theorem fieldLoopTrace_erase (buffer : List Nat) (bufferLen : Nat) :
    ∀ (fuel : Nat) (s : DecodeState),
      (fieldLoopTrace buffer bufferLen fuel s).map (fun r => r.1)
        = fieldLoop buffer bufferLen fuel s := by
  intro fuel
  induction fuel with
  | zero => intro s; rfl
  | succ f ih =>
    intro s
    rw [fieldLoopTrace, fieldLoop]
    dsimp only
    rw [← readVariantTrace_erase]
    by_cases hg : (s.cursor : Int) < (bufferLen : Int) - 1
    · simp only [hg, if_true]
      cases hrv : readVariantTrace f (buffer.drop ((s.cursor + 1) % 65536))
          (windowLength bufferLen ((s.cursor + 1) % 65536)) with
      | none =>
        simp only [Option.map_none']
        split_ifs <;> rfl
      | some r =>
        obtain ⟨v, rb, tr⟩ := r
        simp only [Option.map_some']
        split_ifs
        · rw [← ih]
          cases fieldLoopTrace buffer bufferLen f _ <;> rfl
        · rfl
        · rw [← ih]
          cases fieldLoopTrace buffer bufferLen f _ <;> rfl
        · rw [← ih]
          cases fieldLoopTrace buffer bufferLen f _ <;> rfl
        · rw [← chapterLoopTrace_erase]
          cases chapterLoopTrace f buffer bufferLen (v % 256)
              (((s.cursor + 1) % 65536 + rb) % 65536) with
          | none => rfl
          | some r =>
            obtain ⟨chs, c', ctr⟩ := r
            simp only [Option.map_some']
            rw [← ih]
            cases fieldLoopTrace buffer bufferLen f _ <;> rfl
        · rfl
        · rfl
        · rfl
    · simp only [hg, if_false, Option.map_some']

theorem loadTonieByPathTrace_erase (fuel : Nat) (opened : Bool) (buffer : List Nat)
    (read : Nat) (header : TonieHeader) :
    (loadTonieByPathTrace fuel opened buffer read header).map (fun r => (r.1, r.2.1))
      = loadTonieByPath fuel opened buffer read header := by
  unfold loadTonieByPathTrace loadTonieByPath
  dsimp only
  rw [← fieldLoopTrace_erase]
  split_ifs
  · cases fieldLoopTrace buffer (read % 65536) fuel _ <;> rfl
  · rfl
  · rfl
  · rfl

/-! ## One iteration of the field loop, with its reads -/

theorem readVariantTrace_untraced {fuel : Nat} {buffer : List Nat} {length v rb : Nat}
    {reads : List Nat} (h : readVariantTrace fuel buffer length = some (v, rb, reads)) :
    readVariant fuel buffer length = some (v, rb) := by
  rw [← readVariantTrace_erase, h]; rfl

theorem chapterLoopTrace_untraced {fuel : Nat} {buffer : List Nat} {bufferLen n c c' : Nat}
    {chs reads : List Nat}
    (h : chapterLoopTrace fuel buffer bufferLen n c = some (chs, c', reads)) :
    chapterLoop fuel buffer bufferLen n c = some (chs, c') := by
  rw [← chapterLoopTrace_erase, h]; rfl

/-- What one iteration of the field loop does, read off its result: the loop
is left in one of four ways, or one of the four fields is stored and the loop
goes on from the state `mid`. All positions are below 65536, so the `uint16_t`
reductions are dropped. -/
theorem fieldLoopTrace_succ_inv {buffer : List Nat} {bufferLen fuel : Nat} {s s' : DecodeState}
    {exit : LoopExit} {reads : List Nat} (hlen : bufferLen ≤ 512)
    (h : fieldLoopTrace buffer bufferLen (fuel + 1) s = some (s', exit, reads)) :
    (bufferLen ≤ s.cursor + 1 ∧ s' = s ∧ exit = .condition ∧ reads = []) ∨
    (s.cursor + 1 < bufferLen ∧
      ((¬ (buffer.getD s.cursor 0 >>> 3 = 1 ∧ buffer.getD s.cursor 0 &&& 7 = 2) ∧
        ¬ (buffer.getD s.cursor 0 >>> 3 = 2 ∧ buffer.getD s.cursor 0 &&& 7 = 0) ∧
        ¬ (buffer.getD s.cursor 0 >>> 3 = 3 ∧ buffer.getD s.cursor 0 &&& 7 = 0) ∧
        ¬ (buffer.getD s.cursor 0 >>> 3 = 4 ∧ buffer.getD s.cursor 0 &&& 7 = 2) ∧
        ¬ (buffer.getD s.cursor 0 >>> 3 = 5 ∧ buffer.getD s.cursor 0 &&& 7 = 2) ∧
        s' = { cursor := s.cursor + 1, header := s.header,
               log := s.log ++ [.unexpectedField (buffer.getD s.cursor 0 >>> 3)
                 (buffer.getD s.cursor 0 &&& 7)] } ∧
        exit = .unexpectedField ∧ reads = [s.cursor]) ∨
       (∃ v rb vreads,
          readVariantTrace fuel (buffer.drop (s.cursor + 1)) (bufferLen - (s.cursor + 1))
            = some (v, rb, vreads) ∧
          ((buffer.getD s.cursor 0 >>> 3 = 1 ∧ buffer.getD s.cursor 0 &&& 7 = 2 ∧ v ≠ 20 ∧
              s' = { cursor := s.cursor + 1 + rb, header := s.header,
                     log := s.log ++ [.hashLength v] } ∧
              exit = .hashLength ∧ reads = s.cursor :: vreads.map (s.cursor + 1 + ·)) ∨
           (buffer.getD s.cursor 0 >>> 3 = 5 ∧ buffer.getD s.cursor 0 &&& 7 = 2 ∧
              s' = { cursor := s.cursor + 1 + rb, header := s.header,
                     log := s.log ++ if s.cursor + 1 + rb + v ≠ 4096
                       then [.headerLength ((v + (s.cursor + 1 + rb)) % 2 ^ 64)] else [] } ∧
              exit = .padding ∧ reads = s.cursor :: vreads.map (s.cursor + 1 + ·)) ∨
           (∃ mid midreads reads',
              fieldLoopTrace buffer bufferLen fuel mid = some (s', exit, reads') ∧
              reads = midreads ++ reads' ∧
              mid.log = s.log ++ [.tonieHeader mid.header] ∧
              ((buffer.getD s.cursor 0 >>> 3 = 1 ∧ buffer.getD s.cursor 0 &&& 7 = 2 ∧ v = 20 ∧
                  mid.cursor = s.cursor + 1 + rb + 20 ∧
                  mid.header = { s.header with hash := copyHash buffer (s.cursor + 1 + rb) } ∧
                  midreads = s.cursor :: vreads.map (s.cursor + 1 + ·)
                    ++ copyHashReads (s.cursor + 1 + rb)) ∨
               (buffer.getD s.cursor 0 >>> 3 = 2 ∧ buffer.getD s.cursor 0 &&& 7 = 0 ∧
                  mid.cursor = s.cursor + 1 + rb ∧
                  mid.header = { s.header with audioLength := v % 2 ^ 32 } ∧
                  midreads = s.cursor :: vreads.map (s.cursor + 1 + ·)) ∨
               (buffer.getD s.cursor 0 >>> 3 = 3 ∧ buffer.getD s.cursor 0 &&& 7 = 0 ∧
                  mid.cursor = s.cursor + 1 + rb ∧
                  mid.header = { s.header with audioId := v % 2 ^ 32 } ∧
                  midreads = s.cursor :: vreads.map (s.cursor + 1 + ·)) ∨
               (buffer.getD s.cursor 0 >>> 3 = 4 ∧ buffer.getD s.cursor 0 &&& 7 = 2 ∧
                  ∃ chs creads,
                    chapterLoopTrace fuel buffer bufferLen (v % 256) (s.cursor + 1 + rb)
                      = some (chs, mid.cursor, creads) ∧
                    mid.header = { s.header with audioChapterCount := v % 256,
                                                 audioChapters := chs } ∧
                    midreads = s.cursor :: vreads.map (s.cursor + 1 + ·) ++ creads))))))) := by
  rw [fieldLoopTrace] at h
  dsimp only at h
  by_cases hg : (s.cursor : Int) < (bufferLen : Int) - 1
  · have hcur : s.cursor + 1 < bufferLen := by omega
    have hc0 : (s.cursor + 1) % 65536 = s.cursor + 1 := Nat.mod_eq_of_lt (by omega)
    have hw : windowLength bufferLen (s.cursor + 1) = bufferLen - (s.cursor + 1) :=
      windowLength_eq (by omega) (by omega)
    simp only [hg, if_true, hc0, hw] at h
    refine Or.inr ⟨hcur, ?_⟩
    by_cases hunk : (¬ (buffer.getD s.cursor 0 >>> 3 = 1 ∧ buffer.getD s.cursor 0 &&& 7 = 2) ∧
        ¬ (buffer.getD s.cursor 0 >>> 3 = 2 ∧ buffer.getD s.cursor 0 &&& 7 = 0) ∧
        ¬ (buffer.getD s.cursor 0 >>> 3 = 3 ∧ buffer.getD s.cursor 0 &&& 7 = 0) ∧
        ¬ (buffer.getD s.cursor 0 >>> 3 = 4 ∧ buffer.getD s.cursor 0 &&& 7 = 2) ∧
        ¬ (buffer.getD s.cursor 0 >>> 3 = 5 ∧ buffer.getD s.cursor 0 &&& 7 = 2))
    · obtain ⟨t1, t2, t3, t4, t5⟩ := hunk
      simp only [t1, t2, t3, t4, t5, if_false, Option.some.injEq, Prod.mk.injEq] at h
      obtain ⟨rfl, rfl, rfl⟩ := h
      exact Or.inl ⟨t1, t2, t3, t4, t5, rfl, rfl, rfl⟩
    · refine Or.inr ?_
      cases hrv : readVariantTrace fuel (buffer.drop (s.cursor + 1))
          (bufferLen - (s.cursor + 1)) with
      | none =>
        rw [hrv] at h
        exfalso
        apply hunk
        refine ⟨?_, ?_, ?_, ?_, ?_⟩ <;> intro t <;> simp only [t, if_true, and_self] at h <;>
          exact Option.noConfusion h
      | some r =>
        obtain ⟨v, rb, vreads⟩ := r
        have hb := readVariant_bounds (readVariantTrace_untraced hrv)
        have hcr : (s.cursor + 1 + rb) % 65536 = s.cursor + 1 + rb :=
          Nat.mod_eq_of_lt (by omega)
        rw [hrv] at h
        simp only [hcr] at h
        refine ⟨v, rb, vreads, rfl, ?_⟩
        by_cases t1 : buffer.getD s.cursor 0 >>> 3 = 1 ∧ buffer.getD s.cursor 0 &&& 7 = 2
        · simp only [t1, if_true, and_self] at h
          by_cases h20 : v = 20
          · simp only [h20, if_true] at h
            have h20' : (s.cursor + 1 + rb + 20) % 65536 = s.cursor + 1 + rb + 20 :=
              Nat.mod_eq_of_lt (by omega)
            rw [h20'] at h
            cases hrest : fieldLoopTrace buffer bufferLen fuel
                { cursor := s.cursor + 1 + rb + 20,
                  header := { s.header with hash := copyHash buffer (s.cursor + 1 + rb) },
                  log := s.log ++ [.tonieHeader
                    { s.header with hash := copyHash buffer (s.cursor + 1 + rb) }] } with
            | none => rw [hrest] at h; exact Option.noConfusion h
            | some r =>
              obtain ⟨r1, r2, r3⟩ := r
              rw [hrest] at h
              simp only [Option.some.injEq, Prod.mk.injEq] at h
              obtain ⟨rfl, rfl, rfl⟩ := h
              exact Or.inr (Or.inr ⟨_, _, _, hrest, rfl, rfl,
                Or.inl ⟨t1.1, t1.2, h20, rfl, rfl, rfl⟩⟩)
          · simp only [h20, if_false, Option.some.injEq, Prod.mk.injEq] at h
            obtain ⟨rfl, rfl, rfl⟩ := h
            exact Or.inl ⟨t1.1, t1.2, h20, rfl, rfl, rfl⟩
        · simp only [t1, if_false] at h
          by_cases t2 : buffer.getD s.cursor 0 >>> 3 = 2 ∧ buffer.getD s.cursor 0 &&& 7 = 0
          · simp only [t2, if_true, and_self] at h
            cases hrest : fieldLoopTrace buffer bufferLen fuel
                { cursor := s.cursor + 1 + rb,
                  header := { s.header with audioLength := v % 2 ^ 32 },
                  log := s.log ++ [.tonieHeader
                    { s.header with audioLength := v % 2 ^ 32 }] } with
            | none => rw [hrest] at h; exact Option.noConfusion h
            | some r =>
              obtain ⟨r1, r2, r3⟩ := r
              rw [hrest] at h
              simp only [Option.some.injEq, Prod.mk.injEq] at h
              obtain ⟨rfl, rfl, rfl⟩ := h
              exact Or.inr (Or.inr ⟨_, _, _, hrest, rfl, rfl,
                Or.inr (Or.inl ⟨t2.1, t2.2, rfl, rfl, rfl⟩)⟩)
          · simp only [t2, if_false] at h
            by_cases t3 : buffer.getD s.cursor 0 >>> 3 = 3 ∧ buffer.getD s.cursor 0 &&& 7 = 0
            · simp only [t3, if_true, and_self] at h
              cases hrest : fieldLoopTrace buffer bufferLen fuel
                  { cursor := s.cursor + 1 + rb,
                    header := { s.header with audioId := v % 2 ^ 32 },
                    log := s.log ++ [.tonieHeader
                      { s.header with audioId := v % 2 ^ 32 }] } with
              | none => rw [hrest] at h; exact Option.noConfusion h
              | some r =>
                obtain ⟨r1, r2, r3⟩ := r
                rw [hrest] at h
                simp only [Option.some.injEq, Prod.mk.injEq] at h
                obtain ⟨rfl, rfl, rfl⟩ := h
                exact Or.inr (Or.inr ⟨_, _, _, hrest, rfl, rfl,
                  Or.inr (Or.inr (Or.inl ⟨t3.1, t3.2, rfl, rfl, rfl⟩))⟩)
            · simp only [t3, if_false] at h
              by_cases t4 : buffer.getD s.cursor 0 >>> 3 = 4 ∧ buffer.getD s.cursor 0 &&& 7 = 2
              · simp only [t4, if_true, and_self] at h
                cases hch : chapterLoopTrace fuel buffer bufferLen (v % 256)
                    (s.cursor + 1 + rb) with
                | none => rw [hch] at h; exact Option.noConfusion h
                | some r =>
                  obtain ⟨chs, c', creads⟩ := r
                  rw [hch] at h
                  dsimp only at h
                  cases hrest : fieldLoopTrace buffer bufferLen fuel
                      { cursor := c',
                        header := { s.header with audioChapterCount := v % 256,
                                                  audioChapters := chs },
                        log := s.log ++ [.tonieHeader
                          { s.header with audioChapterCount := v % 256,
                                          audioChapters := chs }] } with
                  | none => rw [hrest] at h; exact Option.noConfusion h
                  | some r =>
                    obtain ⟨r1, r2, r3⟩ := r
                    rw [hrest] at h
                    simp only [Option.some.injEq, Prod.mk.injEq] at h
                    obtain ⟨rfl, rfl, rfl⟩ := h
                    exact Or.inr (Or.inr ⟨_, _, _, hrest, by simp, rfl,
                      Or.inr (Or.inr (Or.inr ⟨t4.1, t4.2, chs, creads, rfl, rfl, rfl⟩))⟩)
              · simp only [t4, if_false] at h
                have t5 : buffer.getD s.cursor 0 >>> 3 = 5 ∧ buffer.getD s.cursor 0 &&& 7 = 2 := by
                  by_contra t5
                  exact hunk ⟨t1, t2, t3, t4, t5⟩
                simp only [t5, if_true, and_self] at h
                have hiff : (v + (s.cursor + 1 + rb)) % 2 ^ 64 ≠ 4096
                    ↔ s.cursor + 1 + rb + v ≠ 4096 := by
                  have h64 : (2 : Nat) ^ 64 = 18446744073709551616 := by norm_num
                  rw [h64] at hb ⊢
                  omega
                refine Or.inr (Or.inl ⟨t5.1, t5.2, ?_, ?_, ?_⟩)
                · by_cases hne : s.cursor + 1 + rb + v ≠ 4096
                  · rw [if_pos (hiff.mpr hne)] at h
                    simp only [Option.some.injEq, Prod.mk.injEq] at h
                    rw [if_pos hne, ← h.1]
                  · rw [if_neg (fun hh => hne (hiff.mp hh))] at h
                    simp only [Option.some.injEq, Prod.mk.injEq] at h
                    rw [if_neg hne, ← h.1, List.append_nil]
                · split_ifs at h <;> simp only [Option.some.injEq, Prod.mk.injEq] at h <;>
                    exact h.2.1.symm
                · split_ifs at h <;> simp only [Option.some.injEq, Prod.mk.injEq] at h <;>
                    exact h.2.2.symm
  · have hcur : bufferLen ≤ s.cursor + 1 := by omega
    simp only [hg, if_false, Option.some.injEq, Prod.mk.injEq] at h
    obtain ⟨rfl, rfl, rfl⟩ := h
    exact Or.inl ⟨hcur, rfl, rfl, rfl⟩

/-- A field loop left because its condition failed has logged header dumps
only: the three error messages each come with a `break`. -/
theorem fieldLoopTrace_condition_log (buffer : List Nat) (bufferLen : Nat)
    (hlen : bufferLen ≤ 512) :
    ∀ (fuel : Nat) (s s' : DecodeState) (reads : List Nat),
      fieldLoopTrace buffer bufferLen fuel s = some (s', .condition, reads) →
      bufferLen ≤ s'.cursor + 1 ∧
      ∃ dumps, s'.log = s.log ++ dumps ∧ ∀ m ∈ dumps, m.isError = false := by
  intro fuel
  induction fuel with
  | zero => intro s s' reads h; exact Option.noConfusion h
  | succ f ih =>
    intro s s' reads h
    rcases fieldLoopTrace_succ_inv hlen h with ⟨hc, rfl, _, _⟩ | ⟨_, hcase⟩
    · exact ⟨hc, [], by simp, by simp⟩
    · rcases hcase with ⟨_, _, _, _, _, _, he, _⟩ | ⟨v, rb, vreads, _, hcase⟩
      · exact LoopExit.noConfusion he
      · rcases hcase with ⟨_, _, _, _, he, _⟩ | ⟨_, _, _, he, _⟩ |
          ⟨mid, midreads, reads', hrest, _, hlog, _⟩
        · exact LoopExit.noConfusion he
        · exact LoopExit.noConfusion he
        · obtain ⟨hc, dumps, hd, hinfo⟩ := ih mid s' reads' hrest
          refine ⟨hc, .tonieHeader mid.header :: dumps, ?_, ?_⟩
          · rw [hd, hlog]; simp
          · intro m hm
            rcases List.mem_cons.mp hm with rfl | hm
            · rfl
            · exact hinfo m hm

/-! ## Where the reads lie -/

/-- A byte with the high bit set is no tag of a known field: its id is 16 or more. -/
theorem continuation_byte_id (b : Nat) (hb : b &&& 0x80 ≠ 0) :
    b >>> 3 ≠ 1 ∧ b >>> 3 ≠ 2 ∧ b >>> 3 ≠ 3 ∧ b >>> 3 ≠ 4 ∧ b >>> 3 ≠ 5 := by
  have h7 : b.testBit 7 = true := by
    by_contra h
    apply hb
    apply Nat.eq_of_testBit_eq
    intro j
    rw [Nat.testBit_and, Nat.zero_testBit]
    by_cases hj : j = 7
    · subst hj
      simp only [Bool.not_eq_true] at h
      rw [h, Bool.false_and]
    · have : Nat.testBit 0x80 j = false := by
        rw [show (0x80 : Nat) = 2 ^ 7 by norm_num, Nat.testBit_two_pow]
        simp only [decide_eq_false_iff_not]
        omega
      rw [this, Bool.and_false]
  have h4 : (b >>> 3).testBit 4 = true := by
    rw [Nat.testBit_shiftRight]; exact h7
  refine ⟨?_, ?_, ?_, ?_, ?_⟩ <;> intro h <;> rw [h] at h4 <;> revert h4 <;> decide

/-- A field loop that finds a byte with the high bit set at its cursor is not
left through the padding field. -/
theorem fieldLoopTrace_not_padding {buffer : List Nat} {bufferLen fuel : Nat}
    {s s' : DecodeState} {exit : LoopExit} {reads : List Nat} (hlen : bufferLen ≤ 512)
    (hb : buffer.getD s.cursor 0 &&& 0x80 ≠ 0)
    (h : fieldLoopTrace buffer bufferLen fuel s = some (s', exit, reads)) :
    exit ≠ .padding := by
  obtain ⟨h1, h2, h3, h4, h5⟩ := continuation_byte_id _ hb
  cases fuel with
  | zero => exact Option.noConfusion h
  | succ f =>
    rcases fieldLoopTrace_succ_inv hlen h with ⟨_, _, he, _⟩ | ⟨_, hcase⟩
    · rw [he]; decide
    · rcases hcase with ⟨_, _, _, _, _, _, he, _⟩ | ⟨v, rb, vreads, _, hcase⟩
      · rw [he]; decide
      · rcases hcase with ⟨t, _⟩ | ⟨t, _⟩ | ⟨_, _, _, _, _, _, hcase⟩
        · exact absurd t h1
        · exact absurd t h5
        · rcases hcase with ⟨t, _⟩ | ⟨t, _⟩ | ⟨t, _⟩ | ⟨t, _⟩
          · exact absurd t h1
          · exact absurd t h2
          · exact absurd t h3
          · exact absurd t h4

/-- The reads of the loop of `readVariant` entered at `i` with only continuation
bytes before `i`: they are the `n` consecutive indices from `i`, all but the last
of them continuation bytes, they end at 256 at the latest, and `readBytes` is
their end reduced modulo 256. -/
theorem readVariantLoopTrace_shape (w : List Nat) (len : Nat) :
    ∀ (fuel ret i v rb : Nat) (reads : List Nat), i ≤ 255 →
      (∀ j, j < i → w.getD j 0 &&& 0x80 ≠ 0) →
      readVariantLoopTrace w len fuel ret i = some (v, rb, reads) →
      ∃ n, reads = List.range' i n ∧ i + n ≤ 256 ∧ rb = (i + n) % 256 ∧
        (0 < n → i + n ≤ len) ∧
        ∀ j, j + 1 < i + n → w.getD j 0 &&& 0x80 ≠ 0 := by
  intro fuel
  induction fuel with
  | zero => intro ret i v rb reads _ _ h; exact Option.noConfusion h
  | succ f ih =>
    intro ret i v rb reads hi hbefore h
    rw [readVariantLoopTrace] at h
    by_cases hlt : i < len
    · simp only [hlt, if_true] at h
      by_cases ht : w.getD i 0 &&& 0x80 = 0
      · simp only [ht, if_true, Option.some.injEq, Prod.mk.injEq] at h
        obtain ⟨_, rfl, rfl⟩ := h
        exact ⟨1, rfl, by omega, rfl, fun _ => by omega, fun j hj => hbefore j (by omega)⟩
      · simp only [ht, if_false] at h
        cases hrest : readVariantLoopTrace w len f
            (ret ||| (w.getD i 0 &&& 0x7F) <<< (7 * i) % 2 ^ 64) ((i + 1) % 256) with
        | none => rw [hrest] at h; exact Option.noConfusion h
        | some r =>
          obtain ⟨v', rb', reads'⟩ := r
          rw [hrest] at h
          simp only [Option.some.injEq, Prod.mk.injEq] at h
          obtain ⟨rfl, rfl, rfl⟩ := h
          have hbefore' : ∀ j, j < i + 1 → w.getD j 0 &&& 0x80 ≠ 0 := by
            intro j hj
            by_cases hji : j = i
            · rw [hji]; exact ht
            · exact hbefore j (by omega)
          by_cases h255 : i = 255
          · -- the counter wraps and the loop cannot be left any more
            exfalso
            have hdiv := readVariantLoop_diverges w len (by omega)
              (fun j hj => hbefore' j (by omega)) f
              (ret ||| (w.getD i 0 &&& 0x7F) <<< (7 * i) % 2 ^ 64) ((i + 1) % 256)
              (Nat.mod_lt _ (by norm_num))
            rw [← readVariantLoopTrace_erase, hrest] at hdiv
            exact Option.noConfusion hdiv
          · have hmod : (i + 1) % 256 = i + 1 := Nat.mod_eq_of_lt (by omega)
            rw [hmod] at hrest
            obtain ⟨n, hr, hn, hrb, hnl, hc⟩ :=
              ih _ (i + 1) v' rb' reads' (by omega) hbefore' hrest
            refine ⟨n + 1, ?_, by omega, ?_, fun _ => ?_, ?_⟩
            · rw [hr]; rfl
            · rw [hrb]; congr 1; omega
            · by_cases hn0 : 0 < n
              · have := hnl hn0; omega
              · omega
            · intro j hj
              by_cases hn0 : 0 < n
              · exact hc j (by omega)
              · exact hbefore' j (by omega)
    · simp only [hlt, if_false, Option.some.injEq, Prod.mk.injEq] at h
      obtain ⟨_, rfl, rfl⟩ := h
      exact ⟨0, rfl, by omega, by simp [Nat.mod_eq_of_lt (show i < 256 by omega)],
        fun h => by omega, fun j hj => hbefore j (by omega)⟩

/-- The reads of `readVariant`: the first `n` bytes of the window, all but the
last of them continuation bytes. Either `readBytes` is `n`, or the counter wrapped:
256 bytes were read and `readBytes` is 0. -/
theorem readVariantTrace_shape {fuel : Nat} {w : List Nat} {len v rb : Nat}
    {reads : List Nat} (h : readVariantTrace fuel w len = some (v, rb, reads)) :
    ∃ n, reads = List.range n ∧ n ≤ len ∧
      (∀ j, j + 1 < n → w.getD j 0 &&& 0x80 ≠ 0) ∧
      ((n ≤ 255 ∧ rb = n) ∨ (n = 256 ∧ rb = 0)) := by
  obtain ⟨n, hr, hn, hrb, hnl, hc⟩ :=
    readVariantLoopTrace_shape w len fuel 0 0 v rb reads (by omega) (fun j hj => by omega) h
  refine ⟨n, ?_, ?_, ?_, ?_⟩
  · rw [hr, List.range_eq_range']
  · by_cases hn0 : 0 < n
    · have := hnl hn0; omega
    · omega
  · intro j hj; exact hc j (by omega)
  · by_cases h256 : n = 256
    · right; subst h256; exact ⟨rfl, by rw [hrb]⟩
    · left
      refine ⟨by omega, ?_⟩
      rw [hrb, Nat.zero_add]; exact Nat.mod_eq_of_lt (by omega)

/-- A call of `readVariant` that reports `readBytes = 0` leaves the cursor in
place, so every later call of the chapter loop repeats it. -/
theorem chapterLoopTrace_stuck {fuel : Nat} {buffer : List Nat} {bufferLen c v : Nat}
    {vreads : List Nat} (hc : c < 65536)
    (hrv : readVariantTrace fuel (buffer.drop c) (windowLength bufferLen c)
      = some (v, 0, vreads)) :
    ∀ (n : Nat) (chs : List Nat) (c' : Nat) (creads : List Nat),
      chapterLoopTrace fuel buffer bufferLen n c = some (chs, c', creads) → c' = c := by
  intro n
  induction n with
  | zero =>
    intro chs c' creads h
    simp only [chapterLoopTrace, Option.some.injEq, Prod.mk.injEq] at h
    exact h.2.1.symm
  | succ n ih =>
    intro chs c' creads h
    rw [chapterLoopTrace, hrv] at h
    simp only [Nat.add_zero, Nat.mod_eq_of_lt hc] at h
    cases hrest : chapterLoopTrace fuel buffer bufferLen n c with
    | none => rw [hrest] at h; exact Option.noConfusion h
    | some r =>
      obtain ⟨chs', c'', creads'⟩ := r
      rw [hrest] at h
      simp only [Option.some.injEq, Prod.mk.injEq] at h
      rw [← h.2.1]
      exact ih _ _ _ hrest

/-- The reads of the chapter loop lie before the cursor it ends at, unless a
call of `readVariant` wrapped; then the byte at that cursor is a continuation
byte. -/
theorem chapterLoopTrace_reads {fuel : Nat} {buffer : List Nat} {bufferLen : Nat}
    (hlen : bufferLen ≤ 512) :
    ∀ (n c : Nat) (chs : List Nat) (c' : Nat) (creads : List Nat), c ≤ bufferLen →
      chapterLoopTrace fuel buffer bufferLen n c = some (chs, c', creads) →
      c ≤ c' ∧ c' ≤ bufferLen ∧
        ((∀ i ∈ creads, i < c') ∨ buffer.getD c' 0 &&& 0x80 ≠ 0) := by
  intro n
  induction n with
  | zero =>
    intro c chs c' creads hc h
    simp only [chapterLoopTrace, Option.some.injEq, Prod.mk.injEq] at h
    obtain ⟨_, rfl, rfl⟩ := h
    exact ⟨le_refl _, hc, Or.inl (by simp)⟩
  | succ n ih =>
    intro c chs c' creads hc h
    have h0 := h
    rw [chapterLoopTrace, windowLength_eq hc (by omega)] at h
    cases hrv : readVariantTrace fuel (buffer.drop c) (bufferLen - c) with
    | none => rw [hrv] at h; exact Option.noConfusion h
    | some r =>
      obtain ⟨v, rb, vreads⟩ := r
      rw [hrv] at h
      dsimp only at h
      obtain ⟨m, hvr, hml, hcont, hcase⟩ := readVariantTrace_shape hrv
      rcases hcase with ⟨hm, hrb⟩ | ⟨hm, hrb⟩
      · subst hrb
        rw [Nat.mod_eq_of_lt (show c + rb < 65536 by omega)] at h
        cases hrest : chapterLoopTrace fuel buffer bufferLen n (c + rb) with
        | none => rw [hrest] at h; exact Option.noConfusion h
        | some r =>
          obtain ⟨chs', c'', creads'⟩ := r
          rw [hrest] at h
          simp only [Option.some.injEq, Prod.mk.injEq] at h
          obtain ⟨_, rfl, rfl⟩ := h
          obtain ⟨h1, h2, h3⟩ := ih (c + rb) chs' c'' creads' (by omega) hrest
          refine ⟨by omega, h2, ?_⟩
          rcases h3 with h3 | h3
          · left
            intro i hi
            rcases List.mem_append.mp hi with hi | hi
            · rw [hvr] at hi
              simp only [List.mem_map, List.mem_range] at hi
              obtain ⟨j, hj, rfl⟩ := hi
              omega
            · exact h3 i hi
          · exact Or.inr h3
      · subst hrb
        have hstuck : c' = c := by
          apply chapterLoopTrace_stuck (show c < 65536 by omega) _ (n + 1) chs c' creads h0
          · exact v
          · exact vreads
          · rw [windowLength_eq hc (by omega)]; exact hrv
        subst hstuck
        refine ⟨le_refl _, hc, Or.inr ?_⟩
        have := hcont 0 (by omega)
        rwa [getD_drop, Nat.add_zero] at this

theorem getLast?_cons_map_range (a n : Nat) :
    (a :: (List.range n).map (a + 1 + ·)).getLast? = some (a + n) := by
  cases n with
  | zero => rfl
  | succ m =>
    rw [List.range_succ, List.map_append, List.map_singleton, ← List.cons_append,
      List.getLast?_append, List.getLast?_singleton]
    simp only [Option.or_some]
    congr 1
    omega

/-- In a field loop left through the padding field the reads end with the last
byte read of the fill varint, and no earlier read lies beyond it. -/
theorem fieldLoopTrace_padding_reads {buffer : List Nat} {bufferLen : Nat}
    (hlen : bufferLen ≤ 512) :
    ∀ (fuel : Nat) (s s' : DecodeState) (reads : List Nat),
      fieldLoopTrace buffer bufferLen fuel s = some (s', .padding, reads) →
      ∃ k, reads.getLast? = some k ∧ s.cursor ≤ k ∧ ∀ i ∈ reads, i ≤ k := by
  intro fuel
  induction fuel with
  | zero => intro s s' reads h; exact Option.noConfusion h
  | succ f ih =>
    intro s s' reads h
    rcases fieldLoopTrace_succ_inv hlen h with ⟨_, _, he, _⟩ | ⟨hcur, hcase⟩
    · exact LoopExit.noConfusion he
    · rcases hcase with ⟨_, _, _, _, _, _, he, _⟩ | ⟨v, rb, vreads, hrv, hcase⟩
      · exact LoopExit.noConfusion he
      · obtain ⟨m, hvr, hml, hcont, hwrap⟩ := readVariantTrace_shape hrv
        have hw0 : ∀ j, j + 1 < m →
            buffer.getD (s.cursor + 1 + j) 0 &&& 0x80 ≠ 0 := by
          intro j hj
          have := hcont j hj
          rwa [getD_drop] at this
        rcases hcase with ⟨_, _, _, _, he, _⟩ | ⟨_, _, _, _, hreads⟩ |
          ⟨mid, midreads, reads', hrest, hreads, _, hcase⟩
        · exact LoopExit.noConfusion he
        · -- the padding field itself
          refine ⟨s.cursor + m, ?_, by omega, ?_⟩
          · rw [hreads, hvr]; exact getLast?_cons_map_range _ _
          · intro i hi
            rw [hreads, hvr] at hi
            simp only [List.mem_cons, List.mem_map, List.mem_range] at hi
            rcases hi with rfl | ⟨j, hj, rfl⟩ <;> omega
        · -- a field was stored and the loop went on
          obtain ⟨k, hk, hmk, hall⟩ := ih mid s' reads' hrest
          have hne : reads' ≠ [] := by
            intro h0; rw [h0] at hk; exact Option.noConfusion hk
          have hmidb : (∀ i ∈ midreads, i < mid.cursor)
              ∨ buffer.getD mid.cursor 0 &&& 0x80 ≠ 0 := by
            rcases hcase with ⟨_, _, _, hmc, _, hmr⟩ | ⟨_, _, hmc, _, hmr⟩ |
              ⟨_, _, hmc, _, hmr⟩ | ⟨_, _, chs, creads, hch, _, hmr⟩
            · rcases hwrap with ⟨_, hrb⟩ | ⟨hm, hrb⟩
              · left
                intro i hi
                rw [hmr, hvr] at hi
                simp only [List.cons_append, List.mem_cons, List.mem_append, List.mem_map,
                  List.mem_range, copyHashReads] at hi
                rcases hi with rfl | ⟨j, hj, rfl⟩ | ⟨j, hj, rfl⟩ <;> omega
              · right
                rw [hmc, hrb]
                exact hw0 20 (by omega)
            · rcases hwrap with ⟨_, hrb⟩ | ⟨hm, hrb⟩
              · left
                intro i hi
                rw [hmr, hvr] at hi
                simp only [List.mem_cons, List.mem_map, List.mem_range] at hi
                rcases hi with rfl | ⟨j, hj, rfl⟩ <;> omega
              · right
                rw [hmc, hrb]
                exact hw0 0 (by omega)
            · rcases hwrap with ⟨_, hrb⟩ | ⟨hm, hrb⟩
              · left
                intro i hi
                rw [hmr, hvr] at hi
                simp only [List.mem_cons, List.mem_map, List.mem_range] at hi
                rcases hi with rfl | ⟨j, hj, rfl⟩ <;> omega
              · right
                rw [hmc, hrb]
                exact hw0 0 (by omega)
            · rcases hwrap with ⟨_, hrb⟩ | ⟨hm, hrb⟩
              · obtain ⟨h1, _, h3⟩ :=
                  chapterLoopTrace_reads hlen (v % 256) (s.cursor + 1 + rb) chs mid.cursor
                    creads (by omega) hch
                rcases h3 with h3 | h3
                · left
                  intro i hi
                  rw [hmr, hvr] at hi
                  simp only [List.cons_append, List.mem_cons, List.mem_append, List.mem_map,
                    List.mem_range] at hi
                  rcases hi with rfl | ⟨j, hj, rfl⟩ | hi
                  · omega
                  · omega
                  · exact h3 i hi
                · exact Or.inr h3
              · right
                subst hrb
                have hrv' : readVariantTrace f (buffer.drop (s.cursor + 1 + 0))
                    (windowLength bufferLen (s.cursor + 1 + 0)) = some (v, 0, vreads) := by
                  rw [Nat.add_zero, windowLength_eq (by omega) (by omega)]; exact hrv
                have hstuck := chapterLoopTrace_stuck (show s.cursor + 1 + 0 < 65536 by omega)
                  hrv' (v % 256) chs mid.cursor creads hch
                rw [hstuck]
                exact hw0 0 (by omega)
          rcases hmidb with hmidb | hmidb
          · refine ⟨k, ?_, ?_, ?_⟩
            · rw [hreads, List.getLast?_append_of_ne_nil _ hne]; exact hk
            · have hmem : s.cursor ∈ midreads := by
                rcases hcase with ⟨_, _, _, _, _, hmr⟩ | ⟨_, _, _, _, hmr⟩ |
                  ⟨_, _, _, _, hmr⟩ | ⟨_, _, _, _, _, _, hmr⟩ <;> rw [hmr] <;> simp
              have := hmidb _ hmem
              omega
            · intro i hi
              rw [hreads] at hi
              rcases List.mem_append.mp hi with hi | hi
              · have := hmidb i hi; omega
              · exact hall i hi
          · exact absurd rfl (fieldLoopTrace_not_padding hlen hmidb hrest)

/-! ## The result depends on the bytes read only -/

theorem readVariantLoopTrace_congr (w1 w2 : List Nat) (len : Nat) :
    ∀ (fuel ret i v rb : Nat) (reads : List Nat),
      readVariantLoopTrace w1 len fuel ret i = some (v, rb, reads) →
      (∀ j ∈ reads, w1.getD j 0 = w2.getD j 0) →
      readVariantLoopTrace w2 len fuel ret i = some (v, rb, reads) := by
  intro fuel
  induction fuel with
  | zero => intro ret i v rb reads h _; exact Option.noConfusion h
  | succ f ih =>
    intro ret i v rb reads h hag
    rw [readVariantLoopTrace] at h ⊢
    by_cases hlt : i < len
    · simp only [hlt, if_true] at h ⊢
      by_cases ht : w1.getD i 0 &&& 0x80 = 0
      · simp only [ht, if_true, Option.some.injEq, Prod.mk.injEq] at h
        obtain ⟨rfl, rfl, rfl⟩ := h
        have hi : w1.getD i 0 = w2.getD i 0 := hag i (by simp)
        rw [← hi]
        simp only [ht, if_true]
      · simp only [ht, if_false] at h
        cases hrest : readVariantLoopTrace w1 len f
            (ret ||| (w1.getD i 0 &&& 0x7F) <<< (7 * i) % 2 ^ 64) ((i + 1) % 256) with
        | none => rw [hrest] at h; exact Option.noConfusion h
        | some r =>
          obtain ⟨v', rb', reads'⟩ := r
          rw [hrest] at h
          simp only [Option.some.injEq, Prod.mk.injEq] at h
          obtain ⟨rfl, rfl, rfl⟩ := h
          have hi : w1.getD i 0 = w2.getD i 0 := hag i (by simp)
          rw [← hi]
          simp only [ht, if_false]
          rw [ih _ _ _ _ _ hrest (fun j hj => hag j (List.mem_cons_of_mem _ hj))]
    · simp only [hlt, if_false] at h ⊢
      exact h

/-- Two buffers that hold the same bytes at the window positions read give the
same result of `readVariant` at the cursor `c`. -/
theorem readVariantTrace_congr {b1 b2 : List Nat} {fuel c len v rb : Nat} {reads : List Nat}
    (h : readVariantTrace fuel (b1.drop c) len = some (v, rb, reads))
    (hag : ∀ i ∈ reads.map (c + ·), b1.getD i 0 = b2.getD i 0) :
    readVariantTrace fuel (b2.drop c) len = some (v, rb, reads) := by
  apply readVariantLoopTrace_congr (b1.drop c) (b2.drop c) len fuel 0 0 v rb reads h
  intro j hj
  rw [getD_drop, getD_drop]
  exact hag (c + j) (List.mem_map.mpr ⟨j, hj, rfl⟩)

theorem chapterLoopTrace_congr {b1 b2 : List Nat} {fuel bufferLen : Nat} :
    ∀ (n c : Nat) (chs : List Nat) (c' : Nat) (reads : List Nat),
      chapterLoopTrace fuel b1 bufferLen n c = some (chs, c', reads) →
      (∀ i ∈ reads, b1.getD i 0 = b2.getD i 0) →
      chapterLoopTrace fuel b2 bufferLen n c = some (chs, c', reads) := by
  intro n
  induction n with
  | zero => intro c chs c' reads h _; exact h
  | succ n ih =>
    intro c chs c' reads h hag
    rw [chapterLoopTrace] at h ⊢
    cases hrv : readVariantTrace fuel (b1.drop c) (windowLength bufferLen c) with
    | none => rw [hrv] at h; exact Option.noConfusion h
    | some r =>
      obtain ⟨v, rb, vreads⟩ := r
      rw [hrv] at h
      dsimp only at h
      cases hrest : chapterLoopTrace fuel b1 bufferLen n ((c + rb) % 65536) with
      | none => rw [hrest] at h; exact Option.noConfusion h
      | some r =>
        obtain ⟨chs', c'', reads'⟩ := r
        rw [hrest] at h
        simp only [Option.some.injEq, Prod.mk.injEq] at h
        obtain ⟨rfl, rfl, rfl⟩ := h
        rw [readVariantTrace_congr hrv (fun i hi => hag i (List.mem_append_left _ hi))]
        dsimp only
        rw [ih _ _ _ _ hrest (fun i hi => hag i (List.mem_append_right _ hi))]

theorem copyHash_congr {b1 b2 : List Nat} {c : Nat}
    (hag : ∀ i ∈ copyHashReads c, b1.getD i 0 = b2.getD i 0) :
    copyHash b1 c = copyHash b2 c := by
  unfold copyHash
  apply List.map_congr_left
  intro i hi
  exact hag (c + i) (List.mem_map.mpr ⟨i, hi, rfl⟩)

/-- Two buffers that hold the same bytes at every index the field loop reads
in the first give the same run of the field loop. -/
theorem fieldLoopTrace_congr {b1 b2 : List Nat} {bufferLen : Nat} :
    ∀ (fuel : Nat) (s s' : DecodeState) (exit : LoopExit) (reads : List Nat),
      fieldLoopTrace b1 bufferLen fuel s = some (s', exit, reads) →
      (∀ i ∈ reads, b1.getD i 0 = b2.getD i 0) →
      fieldLoopTrace b2 bufferLen fuel s = some (s', exit, reads) := by
  intro fuel
  induction fuel with
  | zero => intro s s' exit reads h _; exact Option.noConfusion h
  | succ f ih =>
    intro s s' exit reads h hag
    rw [fieldLoopTrace] at h ⊢
    dsimp only at h ⊢
    by_cases hg : (s.cursor : Int) < (bufferLen : Int) - 1
    · simp only [hg, if_true] at h ⊢
      -- every branch reads the tag first
      have htag : s.cursor ∈ reads → b2.getD s.cursor 0 = b1.getD s.cursor 0 :=
        fun hm => (hag _ hm).symm
      by_cases t1 : b1.getD s.cursor 0 >>> 3 = 1 ∧ b1.getD s.cursor 0 &&& 7 = 2
      · simp only [t1, if_true, and_self] at h
        cases hrv : readVariantTrace f (b1.drop ((s.cursor + 1) % 65536))
            (windowLength bufferLen ((s.cursor + 1) % 65536)) with
        | none => rw [hrv] at h; exact Option.noConfusion h
        | some r =>
          obtain ⟨v, rb, vreads⟩ := r
          rw [hrv] at h
          dsimp only at h
          by_cases h20 : v = 20
          · simp only [h20, if_true] at h
            cases hrest : fieldLoopTrace b1 bufferLen f
                { cursor := (((s.cursor + 1) % 65536 + rb) % 65536 + 20) % 65536,
                  header := { s.header with
                    hash := copyHash b1 (((s.cursor + 1) % 65536 + rb) % 65536) },
                  log := s.log ++ [.tonieHeader { s.header with
                    hash := copyHash b1 (((s.cursor + 1) % 65536 + rb) % 65536) }] } with
            | none => rw [hrest] at h; exact Option.noConfusion h
            | some r =>
              obtain ⟨r1, r2, r3⟩ := r
              rw [hrest] at h
              simp only [Option.some.injEq, Prod.mk.injEq] at h
              obtain ⟨rfl, rfl, rfl⟩ := h
              rw [htag (List.mem_append_left _ (List.mem_append_left _
                (List.mem_cons_self _ _)))]
              rw [if_pos t1]
              rw [readVariantTrace_congr hrv (fun i hi => hag i (List.mem_append_left _
                (List.mem_append_left _ (List.mem_cons_of_mem _ hi))))]
              dsimp only
              simp only [h20, if_true]
              rw [← copyHash_congr (fun i hi => hag i (List.mem_append_left _
                (List.mem_append_right _ hi)))]
              rw [ih _ _ _ _ hrest (fun i hi => hag i (List.mem_append_right _ hi))]
          · simp only [h20, if_false, Option.some.injEq, Prod.mk.injEq] at h
            obtain ⟨rfl, rfl, rfl⟩ := h
            rw [htag (List.mem_cons_self _ _)]
            rw [if_pos t1]
            rw [readVariantTrace_congr hrv (fun i hi => hag i (List.mem_cons_of_mem _ hi))]
            dsimp only
            simp only [h20, if_false]
      · simp only [t1, if_false] at h
        by_cases t2 : b1.getD s.cursor 0 >>> 3 = 2 ∧ b1.getD s.cursor 0 &&& 7 = 0
        · simp only [t2, if_true, and_self] at h
          cases hrv : readVariantTrace f (b1.drop ((s.cursor + 1) % 65536))
              (windowLength bufferLen ((s.cursor + 1) % 65536)) with
          | none => rw [hrv] at h; exact Option.noConfusion h
          | some r =>
            obtain ⟨v, rb, vreads⟩ := r
            rw [hrv] at h
            dsimp only at h
            cases hrest : fieldLoopTrace b1 bufferLen f
                { cursor := ((s.cursor + 1) % 65536 + rb) % 65536,
                  header := { s.header with audioLength := v % 2 ^ 32 },
                  log := s.log ++ [.tonieHeader
                    { s.header with audioLength := v % 2 ^ 32 }] } with
            | none => rw [hrest] at h; exact Option.noConfusion h
            | some r =>
              obtain ⟨r1, r2, r3⟩ := r
              rw [hrest] at h
              simp only [Option.some.injEq, Prod.mk.injEq] at h
              obtain ⟨rfl, rfl, rfl⟩ := h
              rw [htag (List.mem_append_left _ (List.mem_cons_self _ _))]
              rw [if_neg t1, if_pos t2]
              rw [readVariantTrace_congr hrv (fun i hi => hag i (List.mem_append_left _
                (List.mem_cons_of_mem _ hi)))]
              dsimp only
              rw [ih _ _ _ _ hrest (fun i hi => hag i (List.mem_append_right _ hi))]
        · simp only [t2, if_false] at h
          by_cases t3 : b1.getD s.cursor 0 >>> 3 = 3 ∧ b1.getD s.cursor 0 &&& 7 = 0
          · simp only [t3, if_true, and_self] at h
            cases hrv : readVariantTrace f (b1.drop ((s.cursor + 1) % 65536))
                (windowLength bufferLen ((s.cursor + 1) % 65536)) with
            | none => rw [hrv] at h; exact Option.noConfusion h
            | some r =>
              obtain ⟨v, rb, vreads⟩ := r
              rw [hrv] at h
              dsimp only at h
              cases hrest : fieldLoopTrace b1 bufferLen f
                  { cursor := ((s.cursor + 1) % 65536 + rb) % 65536,
                    header := { s.header with audioId := v % 2 ^ 32 },
                    log := s.log ++ [.tonieHeader
                      { s.header with audioId := v % 2 ^ 32 }] } with
              | none => rw [hrest] at h; exact Option.noConfusion h
              | some r =>
                obtain ⟨r1, r2, r3⟩ := r
                rw [hrest] at h
                simp only [Option.some.injEq, Prod.mk.injEq] at h
                obtain ⟨rfl, rfl, rfl⟩ := h
                rw [htag (List.mem_append_left _ (List.mem_cons_self _ _))]
                rw [if_neg t1, if_neg t2, if_pos t3]
                rw [readVariantTrace_congr hrv (fun i hi => hag i (List.mem_append_left _
                  (List.mem_cons_of_mem _ hi)))]
                dsimp only
                rw [ih _ _ _ _ hrest (fun i hi => hag i (List.mem_append_right _ hi))]
          · simp only [t3, if_false] at h
            by_cases t4 : b1.getD s.cursor 0 >>> 3 = 4 ∧ b1.getD s.cursor 0 &&& 7 = 2
            · simp only [t4, if_true, and_self] at h
              cases hrv : readVariantTrace f (b1.drop ((s.cursor + 1) % 65536))
                  (windowLength bufferLen ((s.cursor + 1) % 65536)) with
              | none => rw [hrv] at h; exact Option.noConfusion h
              | some r =>
                obtain ⟨v, rb, vreads⟩ := r
                rw [hrv] at h
                dsimp only at h
                cases hch : chapterLoopTrace f b1 bufferLen (v % 256)
                    (((s.cursor + 1) % 65536 + rb) % 65536) with
                | none => rw [hch] at h; exact Option.noConfusion h
                | some r =>
                  obtain ⟨chs, c', creads⟩ := r
                  rw [hch] at h
                  dsimp only at h
                  cases hrest : fieldLoopTrace b1 bufferLen f
                      { cursor := c',
                        header := { s.header with audioChapterCount := v % 256,
                                                  audioChapters := chs },
                        log := s.log ++ [.tonieHeader
                          { s.header with audioChapterCount := v % 256,
                                          audioChapters := chs }] } with
                  | none => rw [hrest] at h; exact Option.noConfusion h
                  | some r =>
                    obtain ⟨r1, r2, r3⟩ := r
                    rw [hrest] at h
                    simp only [Option.some.injEq, Prod.mk.injEq] at h
                    obtain ⟨rfl, rfl, rfl⟩ := h
                    rw [htag (List.mem_append_left _ (List.mem_append_left _
                      (List.mem_cons_self _ _)))]
                    rw [if_neg t1, if_neg t2, if_neg t3, if_pos t4]
                    rw [readVariantTrace_congr hrv (fun i hi => hag i (List.mem_append_left _
                      (List.mem_append_left _ (List.mem_cons_of_mem _ hi))))]
                    dsimp only
                    rw [chapterLoopTrace_congr _ _ _ _ _ hch (fun i hi => hag i
                      (List.mem_append_left _ (List.mem_append_right _ hi)))]
                    dsimp only
                    rw [ih _ _ _ _ hrest (fun i hi => hag i (List.mem_append_right _ hi))]
            · simp only [t4, if_false] at h
              by_cases t5 : b1.getD s.cursor 0 >>> 3 = 5 ∧ b1.getD s.cursor 0 &&& 7 = 2
              · simp only [t5, if_true, and_self] at h
                cases hrv : readVariantTrace f (b1.drop ((s.cursor + 1) % 65536))
                    (windowLength bufferLen ((s.cursor + 1) % 65536)) with
                | none => rw [hrv] at h; exact Option.noConfusion h
                | some r =>
                  obtain ⟨v, rb, vreads⟩ := r
                  rw [hrv] at h
                  dsimp only at h
                  have hmem : s.cursor ∈ reads ∧
                      ∀ i ∈ vreads.map ((s.cursor + 1) % 65536 + ·), i ∈ reads := by
                    split_ifs at h <;>
                      simp only [Option.some.injEq, Prod.mk.injEq] at h <;>
                      obtain ⟨_, _, rfl⟩ := h <;>
                      exact ⟨List.mem_cons_self _ _, fun i hi => List.mem_cons_of_mem _ hi⟩
                  rw [htag hmem.1]
                  rw [if_neg t1, if_neg t2, if_neg t3, if_neg t4, if_pos t5]
                  rw [readVariantTrace_congr hrv (fun i hi => hag i (hmem.2 i hi))]
                  exact h
              · simp only [t5, if_false, Option.some.injEq, Prod.mk.injEq] at h
                obtain ⟨rfl, rfl, rfl⟩ := h
                rw [htag (List.mem_singleton_self _)]
                rw [if_neg t1, if_neg t2, if_neg t3, if_neg t4, if_neg t5]
    · simp only [hg, if_false] at h ⊢
      exact h

/-- Two buffers of equal length that hold the same bytes below `n` have the
same first `n` bytes. -/
theorem take_eq_of_agree {b1 b2 : List Nat} {n : Nat} (hsize : b1.length = b2.length)
    (hag : ∀ i, i < n → b1.getD i 0 = b2.getD i 0) : b1.take n = b2.take n := by
  apply List.ext_getElem?
  intro i
  rw [List.getElem?_take, List.getElem?_take]
  by_cases hi : i < n
  · simp only [hi, if_true]
    by_cases hl : i < b1.length
    · have hl2 : i < b2.length := hsize ▸ hl
      have := hag i hi
      rw [List.getD_eq_getElem _ _ hl, List.getD_eq_getElem _ _ hl2] at this
      rw [List.getElem?_eq_getElem hl, List.getElem?_eq_getElem hl2, this]
    · have hl2 : ¬ i < b2.length := hsize ▸ hl
      rw [List.getElem?_eq_none (by omega), List.getElem?_eq_none (by omega)]
  · simp only [hi, if_false]

/-! ## The field loop returns, and its log only grows -/

/-- The loop only appends to the log. -/
theorem fieldLoopTrace_log_prefix {buffer : List Nat} {bufferLen : Nat} (hlen : bufferLen ≤ 512) :
    ∀ (fuel : Nat) (s s' : DecodeState) (exit : LoopExit) (reads : List Nat),
      fieldLoopTrace buffer bufferLen fuel s = some (s', exit, reads) →
      ∃ rest, s'.log = s.log ++ rest := by
  intro fuel
  induction fuel with
  | zero => intro s s' exit reads h; exact Option.noConfusion h
  | succ f ih =>
    intro s s' exit reads h
    rcases fieldLoopTrace_succ_inv hlen h with ⟨_, rfl, _, _⟩ | ⟨_, hcase⟩
    · exact ⟨[], by simp⟩
    · rcases hcase with ⟨_, _, _, _, _, rfl, _, _⟩ | ⟨v, rb, vreads, _, hcase⟩
      · exact ⟨_, rfl⟩
      · rcases hcase with ⟨_, _, _, rfl, _, _⟩ | ⟨_, _, rfl, _, _⟩ |
          ⟨mid, midreads, reads', hrest, _, hlog, _⟩
        · exact ⟨_, rfl⟩
        · exact ⟨_, rfl⟩
        · obtain ⟨rest, hr⟩ := ih mid s' exit reads' hrest
          exact ⟨.tonieHeader mid.header :: rest, by rw [hr, hlog]; simp⟩

/-- The log of a state returned by the field loop starts with the log the loop
was entered with. -/
theorem fieldLoop_log_prefix {buffer : List Nat} {bufferLen : Nat} (hlen : bufferLen ≤ 512)
    (fuel : Nat) (s r : DecodeState) (h : fieldLoop buffer bufferLen fuel s = some r) :
    ∃ rest, r.log = s.log ++ rest := by
  rw [← fieldLoopTrace_erase] at h
  cases ht : fieldLoopTrace buffer bufferLen fuel s with
  | none => rw [ht] at h; exact Option.noConfusion h
  | some t =>
    obtain ⟨s', exit, reads⟩ := t
    rw [ht] at h
    simp only [Option.map_some', Option.some.injEq] at h
    subst h
    exact fieldLoopTrace_log_prefix hlen fuel s s' exit reads ht

/-- A call of `readVariant` that returns was given fuel. -/
theorem readVariant_fuel_pos {fuel : Nat} {buffer : List Nat} {length v rb : Nat}
    (h : readVariant fuel buffer length = some (v, rb)) : 0 < fuel := by
  cases fuel with
  | zero => exact Option.noConfusion h
  | succ f => exact Nat.succ_pos f

/-- When no 255 consecutive read bytes are continuation bytes the chapter loop
returns with the cursor moved forward, at most to the end of the read bytes. -/
theorem chapterLoop_returns_forward (buffer : List Nat) (bufferLen fuel : Nat)
    (hlen : bufferLen ≤ 512) (hbuf : bufferLen ≤ buffer.length)
    (hshort : shortVarints buffer bufferLen) (hfuel : 256 ≤ fuel) :
    ∀ (n c : Nat), c ≤ bufferLen →
      ∃ chs c', chapterLoop fuel buffer bufferLen n c = some (chs, c') ∧
        c ≤ c' ∧ c' ≤ bufferLen := by
  intro n
  induction n with
  | zero => intro c hc; exact ⟨[], c, rfl, le_refl c, hc⟩
  | succ n ih =>
    intro c hc
    obtain ⟨v, rb, hrv, hle, _⟩ :=
      readVariant_short buffer bufferLen fuel c hbuf hshort hfuel hc
    obtain ⟨chs, c', hch, hge, hc'⟩ := ih (c + rb) hle
    refine ⟨(v % 2 ^ 32) :: chs, c', ?_, by omega, hc'⟩
    rw [chapterLoop, windowLength_eq hc (by omega), hrv]
    have hmod : (c + rb) % 65536 = c + rb := Nat.mod_eq_of_lt (by omega)
    simp only [hmod, hch]

/-- When no 255 consecutive read bytes are continuation bytes the field loop
returns: every iteration moves the cursor forward, so `n` iterations are enough
when the cursor is at most `n` bytes before the end of the read bytes. -/
theorem fieldLoop_returns (buffer : List Nat) (bufferLen : Nat) (hlen : bufferLen ≤ 512)
    (hbuf : bufferLen ≤ buffer.length) (hshort : shortVarints buffer bufferLen) :
    ∀ (n fuel : Nat) (s : DecodeState), bufferLen ≤ s.cursor + n → 256 + n < fuel →
      ∃ r, fieldLoop buffer bufferLen fuel s = some r := by
  intro n
  induction n with
  | zero =>
    intro fuel s hn hfuel
    obtain ⟨g, rfl⟩ : ∃ g, fuel = g + 1 := ⟨fuel - 1, by omega⟩
    exact ⟨s, fieldLoop_exit (by omega)⟩
  | succ n ih =>
    intro fuel s hn hfuel
    obtain ⟨g, rfl⟩ : ∃ g, fuel = g + 1 := ⟨fuel - 1, by omega⟩
    by_cases hcur : s.cursor + 1 < bufferLen
    · obtain ⟨v, rb, hrv, hle, _⟩ :=
        readVariant_short buffer bufferLen g (s.cursor + 1) hbuf hshort (by omega) (by omega)
      by_cases t1 : buffer.getD s.cursor 0 >>> 3 = 1 ∧ buffer.getD s.cursor 0 &&& 7 = 2
      · by_cases h20 : v = 20
        · subst h20
          rw [fieldLoop_hash hcur hlen t1.1 t1.2 hrv]
          exact ih g _ (by dsimp only; omega) (by omega)
        · exact ⟨_, fieldLoop_hash_bad hcur hlen t1.1 t1.2 hrv h20⟩
      · by_cases t2 : buffer.getD s.cursor 0 >>> 3 = 2 ∧ buffer.getD s.cursor 0 &&& 7 = 0
        · rw [fieldLoop_audioLength hcur hlen t2.1 t2.2 hrv]
          exact ih g _ (by dsimp only; omega) (by omega)
        · by_cases t3 : buffer.getD s.cursor 0 >>> 3 = 3 ∧ buffer.getD s.cursor 0 &&& 7 = 0
          · rw [fieldLoop_audioId hcur hlen t3.1 t3.2 hrv]
            exact ih g _ (by dsimp only; omega) (by omega)
          · by_cases t4 : buffer.getD s.cursor 0 >>> 3 = 4 ∧ buffer.getD s.cursor 0 &&& 7 = 2
            · obtain ⟨chs, c', hch, hge, _⟩ :=
                chapterLoop_returns_forward buffer bufferLen g hlen hbuf hshort (by omega)
                  (v % 256) (s.cursor + 1 + rb) hle
              rw [fieldLoop_chapters hcur hlen t4.1 t4.2 hrv hch]
              exact ih g _ (by dsimp only; omega) (by omega)
            · by_cases t5 : buffer.getD s.cursor 0 >>> 3 = 5 ∧ buffer.getD s.cursor 0 &&& 7 = 2
              · exact ⟨_, fieldLoop_padding hcur hlen t5.1 t5.2 hrv⟩
              · exact ⟨_, fieldLoop_unexpected hcur hlen t1 t2 t3 t4 t5⟩
    · exact ⟨s, fieldLoop_exit (by omega)⟩

/-- What follows from one continuing iteration of the field loop, from `s` to
`mid`: when `mid` is at the end of the read bytes it is the state returned;
every state returned has a log that starts with the log of `mid`; and the loop
does return when no 255 consecutive read bytes are continuation bytes. -/
theorem fieldLoop_after_step {buffer : List Nat} {bufferLen fuel : Nat} {s mid : DecodeState}
    (hlen : bufferLen ≤ 512) (hfuel : 0 < fuel)
    (hstep : fieldLoop buffer bufferLen (fuel + 1) s = fieldLoop buffer bufferLen fuel mid) :
    (bufferLen ≤ mid.cursor + 1 → fieldLoop buffer bufferLen (fuel + 1) s = some mid) ∧
    (∀ r, fieldLoop buffer bufferLen (fuel + 1) s = some r → ∃ rest, r.log = mid.log ++ rest) ∧
    (bufferLen ≤ buffer.length → shortVarints buffer bufferLen → 256 + bufferLen < fuel →
      ∃ r, fieldLoop buffer bufferLen (fuel + 1) s = some r) := by
  refine ⟨?_, ?_, ?_⟩
  · intro hend
    obtain ⟨g, rfl⟩ : ∃ g, fuel = g + 1 := ⟨fuel - 1, by omega⟩
    rw [hstep]
    exact fieldLoop_exit hend
  · intro r hr
    rw [hstep] at hr
    exact fieldLoop_log_prefix hlen fuel mid r hr
  · intro hbuf hshort hf
    rw [hstep]
    exact fieldLoop_returns buffer bufferLen hlen hbuf hshort bufferLen fuel mid (by omega) hf

/-! ## Claims -/

set_option maxRecDepth 100000 in
/-- Claim C1, as stated, fails: the header with hash `0..19`, audio length 5,
audio id 7 and 256 chapters of value 1 is encoded in 292 bytes, with
`292 + 3804 = 4096`; decoding the 512 bytes read from it leaves
`audioChapterCount = 0` and no chapters, and logs an unexpected-field error. -/
theorem header_roundtrip_fails_for_256_chapters :
    (encodeHeader (List.range 20) 5 7 (List.replicate 256 1) 3804).length + 3804 = 4096 ∧
    (loadTonieByPath 6 true
        ((encodeFile (List.range 20) 5 7 (List.replicate 256 1) 3804).take 512) 512
        blankHeader).map
        (fun r => (r.1.audioChapterCount, r.1.audioChapters, r.2.filter LogMsg.isError))
      = some (0, [], [.unexpectedField 0 1]) := by
  decide

/-- Claim C1, amended: for every header value (20-byte hash, 32-bit audio length,
32-bit audio id, list of at most 255 chapter markers of 32 bits each) whose
encoding up to and including the fill varint takes at most 512 bytes, with that
length plus the fill count equal to 4096, decoding the 512 bytes the loader
reads from the encoded file returns, whatever the header held before, with
`hash`, `audioLength`, `audioId`, `audioChapterCount` and `audioChapters` equal
to the encoded values, chapters in encoded order, and logs no error. -/
theorem header_roundtrip (hash : List Nat) (audioLength audioId : Nat) (chapters : List Nat)
    (fill fuel : Nat) (h0 : TonieHeader)
    (hhash : hash.length = 20) (hal : audioLength < 2 ^ 32) (hid : audioId < 2 ^ 32)
    (hch : ∀ c ∈ chapters, c < 2 ^ 32) (hcount : chapters.length ≤ 255)
    (hfit : (encodeHeader hash audioLength audioId chapters fill).length ≤ 512)
    (hfill : (encodeHeader hash audioLength audioId chapters fill).length + fill = 4096)
    (hfuel : 15 ≤ fuel) :
    ∃ log,
      loadTonieByPath fuel true
          ((encodeFile hash audioLength audioId chapters fill).take 512) 512 h0
        = some ({ hash := hash, audioLength := audioLength, audioId := audioId,
                  audioChapterCount := chapters.length, audioChapters := chapters }, log) ∧
      ∀ m ∈ log, m.isError = false := by
  obtain ⟨c, hfl⟩ := fieldLoop_encoded_file hash audioLength audioId chapters fill fuel h0
    [.loading] hhash hal hid hch hcount hfit hfill hfuel
  have hmagic : ((encodeFile hash audioLength audioId chapters fill).take 512).take 4
      = magicBytes := by
    rw [List.take_take]
    simp [encodeFile, encodeHeader, magicBytes]
  refine ⟨[.loading] ++
    [.tonieHeader { h0 with hash := hash },
     .tonieHeader { h0 with hash := hash, audioLength := audioLength },
     .tonieHeader { h0 with hash := hash, audioLength := audioLength, audioId := audioId },
     .tonieHeader { hash := hash, audioLength := audioLength, audioId := audioId,
                    audioChapterCount := chapters.length, audioChapters := chapters }], ?_, ?_⟩
  · unfold loadTonieByPath
    simp only [if_true, hmagic, hfl]
    rfl
  · intro m hm
    simp only [List.mem_append, List.mem_cons, List.mem_singleton, List.not_mem_nil,
      or_false] at hm
    rcases hm with rfl | rfl | rfl | rfl | rfl <;> rfl

/-- The header with hash `0..19`, audio length 5, audio id 7 and chapters 1, 2, 300. -/
theorem header_roundtrip_witness :
    ((List.range 20).length = 20 ∧ (∀ c ∈ [1, 2, 300], c < 2 ^ 32) ∧
      (encodeHeader (List.range 20) 5 7 [1, 2, 300] 4057).length + 4057 = 4096) ∧
    ∃ log,
      loadTonieByPath 15 true
          ((encodeFile (List.range 20) 5 7 [1, 2, 300] 4057).take 512) 512 blankHeader
        = some ({ hash := List.range 20, audioLength := 5, audioId := 7,
                  audioChapterCount := [1, 2, 300].length, audioChapters := [1, 2, 300] }, log) ∧
      ∀ m ∈ log, m.isError = false :=
  ⟨by decide, header_roundtrip (List.range 20) 5 7 [1, 2, 300] 4057 15 blankHeader
    (by decide) (by norm_num) (by norm_num) (by decide) (by decide) (by decide) (by decide)
    (by decide)⟩

/-- Claim C2: for every `n < 2^64` and every byte sequence `rest`, `readVariant`
applied to the canonical encoding of `n` followed by `rest`, with `length` the
size of the whole window, returns `n` and sets `readBytes` to the length of the
encoding (10 units of fuel are enough for the at most 10 bytes of the encoding). -/
theorem readVariant_roundtrip (n : Nat) (rest : List Nat) (fuel : Nat) (hn : n < 2 ^ 64)
    (hfuel : 10 ≤ fuel) :
    readVariant fuel (encodeVarint n ++ rest) (encodeVarint n ++ rest).length
      = some (n, (encodeVarint n).length) :=
  readVariant_encode hn rest (by simp)
    (le_trans (encodeVarint_length_le_ten hn) hfuel)

/-- The round trip at `n = 300`, encoded in two bytes, with two bytes following. -/
theorem readVariant_roundtrip_witness :
    readVariant 10 (encodeVarint 300 ++ [1, 2]) (encodeVarint 300 ++ [1, 2]).length
      = some (300, (encodeVarint 300).length) :=
  readVariant_roundtrip 300 [1, 2] 10 (by norm_num) (le_refl 10)

/-- Claim C3, as stated, fails for `2^35`: its encoding has 6 bytes and
`readVariant` consumes all 6, not 5. -/
theorem readVariant_two_pow_35_reads_six :
    encodeVarint (2 ^ 35) = [0x80, 0x80, 0x80, 0x80, 0x80, 0x01] ∧
    readVariant 10 (encodeVarint (2 ^ 35)) (encodeVarint (2 ^ 35)).length = some (2 ^ 35, 6) ∧
    readVariant 10 (encodeVarint (2 ^ 35)) (encodeVarint (2 ^ 35)).length ≠ some (2 ^ 35, 5) := by
  decide

/-- Claim C3, amended: `readVariant` applied to the varint encodings of 0, 127,
128 and `2^35` returns 0, 127, 128 and `2^35`, with `readBytes` equal to
1, 1, 2 and 6 (with any fuel from 6 up). -/
theorem readVariant_boundary_values (fuel : Nat) :
    readVariant (fuel + 6) (encodeVarint 0) (encodeVarint 0).length = some (0, 1) ∧
    readVariant (fuel + 6) (encodeVarint 127) (encodeVarint 127).length = some (127, 1) ∧
    readVariant (fuel + 6) (encodeVarint 128) (encodeVarint 128).length = some (128, 2) ∧
    readVariant (fuel + 6) (encodeVarint (2 ^ 35)) (encodeVarint (2 ^ 35)).length
      = some (2 ^ 35, 6) := by
  have key : ∀ n, n < 2 ^ 64 → (encodeVarint n).length ≤ 6 →
      readVariant (fuel + 6) (encodeVarint n) (encodeVarint n).length
        = some (n, (encodeVarint n).length) := by
    intro n hn hlen
    have := readVariant_encode hn [] (le_refl (encodeVarint n).length)
      (show (encodeVarint n).length ≤ fuel + 6 by omega)
    simpa using this
  refine ⟨?_, ?_, ?_, ?_⟩
  · exact key 0 (by norm_num) (by decide)
  · exact key 127 (by norm_num) (by decide)
  · exact key 128 (by norm_num) (by decide)
  · exact key (2 ^ 35) (by norm_num) (by decide)

/-- Claim C4, as stated, fails: the one-byte window `80` (exhausted before a
terminating byte) and the one-byte window `00` (cleanly terminated) give the
same value and the same `readBytes`. -/
theorem readVariant_truncated_same_as_clean :
    readVariant 2 [0x80] 1 = some (0, 1) ∧ readVariant 2 [0x00] 1 = some (0, 1) := by
  decide

/-- Claim C4, amended: `readVariant` does not signal an incomplete varint. For
every window of 1 to 255 bytes in which every byte has its high bit set, it
returns, with `readBytes` equal to the window length, and the pair it returns
is the one it returns for the window of the same length that differs only in
the high bit of the last byte being clear, which terminates cleanly. -/
theorem readVariant_unterminated_not_signalled (init : List Nat) (b fuel : Nat)
    (hlen : init.length ≤ 254) (hinit : ∀ x ∈ init, isTerminator x = false)
    (hb : isTerminator b = false) (hfuel : init.length + 2 ≤ fuel) :
    (∃ v, readVariant fuel (init ++ [b]) (init.length + 1) = some (v, init.length + 1)) ∧
    isTerminator (b &&& 0x7F) = true ∧
    readVariant fuel (init ++ [b]) (init.length + 1)
      = readVariant fuel (init ++ [b &&& 0x7F]) (init.length + 1) := by
  have hb' : b &&& 0x80 ≠ 0 := by simpa [isTerminator] using hb
  have hinit' : ∀ j, j < init.length → init.getD j 0 &&& 0x80 ≠ 0 := by
    intro j hj
    have hmem : init.getD j 0 ∈ init := by
      rw [List.getD_eq_getElem _ _ hj]
      exact List.getElem_mem hj
    simpa [isTerminator] using hinit _ hmem
  refine ⟨?_, ?_, ?_⟩
  · apply readVariantLoop_exhausts (init ++ [b]) (init.length + 1) (by omega) fuel 0 0
      (Nat.zero_le _) _ (by omega)
    intro j _ hj
    by_cases h : j < init.length
    · rw [getD_append_left_lt init _ h]; exact hinit' j h
    · have : j = init.length := by omega
      subst this
      rw [getD_append_cons]; exact hb'
  · simp [isTerminator, and_7F_and_80]
  · exact readVariantLoop_unterminated_eq init b hlen hinit' hb' fuel 0 0 (Nat.zero_le _)
      (by omega)

/-- The three continuation bytes `81 FF 83` against `81 FF 03`. -/
theorem readVariant_unterminated_not_signalled_witness :
    (∃ v, readVariant 4 ([0x81, 0xFF] ++ [0x83]) 3 = some (v, 3)) ∧
    isTerminator (0x83 &&& 0x7F) = true ∧
    readVariant 4 ([0x81, 0xFF] ++ [0x83]) 3 = readVariant 4 ([0x81, 0xFF] ++ [0x83 &&& 0x7F]) 3 :=
  readVariant_unterminated_not_signalled [0x81, 0xFF] 0x83 4 (by decide) (by decide)
    (by decide) (by decide)

/-- Claim C5 fails on the code: on the 512-byte buffer `00 00 0F FC 10` followed
by 507 bytes `80`, the call of `readVariant` for the audio-length field gets a
window of 507 continuation bytes, its `uint8_t readBytes` wraps from 255 to 0
before reaching the `uint16_t length`, and `loadTonieByPath` never returns. -/
theorem loadTonieByPath_never_returns (fuel : Nat) (header : TonieHeader) :
    loadTonieByPath fuel true (magicBytes ++ 0x10 :: List.replicate 507 0x80) 512 header
      = none := by
  apply loadTonieByPath_diverges
  intro i hi
  have : (List.replicate 507 128).getD i 0 = 128 := by
    rw [List.getD_eq_getElem _ _ (by rw [List.length_replicate]; omega)]
    exact List.getElem_replicate _ _
  rw [this]
  decide

set_option maxRecDepth 100000 in
/-- Claim C6, as stated, fails: on `00 00 0F FC 22 80 02` followed by 256 chapter
bytes `01` the chapter-count varint is 256, but the header is left with
`audioChapterCount = 0` and no chapters (the count is cast to `uint8_t`); the
first chapter byte is then taken for a tag. -/
theorem chapter_count_256_stored_as_zero :
    readVariant 3 ((magicBytes ++ [0x22, 0x80, 0x02] ++ List.replicate 256 0x01).drop 5) 258
      = some (256, 2) ∧
    loadTonieByPath 3 true (magicBytes ++ [0x22, 0x80, 0x02] ++ List.replicate 256 0x01) 263
        { blankHeader with audioChapterCount := 2, audioChapters := [11, 22] }
      = some (blankHeader,
          [.loading, .tonieHeader blankHeader, .unexpectedField 0 1]) := by
  decide

/-- Claim C6, amended: when the field loop, with the cursor before the last of at
most 512 read bytes, meets a chapter field (id 4, type 2), then whenever the
count varint is read as `v` and the chapter loop returns, the header holds
`audioChapterCount = v mod 256` and `audioChapters` has `v mod 256` entries
(so the count is honoured for `v ≤ 255`): the loop goes on from the state with
that header, this state is the one the decoding returns when the chapter loop
ended at the end of the read bytes, and in every case the log of a state the
decoding returns holds, right after the messages logged before the field, the
dump of that header. Both calls and the decoding do return when no 255
consecutive read bytes are continuation bytes. -/
theorem chapter_count_mod_256 (buffer : List Nat) (bufferLen fuel : Nat) (s : DecodeState)
    (hlen : bufferLen ≤ 512) (hcur : s.cursor + 1 < bufferLen)
    (hid : buffer.getD s.cursor 0 >>> 3 = 4) (hty : buffer.getD s.cursor 0 &&& 7 = 2) :
    (∀ v rb chs c',
      readVariant fuel (buffer.drop (s.cursor + 1)) (bufferLen - (s.cursor + 1)) = some (v, rb) →
      chapterLoop fuel buffer bufferLen (v % 256) (s.cursor + 1 + rb) = some (chs, c') →
      chs.length = v % 256 ∧
      fieldLoop buffer bufferLen (fuel + 1) s
        = fieldLoop buffer bufferLen fuel
            { cursor := c',
              header := { s.header with audioChapterCount := v % 256, audioChapters := chs },
              log := s.log ++ [.tonieHeader
                { s.header with audioChapterCount := v % 256, audioChapters := chs }] } ∧
      (bufferLen ≤ c' + 1 →
        fieldLoop buffer bufferLen (fuel + 1) s
          = some { cursor := c',
                   header :=
                     { s.header with audioChapterCount := v % 256, audioChapters := chs },
                   log := s.log ++ [.tonieHeader
                     { s.header with audioChapterCount := v % 256, audioChapters := chs }] }) ∧
      (∀ r, fieldLoop buffer bufferLen (fuel + 1) s = some r →
        ∃ rest, r.log
          = s.log ++ [.tonieHeader
              { s.header with audioChapterCount := v % 256, audioChapters := chs }] ++ rest)) ∧
    (bufferLen ≤ buffer.length → shortVarints buffer bufferLen → 256 ≤ fuel →
      ∃ v rb chs c',
        readVariant fuel (buffer.drop (s.cursor + 1)) (bufferLen - (s.cursor + 1))
          = some (v, rb) ∧
        chapterLoop fuel buffer bufferLen (v % 256) (s.cursor + 1 + rb) = some (chs, c')) ∧
    (bufferLen ≤ buffer.length → shortVarints buffer bufferLen → 256 + bufferLen < fuel →
      ∃ r, fieldLoop buffer bufferLen (fuel + 1) s = some r) := by
  have hret : bufferLen ≤ buffer.length → shortVarints buffer bufferLen → 256 ≤ fuel →
      ∃ v rb chs c',
        readVariant fuel (buffer.drop (s.cursor + 1)) (bufferLen - (s.cursor + 1))
          = some (v, rb) ∧
        chapterLoop fuel buffer bufferLen (v % 256) (s.cursor + 1 + rb) = some (chs, c') := by
    intro hbuf hshort hfuel
    obtain ⟨v, rb, hrv, hle, _⟩ :=
      readVariant_short buffer bufferLen fuel (s.cursor + 1) hbuf hshort hfuel (by omega)
    obtain ⟨chs, c', hch, _⟩ :=
      chapterLoop_returns buffer bufferLen fuel hlen hbuf hshort hfuel (v % 256)
        (s.cursor + 1 + rb) hle
    exact ⟨v, rb, chs, c', hrv, hch⟩
  refine ⟨?_, hret, ?_⟩
  · intro v rb chs c' hrv hch
    have hstep := fieldLoop_chapters hcur hlen hid hty hrv hch
    have hafter := fieldLoop_after_step hlen (readVariant_fuel_pos hrv) hstep
    exact ⟨chapterLoop_length _ _ _ _ _ _ _ hch, hstep, hafter.1, hafter.2.1⟩
  · intro hbuf hshort hfuel
    obtain ⟨v, rb, chs, c', hrv, hch⟩ := hret hbuf hshort (by omega)
    exact (fieldLoop_after_step hlen (readVariant_fuel_pos hrv)
      (fieldLoop_chapters hcur hlen hid hty hrv hch)).2.2 hbuf hshort hfuel

/-- A chapter field declaring 2 chapters, `07` and `08`, that ends one byte
before the end of the read bytes: the decoding returns with the header holding
the count 2 and the two entries, and both calls return. -/
theorem chapter_count_mod_256_witness :
    (fieldLoop [0x00, 0x00, 0x0F, 0xFC, 0x22, 0x02, 0x07, 0x08, 0x00] 9 (256 + 1)
        { cursor := 4, header := blankHeader, log := [.loading] }
      = some { cursor := 8,
               header :=
                 { blankHeader with audioChapterCount := 2 % 256, audioChapters := [7, 8] },
               log := [.loading] ++ [.tonieHeader
                 { blankHeader with audioChapterCount := 2 % 256,
                                    audioChapters := [7, 8] }] }) ∧
    ∃ v rb chs c',
      readVariant 256 ([0x00, 0x00, 0x0F, 0xFC, 0x22, 0x02, 0x07, 0x08, 0x00].drop (4 + 1))
          (9 - (4 + 1)) = some (v, rb) ∧
      chapterLoop 256 [0x00, 0x00, 0x0F, 0xFC, 0x22, 0x02, 0x07, 0x08, 0x00] 9 (v % 256)
          (4 + 1 + rb) = some (chs, c') :=
  have h := chapter_count_mod_256 [0x00, 0x00, 0x0F, 0xFC, 0x22, 0x02, 0x07, 0x08, 0x00] 9 256
    { cursor := 4, header := blankHeader, log := [.loading] }
    (by decide) (by decide) (by decide) (by decide)
  ⟨(h.1 2 1 [7, 8] 8 (by decide) (by decide)).2.2.1 (by decide),
   h.2.1 (by decide) (by decide) (by decide)⟩

/-- Claim C7, as stated, fails: on `00 00 0F FC 22 03 05` the chapter field
declares 3 chapters and one complete varint remains; the call logs no error and
leaves `audioChapterCount = 3` with the chapter list `[5, 0, 0]`, the two
missing entries filled with 0. -/
theorem truncated_chapters_no_failure :
    completeVarints [0x05] = 1 ∧
    loadTonieByPath 3 true (magicBytes ++ [0x22, 0x03, 0x05]) 7 blankHeader
      = some ({ blankHeader with audioChapterCount := 3, audioChapters := [5, 0, 0] },
          [.loading, .tonieHeader
            { blankHeader with audioChapterCount := 3, audioChapters := [5, 0, 0] }]) := by
  decide

/-- Claim C7, amended: when the field loop, with the cursor before the last of at
most 512 read bytes of which no 255 consecutive ones are continuation bytes,
meets a chapter field (id 4, type 2) whose count varint is read as `v`, and
fewer than `N = v mod 256` complete varints remain before the end of the read
bytes, decoding reports no failure: the loop ends at the end of the read bytes,
the only message logged is the header dump, and the header holds a chapter list
of `N` entries in which every entry after the first missing one is 0. -/
theorem truncated_chapters_zero_filled (buffer : List Nat) (bufferLen fuel : Nat)
    (s : DecodeState) (v rb : Nat) (hlen : bufferLen ≤ 512) (hbuf : bufferLen ≤ buffer.length)
    (hshort : shortVarints buffer bufferLen) (hfuel : 256 ≤ fuel)
    (hcur : s.cursor + 1 < bufferLen)
    (hid : buffer.getD s.cursor 0 >>> 3 = 4) (hty : buffer.getD s.cursor 0 &&& 7 = 2)
    (hrv : readVariant fuel (buffer.drop (s.cursor + 1)) (bufferLen - (s.cursor + 1))
      = some (v, rb))
    (htrunc : completeVarints ((buffer.take bufferLen).drop (s.cursor + 1 + rb)) < v % 256) :
    ∃ chs,
      fieldLoop buffer bufferLen (fuel + 1) s
        = some { cursor := bufferLen,
                 header := { s.header with audioChapterCount := v % 256, audioChapters := chs },
                 log := s.log ++ [.tonieHeader
                   { s.header with audioChapterCount := v % 256, audioChapters := chs }] } ∧
      chs.length = v % 256 ∧
      ∀ j, completeVarints ((buffer.take bufferLen).drop (s.cursor + 1 + rb)) < j →
        j < v % 256 → chs[j]? = some 0 := by
  have hle := (cursor_add_mod hcur hlen hrv).2
  obtain ⟨chs, hch, hl, hz⟩ :=
    chapterLoop_truncated buffer bufferLen fuel hlen hbuf hshort hfuel (v % 256)
      (s.cursor + 1 + rb) hle htrunc
  refine ⟨chs, ?_, hl, hz⟩
  rw [fieldLoop_chapters hcur hlen hid hty hrv hch]
  obtain ⟨g, rfl⟩ : ∃ g, fuel = g + 1 := ⟨fuel - 1, by omega⟩
  exact fieldLoop_exit (by simp)

/-- A chapter field declaring 3 chapters with one byte left in the buffer. -/
theorem truncated_chapters_zero_filled_witness :
    completeVarints (([0x00, 0x00, 0x0F, 0xFC, 0x22, 0x03, 0x05].take 7).drop (4 + 1 + 1))
      < 3 % 256 ∧
    ∃ chs,
      fieldLoop [0x00, 0x00, 0x0F, 0xFC, 0x22, 0x03, 0x05] 7 (256 + 1)
          { cursor := 4, header := blankHeader, log := [.loading] }
        = some { cursor := 7,
                 header := { blankHeader with audioChapterCount := 3 % 256, audioChapters := chs },
                 log := [.loading] ++ [.tonieHeader
                   { blankHeader with audioChapterCount := 3 % 256, audioChapters := chs }] } ∧
      chs.length = 3 % 256 ∧
      ∀ j,
        completeVarints (([0x00, 0x00, 0x0F, 0xFC, 0x22, 0x03, 0x05].take 7).drop (4 + 1 + 1))
          < j →
        j < 3 % 256 → chs[j]? = some 0 :=
  ⟨by decide, truncated_chapters_zero_filled [0x00, 0x00, 0x0F, 0xFC, 0x22, 0x03, 0x05] 7 256
    { cursor := 4, header := blankHeader, log := [.loading] } 3 1
    (by decide) (by decide) (by decide) (by decide) (by decide)
    (by decide) (by decide) (by decide) (by decide)⟩

/-- Claim C8, as stated, fails: on `00 00 0F FC 10 05 0A 13` followed by 19 bytes
the audio-length field is decoded, then the hash field declares 19 bytes; the
call logs the hash-length error and returns with `audioLength = 5` still in
the header, which therefore differs from the header before the call. -/
theorem hash_length_error_keeps_earlier_fields :
    loadTonieByPath 3 true (magicBytes ++ [0x10, 0x05, 0x0A, 0x13] ++ List.replicate 19 0xAB)
        27 blankHeader
      = some ({ blankHeader with audioLength := 5 },
          [.loading, .tonieHeader { blankHeader with audioLength := 5 }, .hashLength 19]) ∧
    ({ blankHeader with audioLength := 5 } : TonieHeader) ≠ blankHeader := by
  decide

/-- Claim C8, amended: when the field loop, with the cursor before the last of at
most 512 read bytes, meets a hash field (id 1, type 2) whose length varint is
read as a value other than 20, decoding stops at that field with the
hash-length error, `header.hash` is not written, and the header is left as it
stood when the field was reached: the fields decoded earlier in the same call
remain in it. -/
theorem hash_length_error_stops (buffer : List Nat) (bufferLen fuel : Nat) (s : DecodeState)
    (size rb : Nat) (hlen : bufferLen ≤ 512) (hcur : s.cursor + 1 < bufferLen)
    (hid : buffer.getD s.cursor 0 >>> 3 = 1) (hty : buffer.getD s.cursor 0 &&& 7 = 2)
    (hrv : readVariant fuel (buffer.drop (s.cursor + 1)) (bufferLen - (s.cursor + 1))
      = some (size, rb))
    (hsize : size ≠ 20) :
    ∃ s', fieldLoop buffer bufferLen (fuel + 1) s = some s' ∧
      s'.header = s.header ∧ s'.log = s.log ++ [.hashLength size] :=
  ⟨_, fieldLoop_hash_bad hcur hlen hid hty hrv hsize, rfl, rfl⟩

/-- A hash field declaring 21 bytes, met with `audioId = 9` already decoded. -/
theorem hash_length_error_stops_witness :
    ∃ s', fieldLoop [0x00, 0x00, 0x0F, 0xFC, 0x0A, 0x15, 0x01] 7 (1 + 1)
        { cursor := 4, header := { blankHeader with audioId := 9 }, log := [.loading] }
          = some s' ∧
      s'.header = { blankHeader with audioId := 9 } ∧
      s'.log = [.loading] ++ [.hashLength 21] :=
  hash_length_error_stops [0x00, 0x00, 0x0F, 0xFC, 0x0A, 0x15, 0x01] 7 1
    { cursor := 4, header := { blankHeader with audioId := 9 }, log := [.loading] } 21 1
    (by decide) (by decide) (by decide) (by decide) (by decide) (by decide)

/-- Claim C9: for every buffer with `read > 0` whose first 4 bytes are not
`00 00 0F FC`, and every prior header, `loadTonieByPath` returns having logged
the unexpected-beginning error with the four bytes seen and nothing else after
the loading message (no field is parsed), and the header is the prior header. -/
theorem bad_magic_extracts_nothing (fuel : Nat) (buffer : List Nat) (read : Nat)
    (header : TonieHeader) (hread : 0 < read) (hmagic : buffer.take 4 ≠ magicBytes) :
    loadTonieByPath fuel true buffer read header
      = some (header, [.loading, .unexpectedBeginning (buffer.getD 0 0) (buffer.getD 1 0)
          (buffer.getD 2 0) (buffer.getD 3 0)]) := by
  unfold loadTonieByPath
  simp only [if_true, gt_iff_lt, hread, hmagic, if_false, List.singleton_append]

/-- A buffer starting `00 00 0F FD`, with `audioLength = 77` in the prior header. -/
theorem bad_magic_extracts_nothing_witness :
    (0 < 6 ∧ [0x00, 0x00, 0x0F, 0xFD, 0x10, 0x05].take 4 ≠ magicBytes) ∧
    loadTonieByPath 0 true [0x00, 0x00, 0x0F, 0xFD, 0x10, 0x05] 6
        { blankHeader with audioLength := 77 }
      = some ({ blankHeader with audioLength := 77 },
          [.loading, .unexpectedBeginning 0x00 0x00 0x0F 0xFD]) :=
  ⟨by decide, bad_magic_extracts_nothing 0 [0x00, 0x00, 0x0F, 0xFD, 0x10, 0x05] 6
    { blankHeader with audioLength := 77 } (by decide) (by decide)⟩

/-- Claim C10: when the field loop, with the cursor before the last of at most 512
read bytes, meets a padding field (id 5, type 2) whose fill varint is read as
`f`, leaving the cursor at `c = cursor + 1 + readBytes`, the loop is left with
the header unchanged, and the header-length message is logged exactly when
`c + f` is not 4096. -/
theorem padding_warning_iff (buffer : List Nat) (bufferLen fuel : Nat) (s : DecodeState)
    (f rb : Nat) (hlen : bufferLen ≤ 512) (hcur : s.cursor + 1 < bufferLen)
    (hid : buffer.getD s.cursor 0 >>> 3 = 5) (hty : buffer.getD s.cursor 0 &&& 7 = 2)
    (hrv : readVariant fuel (buffer.drop (s.cursor + 1)) (bufferLen - (s.cursor + 1))
      = some (f, rb)) :
    ∃ s', fieldLoop buffer bufferLen (fuel + 1) s = some s' ∧
      s'.cursor = s.cursor + 1 + rb ∧ s'.header = s.header ∧
      ((s.cursor + 1 + rb + f ≠ 4096 ∧
          s'.log = s.log ++ [.headerLength ((f + (s.cursor + 1 + rb)) % 2 ^ 64)]) ∨
        (s.cursor + 1 + rb + f = 4096 ∧ s'.log = s.log)) := by
  refine ⟨_, fieldLoop_padding hcur hlen hid hty hrv, rfl, rfl, ?_⟩
  by_cases h : s.cursor + 1 + rb + f ≠ 4096
  · exact Or.inl ⟨h, by simp only [if_pos h]⟩
  · exact Or.inr ⟨not_not.mp h, by simp only [if_neg h, List.append_nil]⟩

/-- A padding field with fill count 4089 read up to cursor 7: no message. -/
theorem padding_warning_iff_witness :
    ∃ s', fieldLoop [0x00, 0x00, 0x0F, 0xFC, 0x2A, 0xF9, 0x1F] 7 (2 + 1)
        { cursor := 4, header := { blankHeader with audioId := 9 }, log := [.loading] }
          = some s' ∧
      s'.cursor = 4 + 1 + 2 ∧ s'.header = { blankHeader with audioId := 9 } ∧
      ((4 + 1 + 2 + 4089 ≠ 4096 ∧
          s'.log = [.loading] ++ [.headerLength ((4089 + (4 + 1 + 2)) % 2 ^ 64)]) ∨
        (4 + 1 + 2 + 4089 = 4096 ∧ s'.log = [.loading])) :=
  padding_warning_iff [0x00, 0x00, 0x0F, 0xFC, 0x2A, 0xF9, 0x1F] 7 2
    { cursor := 4, header := { blankHeader with audioId := 9 }, log := [.loading] } 4089 2
    (by decide) (by decide) (by decide) (by decide) (by decide)

/-- Claim C15: when the field loop, with the cursor before the last of at most 512
read bytes, meets an audio-length field (id 2, type 0) or an audio-id field
(id 3, type 0) and `readVariant` returns the value `v` with `readBytes = rb`,
the loop goes on with `audioLength` (respectively `audioId`) equal to
`v mod 2^32`, the other header fields as they were, and the cursor `rb` bytes
past the byte after the tag. When that cursor is at the end of the read bytes
the decoding returns exactly this state. In every case the log of a state the
decoding returns holds, right after the messages logged before the field, the
dump of the header with `v mod 2^32` stored; and the decoding does return when
no 255 consecutive read bytes are continuation bytes. -/
theorem integer_fields_truncate_to_32_bits (buffer : List Nat) (bufferLen fuel : Nat)
    (s : DecodeState) (v rb : Nat) (hlen : bufferLen ≤ 512) (hcur : s.cursor + 1 < bufferLen)
    (hrv : readVariant fuel (buffer.drop (s.cursor + 1)) (bufferLen - (s.cursor + 1))
      = some (v, rb)) :
    (buffer.getD s.cursor 0 >>> 3 = 2 ∧ buffer.getD s.cursor 0 &&& 7 = 0 →
      fieldLoop buffer bufferLen (fuel + 1) s
        = fieldLoop buffer bufferLen fuel
            { cursor := (s.cursor + 1) + rb,
              header := { s.header with audioLength := v % 2 ^ 32 },
              log := s.log ++ [.tonieHeader { s.header with audioLength := v % 2 ^ 32 }] } ∧
      (bufferLen ≤ (s.cursor + 1) + rb + 1 →
        fieldLoop buffer bufferLen (fuel + 1) s
          = some { cursor := (s.cursor + 1) + rb,
                   header := { s.header with audioLength := v % 2 ^ 32 },
                   log := s.log ++ [.tonieHeader
                     { s.header with audioLength := v % 2 ^ 32 }] }) ∧
      (∀ r, fieldLoop buffer bufferLen (fuel + 1) s = some r →
        ∃ rest, r.log
          = s.log ++ [.tonieHeader { s.header with audioLength := v % 2 ^ 32 }] ++ rest) ∧
      (bufferLen ≤ buffer.length → shortVarints buffer bufferLen → 256 + bufferLen < fuel →
        ∃ r, fieldLoop buffer bufferLen (fuel + 1) s = some r)) ∧
    (buffer.getD s.cursor 0 >>> 3 = 3 ∧ buffer.getD s.cursor 0 &&& 7 = 0 →
      fieldLoop buffer bufferLen (fuel + 1) s
        = fieldLoop buffer bufferLen fuel
            { cursor := (s.cursor + 1) + rb,
              header := { s.header with audioId := v % 2 ^ 32 },
              log := s.log ++ [.tonieHeader { s.header with audioId := v % 2 ^ 32 }] } ∧
      (bufferLen ≤ (s.cursor + 1) + rb + 1 →
        fieldLoop buffer bufferLen (fuel + 1) s
          = some { cursor := (s.cursor + 1) + rb,
                   header := { s.header with audioId := v % 2 ^ 32 },
                   log := s.log ++ [.tonieHeader { s.header with audioId := v % 2 ^ 32 }] }) ∧
      (∀ r, fieldLoop buffer bufferLen (fuel + 1) s = some r →
        ∃ rest, r.log
          = s.log ++ [.tonieHeader { s.header with audioId := v % 2 ^ 32 }] ++ rest) ∧
      (bufferLen ≤ buffer.length → shortVarints buffer bufferLen → 256 + bufferLen < fuel →
        ∃ r, fieldLoop buffer bufferLen (fuel + 1) s = some r)) :=
  ⟨fun h =>
    ⟨fieldLoop_audioLength hcur hlen h.1 h.2 hrv,
     fieldLoop_after_step hlen (readVariant_fuel_pos hrv)
       (fieldLoop_audioLength hcur hlen h.1 h.2 hrv)⟩,
   fun h =>
    ⟨fieldLoop_audioId hcur hlen h.1 h.2 hrv,
     fieldLoop_after_step hlen (readVariant_fuel_pos hrv)
       (fieldLoop_audioId hcur hlen h.1 h.2 hrv)⟩⟩

/-- An audio-length field holding `2^32 + 5` in five bytes, the last field of the
buffer: the decoding returns with 5 stored and the cursor 5 bytes further. -/
theorem integer_fields_truncate_to_32_bits_witness :
    readVariant 5 ([0x00, 0x00, 0x0F, 0xFC, 0x10, 0x85, 0x80, 0x80, 0x80, 0x10, 0x00].drop (4 + 1))
        (11 - (4 + 1)) = some (2 ^ 32 + 5, 5) ∧
    fieldLoop [0x00, 0x00, 0x0F, 0xFC, 0x10, 0x85, 0x80, 0x80, 0x80, 0x10, 0x00] 11 (5 + 1)
        { cursor := 4, header := blankHeader, log := [.loading] }
      = some { cursor := (4 + 1) + 5,
               header := { blankHeader with audioLength := (2 ^ 32 + 5) % 2 ^ 32 },
               log := [.loading] ++ [.tonieHeader
                 { blankHeader with audioLength := (2 ^ 32 + 5) % 2 ^ 32 }] } :=
  ⟨by decide,
   ((integer_fields_truncate_to_32_bits
      [0x00, 0x00, 0x0F, 0xFC, 0x10, 0x85, 0x80, 0x80, 0x80, 0x10, 0x00] 11 5
      { cursor := 4, header := blankHeader, log := [.loading] } (2 ^ 32 + 5) 5
      (by decide) (by decide) (by decide)).1 (by decide)).2.1 (by decide)⟩

set_option maxRecDepth 100000 in
/-- Claim C16 fails on the code: on the 256-byte window of 255 bytes `80` followed
by `00` the first byte with the high bit clear is at index 255, and `readVariant`
returns with `readBytes = 0`, not 256: the `uint8_t` counter wraps on its 256th
increment. -/
theorem readVariant_readBytes_wraps :
    readVariant 300 (List.replicate 255 0x80 ++ [0x00]) 256 = some (0, 0) := by
  decide

/-- Claim C14, as stated, fails: the buffer `00 00 0F FC 10 05 00` holds an
audio-length field only; decoded over a blank header and over a header that
holds `audioId = 9`, it leaves two different headers, the second one still with
`audioId = 9`. -/
theorem header_not_fresh_per_call :
    (loadTonieByPath 3 true (magicBytes ++ [0x10, 0x05, 0x00]) 7 blankHeader).map Prod.fst
      = some { blankHeader with audioLength := 5 } ∧
    (loadTonieByPath 3 true (magicBytes ++ [0x10, 0x05, 0x00]) 7
        { blankHeader with audioId := 9 }).map Prod.fst
      = some { blankHeader with audioLength := 5, audioId := 9 } ∧
    ({ blankHeader with audioLength := 5 } : TonieHeader)
      ≠ { blankHeader with audioLength := 5, audioId := 9 } := by
  decide

/-- Claim C14, amended: the header is a member updated in place. For every
buffer and every two prior header states `h1` and `h2`, when decoding started
from `h1` returns, decoding started from `h2` returns too, and each field of
the two resulting headers is either the same in both (the decoding overwrote
it) or still the value it had in `h1`, respectively `h2` (the decoding did not
touch it): a field value of a previous decode survives unless the buffer
overwrites it. -/
theorem header_fields_overwritten_or_kept (fuel : Nat) (opened : Bool) (buffer : List Nat)
    (read : Nat) (h1 h2 r1 : TonieHeader) (log1 : List LogMsg)
    (hrun : loadTonieByPath fuel opened buffer read h1 = some (r1, log1)) :
    ∃ r2 log2, loadTonieByPath fuel opened buffer read h2 = some (r2, log2) ∧
      overwrittenOrKept h1 h2 r1 r2 := by
  unfold loadTonieByPath at hrun ⊢
  dsimp only at hrun ⊢
  have keep : ∀ (k1 k2 : List LogMsg),
      some (h1, k1) = some (r1, log1) →
      ∃ r2 log2, some (h2, k2) = some (r2, log2) ∧ overwrittenOrKept h1 h2 r1 r2 := by
    intro k1 k2 hs
    simp only [Option.some.injEq, Prod.mk.injEq] at hs
    obtain ⟨rfl, _⟩ := hs
    exact ⟨_, _, rfl, overwrittenOrKept_refl _ h2⟩
  by_cases ho : opened = true
  · simp only [ho, if_true] at hrun ⊢
    by_cases hr : read > 0
    · simp only [hr, if_true] at hrun ⊢
      by_cases hm : buffer.take 4 = magicBytes
      · simp only [hm, if_true] at hrun ⊢
        cases hfl : fieldLoop buffer (read % 65536) fuel
            { cursor := 4, header := h1, log := [LogMsg.loading] } with
        | none => rw [hfl] at hrun; exact Option.noConfusion hrun
        | some s1 =>
          rw [hfl] at hrun
          simp only [Option.some.injEq, Prod.mk.injEq] at hrun
          obtain ⟨s2, hs2, _, hrel⟩ :=
            fieldLoop_two_headers buffer (read % 65536) fuel 4 h1 h2 [LogMsg.loading]
              [LogMsg.loading] s1 hfl
          rw [hs2]
          rw [← hrun.1]
          exact ⟨_, _, rfl, hrel⟩
      · simp only [hm, if_false] at hrun ⊢
        exact keep _ _ hrun
    · simp only [hr, if_false] at hrun ⊢
      exact keep _ _ hrun
  · simp only [ho, if_false] at hrun ⊢
    exact keep _ _ hrun

/-- The buffer `00 00 0F FC 10 05 00` decoded over a blank header, against the
same decoding over a header that holds `audioId = 9`. -/
theorem header_fields_overwritten_or_kept_witness :
    ∃ r2 log2,
      loadTonieByPath 3 true (magicBytes ++ [0x10, 0x05, 0x00]) 7
          { blankHeader with audioId := 9 } = some (r2, log2) ∧
      overwrittenOrKept blankHeader { blankHeader with audioId := 9 }
        { blankHeader with audioLength := 5 } r2 :=
  header_fields_overwritten_or_kept 3 true (magicBytes ++ [0x10, 0x05, 0x00]) 7 blankHeader
    { blankHeader with audioId := 9 } { blankHeader with audioLength := 5 }
    [.loading, .tonieHeader { blankHeader with audioLength := 5 }] (by decide)

/-- Claim C12: when the field loop, with the cursor before the last of at most 512
read bytes, reads a tag byte whose id `byte >> 3` and type `byte & 7` are not
one of (1,2), (2,0), (3,0), (4,2), (5,2), the loop is left at that tag by the
unexpected-field `break`, with the unexpected-field error carrying that id and
type appended to the log and the header as the preceding fields left it, and
the tag is the only byte read: nothing after it is interpreted. -/
theorem unknown_field_fails_closed (buffer : List Nat) (bufferLen fuel : Nat)
    (s : DecodeState) (hlen : bufferLen ≤ 512) (hcur : s.cursor + 1 < bufferLen)
    (hunknown : (buffer.getD s.cursor 0 >>> 3, buffer.getD s.cursor 0 &&& 7)
      ∉ [(1, 2), (2, 0), (3, 0), (4, 2), (5, 2)]) :
    fieldLoopTrace buffer bufferLen (fuel + 1) s
      = some ({ cursor := s.cursor + 1, header := s.header,
                log := s.log ++ [.unexpectedField (buffer.getD s.cursor 0 >>> 3)
                  (buffer.getD s.cursor 0 &&& 7)] },
              .unexpectedField, [s.cursor]) ∧
    fieldLoop buffer bufferLen (fuel + 1) s
      = some { cursor := s.cursor + 1, header := s.header,
               log := s.log ++ [.unexpectedField (buffer.getD s.cursor 0 >>> 3)
                 (buffer.getD s.cursor 0 &&& 7)] } := by
  simp only [List.mem_cons, Prod.mk.injEq, List.mem_singleton, List.not_mem_nil, or_false,
    not_or] at hunknown
  obtain ⟨t1, t2, t3, t4, t5⟩ := hunknown
  refine ⟨?_, fieldLoop_unexpected hcur hlen t1 t2 t3 t4 t5⟩
  rw [fieldLoopTrace]
  simp only [loop_guard hcur, if_true, cursor_succ_mod hcur hlen, t1, t2, t3, t4, t5, if_false]

/-- The tag `77` (id 14, type 7) met after an audio-length field. -/
theorem unknown_field_fails_closed_witness :
    fieldLoopTrace [0x00, 0x00, 0x0F, 0xFC, 0x10, 0x05, 0x77, 0xFB, 0x1F] 9 (0 + 1)
        { cursor := 6, header := { blankHeader with audioLength := 5 }, log := [.loading] }
      = some ({ cursor := 6 + 1, header := { blankHeader with audioLength := 5 },
                log := [.loading] ++ [.unexpectedField
                  ([0x00, 0x00, 0x0F, 0xFC, 0x10, 0x05, 0x77, 0xFB, 0x1F].getD 6 0 >>> 3)
                  ([0x00, 0x00, 0x0F, 0xFC, 0x10, 0x05, 0x77, 0xFB, 0x1F].getD 6 0 &&& 7)] },
              .unexpectedField, [6]) :=
  (unknown_field_fails_closed [0x00, 0x00, 0x0F, 0xFC, 0x10, 0x05, 0x77, 0xFB, 0x1F] 9 0
    { cursor := 6, header := { blankHeader with audioLength := 5 }, log := [.loading] }
    (by decide) (by decide) (by decide)).1

/-- Claim C13, as stated, fails: on `00 00 0F FC 10 05 00` the audio-length field
is read, the cursor is then past the last tag position, the loop is left by its
condition without a padding field having been seen, and the call returns with
the loading message and one header dump in the log, no error. -/
theorem missing_terminator_is_silent :
    fieldLoopTrace (magicBytes ++ [0x10, 0x05, 0x00]) 7 3
        { cursor := 4, header := blankHeader, log := [.loading] }
      = some ({ cursor := 6, header := { blankHeader with audioLength := 5 },
                log := [.loading, .tonieHeader { blankHeader with audioLength := 5 }] },
              .condition, [4, 5]) ∧
    loadTonieByPath 3 true (magicBytes ++ [0x10, 0x05, 0x00]) 7 blankHeader
      = some ({ blankHeader with audioLength := 5 },
          [.loading, .tonieHeader { blankHeader with audioLength := 5 }]) := by
  decide

/-- Claim C13, amended: for every buffer of at most 512 read bytes with valid
magic in which the field loop ends because the cursor reached the end of the
read bytes (its condition fails, so no padding field was seen), decoding ends
silently: the call returns the header with the fields read so far, and its log
is the loading message followed by header dumps only, no error. -/
theorem missing_terminator_logs_no_error (fuel : Nat) (buffer : List Nat) (read : Nat)
    (header : TonieHeader) (s' : DecodeState) (reads : List Nat)
    (hread : 0 < read) (hlen : read ≤ 512) (hmagic : buffer.take 4 = magicBytes)
    (hloop : fieldLoopTrace buffer read fuel { cursor := 4, header := header, log := [.loading] }
      = some (s', .condition, reads)) :
    loadTonieByPath fuel true buffer read header = some (s'.header, s'.log) ∧
    read ≤ s'.cursor + 1 ∧
    ∀ m ∈ s'.log, m.isError = false := by
  have hmod : read % 65536 = read := Nat.mod_eq_of_lt (by omega)
  obtain ⟨hc, dumps, hd, hinfo⟩ :=
    fieldLoopTrace_condition_log buffer read hlen fuel _ s' reads hloop
  refine ⟨?_, hc, ?_⟩
  · rw [loadTonieByPath_eq_fieldLoop fuel buffer read header hread hmagic, hmod,
      ← fieldLoopTrace_erase, hloop]
    rfl
  · intro m hm
    rw [hd] at hm
    rcases List.mem_append.mp hm with hm | hm
    · simp only [List.mem_singleton] at hm
      rw [hm]; rfl
    · exact hinfo m hm

/-- The buffer `00 00 0F FC 10 05 00`: one field, then the end of the read bytes. -/
theorem missing_terminator_logs_no_error_witness :
    loadTonieByPath 3 true (magicBytes ++ [0x10, 0x05, 0x00]) 7 blankHeader
      = some ({ blankHeader with audioLength := 5 },
          [.loading, .tonieHeader { blankHeader with audioLength := 5 }]) ∧
    7 ≤ 6 + 1 ∧
    ∀ m ∈ [LogMsg.loading, .tonieHeader { blankHeader with audioLength := 5 }],
      m.isError = false :=
  missing_terminator_logs_no_error 3 (magicBytes ++ [0x10, 0x05, 0x00]) 7 blankHeader
    { cursor := 6, header := { blankHeader with audioLength := 5 },
      log := [.loading, .tonieHeader { blankHeader with audioLength := 5 }] } [4, 5]
    (by decide) (by decide) (by decide) (by decide)

set_option maxRecDepth 1000000 in
/-- Claim C17 fails on the code: the hash field is copied with `memcpy` of 20 bytes
without a comparison with `bufferLen`. On the 7 read bytes `00 00 0F FC 0A 14 01`
the indices read are 0 to 25, of which 7 to 25 are not below `bufferLen = 7`.
On the 512 read bytes made of the magic, 252 audio-length fields `10 00`, and
`0A 14 01 02`, the copy starts at index 510 and the last index read is 529,
past the end of the 512-byte array. -/
theorem hash_copy_reads_past_read_bytes :
    (loadTonieByPathTrace 2 true [0x00, 0x00, 0x0F, 0xFC, 0x0A, 0x14, 0x01] 7
        blankHeader).map (fun r => r.2.2) = some (List.range 26) ∧
    ((loadTonieByPathTrace 254 true
        (magicBytes ++ (List.replicate 252 [0x10, 0x00]).flatten ++ [0x0A, 0x14, 0x01, 0x02])
        512 blankHeader).map (fun r => r.2.2.getLast?)) = some (some 529) := by
  decide

/-- Claim C11: take a buffer `b1` of at most 512 read bytes with valid magic whose
decoding, from any prior header, leaves the field loop through a padding field
(id 5, type 2), and let `k` be the index of the last byte read, which is the
last byte read of the fill varint. Every buffer `b2` of the same length with
the same bytes at all indices up to `k` is decoded to the same header and the
same log messages, through the same reads, none of which lies beyond `k`:
the bytes after the padding field are never interpreted. -/
theorem padding_field_ends_parsing (fuel : Nat) (b1 b2 : List Nat) (read : Nat)
    (header : TonieHeader) (s' : DecodeState) (reads : List Nat) (k : Nat)
    (hread : 0 < read) (hlen : read ≤ 512) (hsize : b1.length = b2.length)
    (hmagic : b1.take 4 = magicBytes)
    (hloop : fieldLoopTrace b1 read fuel { cursor := 4, header := header, log := [.loading] }
      = some (s', .padding, reads))
    (hlast : reads.getLast? = some k)
    (hagree : ∀ i, i ≤ k → b1.getD i 0 = b2.getD i 0) :
    loadTonieByPath fuel true b1 read header = some (s'.header, s'.log) ∧
    loadTonieByPath fuel true b2 read header = some (s'.header, s'.log) ∧
    fieldLoopTrace b2 read fuel { cursor := 4, header := header, log := [.loading] }
      = some (s', .padding, reads) ∧
    ∀ i ∈ reads, i ≤ k := by
  have hmod : read % 65536 = read := Nat.mod_eq_of_lt (by omega)
  obtain ⟨k', hk', hck, hall⟩ := fieldLoopTrace_padding_reads hlen fuel _ s' reads hloop
  have hkk : k' = k := by
    rw [hlast] at hk'
    exact (Option.some.inj hk').symm
  subst hkk
  have hloop2 := fieldLoopTrace_congr fuel _ s' .padding reads hloop
    (fun i hi => hagree i (hall i hi))
  have hmagic2 : b2.take 4 = magicBytes := by
    rw [← take_eq_of_agree hsize (fun i hi => hagree i (by
      have : (4 : Nat) ≤ k' := hck
      omega))]
    exact hmagic
  refine ⟨?_, ?_, hloop2, hall⟩
  · rw [loadTonieByPath_eq_fieldLoop fuel b1 read header hread hmagic, hmod,
      ← fieldLoopTrace_erase, hloop]
    rfl
  · rw [loadTonieByPath_eq_fieldLoop fuel b2 read header hread hmagic2, hmod,
      ← fieldLoopTrace_erase, hloop2]
    rfl

/-- Two 12-byte buffers with an audio-length field and a padding field with fill
count 4087, which differ in the three bytes after the fill varint. -/
theorem padding_field_ends_parsing_witness :
    loadTonieByPath 5 true [0x00, 0x00, 0x0F, 0xFC, 0x10, 0x05, 0x2A, 0xF7, 0x1F, 7, 8, 9] 12
        blankHeader
      = some ({ blankHeader with audioLength := 5 },
          [.loading, .tonieHeader { blankHeader with audioLength := 5 }]) ∧
    loadTonieByPath 5 true [0x00, 0x00, 0x0F, 0xFC, 0x10, 0x05, 0x2A, 0xF7, 0x1F, 1, 2, 3] 12
        blankHeader
      = some ({ blankHeader with audioLength := 5 },
          [.loading, .tonieHeader { blankHeader with audioLength := 5 }]) ∧
    fieldLoopTrace [0x00, 0x00, 0x0F, 0xFC, 0x10, 0x05, 0x2A, 0xF7, 0x1F, 1, 2, 3] 12 5
        { cursor := 4, header := blankHeader, log := [.loading] }
      = some ({ cursor := 9, header := { blankHeader with audioLength := 5 },
                log := [.loading, .tonieHeader { blankHeader with audioLength := 5 }] },
              .padding, [4, 5, 6, 7, 8]) ∧
    ∀ i ∈ [4, 5, 6, 7, 8], i ≤ 8 :=
  padding_field_ends_parsing 5 [0x00, 0x00, 0x0F, 0xFC, 0x10, 0x05, 0x2A, 0xF7, 0x1F, 7, 8, 9]
    [0x00, 0x00, 0x0F, 0xFC, 0x10, 0x05, 0x2A, 0xF7, 0x1F, 1, 2, 3] 12 blankHeader
    { cursor := 9, header := { blankHeader with audioLength := 5 },
      log := [.loading, .tonieHeader { blankHeader with audioLength := 5 }] }
    [4, 5, 6, 7, 8] 8 (by decide) (by decide) (by decide) (by decide) (by decide) (by decide)
    (by decide)

end BoxTonies

namespace BoxBattery

/-! ## Battery events -/

theorem session_eq_loops (s : BatteryState) (lowAdc criticalAdc adcValue : Nat) (r : Reading)
    (rs : List Reading) :
    session s lowAdc criticalAdc adcValue r rs
      = loops (beginState s lowAdc criticalAdc adcValue) (r :: rs) := rfl

/-- A call of `loop` with the charger connected emits no battery-level event. -/
theorem loop_connected (s : BatteryState) (r : Reading) (h : isChargerConnected r = true) :
    BatteryEvent.BAT_LOW ∉ (loop s r).2 ∧ BatteryEvent.BAT_CRITICAL ∉ (loop s r).2 := by
  unfold loop
  simp only [h]
  cases r.wasPressed <;> cases r.wasReleased <;> simp

/-- A call of `loop` with the charger connected clears both flags: the next run
of calls on battery can emit each battery-level event once again. -/
theorem loop_connected_clears (s : BatteryState) (r : Reading)
    (h : isChargerConnected r = true) :
    (loop s r).1._wasLow = false ∧ (loop s r).1._wasCritical = false := by
  unfold loop
  simp only [h]
  exact ⟨rfl, rfl⟩

/-- The shape of one call of `loop` with the charger disconnected: the flags
seen by the latch tests are those the call started with, and the events before
the latch tests are charger events. -/
theorem loop_disconnected (s : BatteryState) (r : Reading) (h : isChargerConnected r = false) :
    ∃ (s1 : BatteryState) (chr : List BatteryEvent),
      s1._wasCritical = s._wasCritical ∧ s1._wasLow = s._wasLow ∧
      chr.count BatteryEvent.BAT_CRITICAL = 0 ∧ chr.count BatteryEvent.BAT_LOW = 0 ∧
      loop s r =
        if (!s1._wasCritical && isBatteryCritical s1) = true then
          ({ s1 with _wasCritical := true }, chr ++ [.BAT_CRITICAL])
        else if (!s1._wasLow && isBatteryLow s1) = true then
          ({ s1 with _wasLow := true }, chr ++ [.BAT_LOW])
        else (s1, chr) := by
  refine ⟨if (_readBatteryAdc s r.adcValue)._batteryAdcRaw
              < (_readBatteryAdc s r.adcValue)._batteryAdcLowRaw
              ∨ isChargerConnected r = true then
            { _readBatteryAdc s r.adcValue with
              _batteryAdcLowRaw := (_readBatteryAdc s r.adcValue)._batteryAdcRaw }
          else _readBatteryAdc s r.adcValue,
    if r.wasPressed then [.CHR_CONNECT]
      else if r.wasReleased then [.CHR_DISCONNECT] else [], ?_, ?_, ?_, ?_, ?_⟩
  · split_ifs <;> rfl
  · split_ifs <;> rfl
  · split_ifs <;> decide
  · split_ifs <;> decide
  · unfold loop
    simp only [h]
    rfl

theorem loop_disconnected_critical (s : BatteryState) (r : Reading)
    (h : isChargerConnected r = false) :
    (loop s r).2.count BatteryEvent.BAT_CRITICAL
        + (if (loop s r).1._wasCritical = true then 0 else 1)
      ≤ (if s._wasCritical = true then 0 else 1) := by
  obtain ⟨s1, chr, hc, hl, hcc, hcl, hloop⟩ := loop_disconnected s r h
  rw [hloop, ← hc]
  by_cases h1 : (!s1._wasCritical && isBatteryCritical s1) = true
  · rw [if_pos h1]
    have : s1._wasCritical = false := by
      cases hw : s1._wasCritical
      · rfl
      · rw [hw] at h1; exact absurd h1 (by simp)
    simp [this, hcc]
  · rw [if_neg h1]
    by_cases h2 : (!s1._wasLow && isBatteryLow s1) = true
    · rw [if_pos h2]
      simp [hcc]
    · rw [if_neg h2]
      simp [hcc]

theorem loop_disconnected_low (s : BatteryState) (r : Reading)
    (h : isChargerConnected r = false) :
    (loop s r).2.count BatteryEvent.BAT_LOW
        + (if (loop s r).1._wasLow = true then 0 else 1)
      ≤ (if s._wasLow = true then 0 else 1) := by
  obtain ⟨s1, chr, hc, hl, hcc, hcl, hloop⟩ := loop_disconnected s r h
  rw [hloop, ← hl]
  by_cases h1 : (!s1._wasCritical && isBatteryCritical s1) = true
  · rw [if_pos h1]
    simp [hcl]
  · rw [if_neg h1]
    by_cases h2 : (!s1._wasLow && isBatteryLow s1) = true
    · rw [if_pos h2]
      have : s1._wasLow = false := by
        cases hw : s1._wasLow
        · rfl
        · rw [hw] at h2; exact absurd h2 (by simp)
      simp [this, hcl]
    · rw [if_neg h2]
      simp [hcl]

/-- While the charger stays disconnected the calls of `loop` emit at most one
`BAT_CRITICAL`, and none when the flag is already set. -/
theorem loops_count_critical :
    ∀ (rs : List Reading) (s : BatteryState),
      (∀ q ∈ rs, isChargerConnected q = false) →
      (loops s rs).flatten.count BatteryEvent.BAT_CRITICAL
        ≤ (if s._wasCritical = true then 0 else 1) := by
  intro rs
  induction rs with
  | nil => intro s _; simp [loops]
  | cons r rs ih =>
    intro s h
    have h1 := loop_disconnected_critical s r (h r (List.mem_cons_self _ _))
    have h2 := ih (loop s r).1 (fun q hq => h q (List.mem_cons_of_mem _ hq))
    simp only [loops, List.flatten_cons, List.count_append]
    exact le_trans (Nat.add_le_add_left h2 _) h1

/-- While the charger stays disconnected the calls of `loop` emit at most one
`BAT_LOW`, and none when the flag is already set. -/
theorem loops_count_low :
    ∀ (rs : List Reading) (s : BatteryState),
      (∀ q ∈ rs, isChargerConnected q = false) →
      (loops s rs).flatten.count BatteryEvent.BAT_LOW
        ≤ (if s._wasLow = true then 0 else 1) := by
  intro rs
  induction rs with
  | nil => intro s _; simp [loops]
  | cons r rs ih =>
    intro s h
    have h1 := loop_disconnected_low s r (h r (List.mem_cons_self _ _))
    have h2 := ih (loop s r).1 (fun q hq => h q (List.mem_cons_of_mem _ hq))
    simp only [loops, List.flatten_cons, List.count_append]
    exact le_trans (Nat.add_le_add_left h2 _) h1

theorem loops_take : ∀ (n : Nat) (rs : List Reading) (s : BatteryState),
    (loops s rs).take n = loops s (rs.take n) := by
  intro n
  induction n with
  | zero => intro rs s; simp [loops]
  | succ n ih =>
    intro rs s
    cases rs with
    | nil => simp [loops]
    | cons r rs => simp [loops, ih]

/-- In every run of calls of `loop` with the charger disconnected, wherever it
starts in a sequence of calls, each of `BAT_CRITICAL` and `BAT_LOW` is emitted
at most once. -/
theorem loops_segment : ∀ (i n : Nat) (rs : List Reading) (s : BatteryState),
    (∀ q ∈ (rs.drop i).take n, isChargerConnected q = false) →
    (((loops s rs).drop i).take n).flatten.count BatteryEvent.BAT_CRITICAL ≤ 1 ∧
    (((loops s rs).drop i).take n).flatten.count BatteryEvent.BAT_LOW ≤ 1 := by
  intro i
  induction i with
  | zero =>
    intro n rs s h
    rw [List.drop_zero] at h ⊢
    rw [loops_take]
    refine ⟨le_trans (loops_count_critical _ s h) ?_, le_trans (loops_count_low _ s h) ?_⟩
    · split_ifs <;> omega
    · split_ifs <;> omega
  | succ i ih =>
    intro n rs s h
    cases rs with
    | nil => simp [loops]
    | cons r rs =>
      simp only [loops, List.drop_succ_cons] at h ⊢
      exact ih n rs _ h

/-- No call of `loop` with the charger connected emits a battery-level event. -/
theorem loops_connected : ∀ (rs : List Reading) (s : BatteryState) (k : Nat) (q : Reading)
    (es : List BatteryEvent),
    rs[k]? = some q → isChargerConnected q = true → (loops s rs)[k]? = some es →
    BatteryEvent.BAT_LOW ∉ es ∧ BatteryEvent.BAT_CRITICAL ∉ es := by
  intro rs
  induction rs with
  | nil => intro s k q es h; simp at h
  | cons r rs ih =>
    intro s k q es hq hc hes
    cases k with
    | zero =>
      simp only [loops, List.getElem?_cons_zero, Option.some.injEq] at hq hes
      subst hq; subst hes
      exact loop_connected s r hc
    | succ k =>
      simp only [loops, List.getElem?_cons_succ] at hq hes
      exact ih _ k q es hq hc hes

/-! ## Claim about the battery monitor -/

/-- Claim C18: battery events are latched. Take `begin` from any prior state,
any thresholds and any readings, followed by any number of calls of `loop`.
In every run of consecutive calls of `loop` in which the charger is not
connected (the `n` calls from call `i` on, so in particular the calls between
two calls with the charger connected that have no such call between them, and
the calls before the first one) `BAT_CRITICAL` is emitted at most once and
`BAT_LOW` is emitted at most once; and a call in which the charger is connected
emits neither. -/
theorem battery_events_latched (s : BatteryState) (lowAdc criticalAdc adcValue : Nat)
    (r : Reading) (rs : List Reading) :
    (∀ i n : Nat, (∀ q ∈ ((r :: rs).drop i).take n, isChargerConnected q = false) →
      (((session s lowAdc criticalAdc adcValue r rs).drop i).take n).flatten.count
          BatteryEvent.BAT_CRITICAL ≤ 1 ∧
      (((session s lowAdc criticalAdc adcValue r rs).drop i).take n).flatten.count
          BatteryEvent.BAT_LOW ≤ 1) ∧
    (∀ (k : Nat) (q : Reading) (es : List BatteryEvent),
      (r :: rs)[k]? = some q → isChargerConnected q = true →
      (session s lowAdc criticalAdc adcValue r rs)[k]? = some es →
      BatteryEvent.BAT_LOW ∉ es ∧ BatteryEvent.BAT_CRITICAL ∉ es) := by
  rw [session_eq_loops]
  exact ⟨fun i n h => loops_segment i n _ _ h, fun k q es => loops_connected _ _ k q es⟩

/-- A session of five calls: charger connected, three calls on battery with a
reading below both thresholds, charger connected again. The three calls on
battery emit one `BAT_CRITICAL` and one `BAT_LOW`. -/
theorem battery_events_latched_witness :
    session ⟨true, true, 0, 0, 0, 0⟩ 2500 2400 3000 ⟨3000, true, true, false⟩
        [⟨2300, false, false, true⟩, ⟨2300, false, false, false⟩,
         ⟨2300, false, false, false⟩, ⟨3000, true, true, false⟩]
      = [[.CHR_CONNECT], [.CHR_DISCONNECT, .BAT_CRITICAL], [.BAT_LOW], [], [.CHR_CONNECT]] ∧
    (((session ⟨true, true, 0, 0, 0, 0⟩ 2500 2400 3000 ⟨3000, true, true, false⟩
        [⟨2300, false, false, true⟩, ⟨2300, false, false, false⟩,
         ⟨2300, false, false, false⟩, ⟨3000, true, true, false⟩]).drop 1).take 3).flatten.count
          BatteryEvent.BAT_CRITICAL ≤ 1 ∧
    (((session ⟨true, true, 0, 0, 0, 0⟩ 2500 2400 3000 ⟨3000, true, true, false⟩
        [⟨2300, false, false, true⟩, ⟨2300, false, false, false⟩,
         ⟨2300, false, false, false⟩, ⟨3000, true, true, false⟩]).drop 1).take 3).flatten.count
          BatteryEvent.BAT_LOW ≤ 1 :=
  ⟨by decide,
   (battery_events_latched ⟨true, true, 0, 0, 0, 0⟩ 2500 2400 3000 ⟨3000, true, true, false⟩
      [⟨2300, false, false, true⟩, ⟨2300, false, false, false⟩,
       ⟨2300, false, false, false⟩, ⟨3000, true, true, false⟩]).1 1 3 (by decide)⟩

end BoxBattery
